import Mathlib

/-!
Shallow embedding of the reconciliation engine of `src/src/external_dns/cli.py`
(the `ExternalDNSSyncer` class and its helpers), together with the retry
utility `retry_with_backoff` and the Traefik hostname extractor
`TraefikProxyProvider._extract_hostnames`.

Python dictionaries are modelled as association lists with insertion-order
semantics (`dictLookup` / `dictSet` / `dictErase`); the resolver is a list of
`DNSRecord`s; every DNS mutation issued by the engine is recorded in an
operation trace so that theorems can speak about the calls the engine makes.
DNS-operation failures and proxy-poll failures are scripted through the
environment, mirroring the fact that `AdGuardDNSProvider.get_records` returns
`[]` on failure and `add_record`/`delete_record` return `False` on failure.
-/

/-- Lookup in a Python-style dict modelled as an association list
(first binding wins, as keys are unique in a real dict). -/
def dictLookup {α : Type} : List (String × α) → String → Option α
  | [], _ => none
  | (k', v) :: rest, k => if k' = k then some v else dictLookup rest k

/-- `k in d` for a Python-style dict. -/
def dictContains {α : Type} (l : List (String × α)) (k : String) : Bool :=
  (dictLookup l k).isSome

/-- `d[k] = v` for a Python-style dict: replace the binding in place if the
key is present, otherwise append at the end (insertion order). -/
def dictSet {α : Type} : List (String × α) → String → α → List (String × α)
  | [], k, v => [(k, v)]
  | (k', v') :: rest, k, v =>
      if k' = k then (k, v) :: rest else (k', v') :: dictSet rest k v

/-- `del d[k]` for a Python-style dict. -/
def dictErase {α : Type} : List (String × α) → String → List (String × α)
  | [], _ => []
  | (k', v) :: rest, k =>
      if k' = k then dictErase rest k else (k', v) :: dictErase rest k

/-- Insertion step for an insertion sort with a boolean comparison. -/
def insertBy {α : Type} (lt : α → α → Bool) (a : α) : List α → List α
  | [] => [a]
  | b :: t => if lt a b then a :: b :: t else b :: insertBy lt a t

/-- Insertion sort with a boolean comparison, modelling Python `sorted`. -/
def sortBy {α : Type} (lt : α → α → Bool) (l : List α) : List α :=
  l.foldr (insertBy lt) []

/-- Python `sorted` on a list of strings. -/
def sortStrings (l : List String) : List String :=
  sortBy (fun a b => decide (a < b)) l

/-- Python `sorted` on `dict.items()` pairs (lexicographic on tuples). -/
def sortPairs (l : List (String × String)) : List (String × String) :=
  sortBy (fun p q => decide (p.1 < q.1) || (p.1 == q.1 && decide (p.2 < q.2))) l

/-- DNS zone classification (`DNSZone`, cli.py lines 487-499). -/
inductive DNSZone where
  | internal
  | external
deriving DecidableEq

/-- A DNS rewrite record `(domain, answer)` (`DNSRecord`, cli.py lines 507-512). -/
structure DNSRecord where
  domain : String
  answer : String
deriving DecidableEq

/-- A route discovered from a reverse proxy (`ProxyRoute`, cli.py lines 515-523). -/
structure ProxyRoute where
  hostname : String
  source_name : String
  target_ip : String
  zone : DNSZone
  router_name : String
deriving DecidableEq

/-- A configured reverse-proxy instance (`ProxyInstance`, cli.py lines 526-538).
Only the fields the reconciler reads are modelled; the transport-only fields
(credentials, TLS flag, filters) are consumed inside the proxy adapter. -/
structure ProxyInstance where
  name : String
  url : String
  target_ip : String
deriving DecidableEq

/-- Per-instance status stored in the state file (`state["instances"][name]`). -/
structure InstanceInfo where
  last_success : Nat
  last_error : String
  url : String
deriving DecidableEq

/-- One entry of `state["domains"][d]["sources"]`. -/
structure SourceInfo where
  answer : String
  last_seen : Nat
deriving DecidableEq

/-- One entry of `state["domains"]`. -/
structure DomainState where
  sources : List (String × SourceInfo)
deriving DecidableEq

/-- The persisted state document after `sync_once`'s `setdefault` calls
(cli.py lines 1282-1286): `instances`, `domains`, `managed_records`. -/
structure PState where
  instances : List (String × InstanceInfo)
  domains : List (String × DomainState)
  managed_records : List (String × List String)
deriving DecidableEq

/-- A mutation issued against the DNS provider. -/
inductive DnsOp where
  | add (domain answer : String)
  | delete (domain answer : String)
deriving DecidableEq

/-- The world a reconcile cycle acts on: the state document, the resolver's
rewrite list, the trace of DNS mutations issued so far, and the conflict
warnings logged so far. -/
structure World where
  state : PState
  resolver : List DNSRecord
  trace : List DnsOp
  warnings : List String
deriving DecidableEq

/-- The environment of one reconcile cycle: configuration plus the scripted
behaviour of the proxy and DNS transports. -/
structure Env where
  instances : List ProxyInstance
  poll : ProxyInstance → Except String (List ProxyRoute)
  exclude_patterns : List (String → Bool)
  static_rewrites : List (String × String)
  listFails : Bool
  addFails : String → String → Bool
  deleteFails : String → String → Bool
  now : Nat
  startup_cleanup_done : Bool

/-- `_is_domain_excluded` (cli.py lines 1085-1090): any pattern matches. -/
def _is_domain_excluded (domain : String) (patterns : List (String → Bool)) : Bool :=
  patterns.any (fun p => p domain)

/-- `AdGuardDNSProvider.get_records` (cli.py lines 613-636): on a transport
failure the exception is caught and the empty list is returned. -/
def dns_get_records (env : Env) (w : World) : List DNSRecord :=
  if env.listFails then [] else w.resolver

/-- `AdGuardDNSProvider.add_record` (cli.py lines 638-654): returns `False`
on failure; the call is recorded in the trace either way. -/
def dns_add_record (env : Env) (w : World) (domain answer : String) : World × Bool :=
  let w' := { w with trace := w.trace ++ [DnsOp.add domain answer] }
  if env.addFails domain answer then (w', false)
  else ({ w' with resolver := w'.resolver ++ [⟨domain, answer⟩] }, true)

/-- `AdGuardDNSProvider.delete_record` (cli.py lines 656-674): deletes by
`(domain, answer)` pair; deleting an absent pair still succeeds. -/
def dns_delete_record (env : Env) (w : World) (domain answer : String) : World × Bool :=
  let w' := { w with trace := w.trace ++ [DnsOp.delete domain answer] }
  if env.deleteFails domain answer then (w', false)
  else ({ w' with resolver := w'.resolver.filter (fun r => r != ⟨domain, answer⟩) }, true)

/-- `DNSProvider.update_record` (cli.py lines 575-579): delete then add. -/
def dns_update_record (env : Env) (w : World) (domain old_answer new_answer : String) :
    World × Bool :=
  let p := dns_delete_record env w domain old_answer
  if p.2 then dns_add_record env p.1 domain new_answer else (p.1, false)

/-- `ExternalDNSSyncer._is_record_managed` (cli.py lines 1167-1170). -/
def _is_record_managed (state : PState) (domain answer : String) : Bool :=
  decide (answer ∈ ((dictLookup state.managed_records domain).getD []))

/-- `ExternalDNSSyncer._mark_record_managed` (cli.py lines 1172-1177). -/
def _mark_record_managed (state : PState) (domain answer : String) : PState :=
  let cur := (dictLookup state.managed_records domain).getD []
  if answer ∈ cur then state
  else { state with managed_records := dictSet state.managed_records domain (cur ++ [answer]) }

/-- `ExternalDNSSyncer._unmark_record_managed` (cli.py lines 1179-1186):
remove the answer (first occurrence, as `list.remove`) and drop the key when
the remaining list is empty. -/
def _unmark_record_managed (state : PState) (domain answer : String) : PState :=
  match dictLookup state.managed_records domain with
  | none => state
  | some answers =>
      let answers' := if answer ∈ answers then answers.erase answer else answers
      if answers' = [] then
        { state with managed_records := dictErase state.managed_records domain }
      else
        { state with managed_records := dictSet state.managed_records domain answers' }

/-- Group the resolver's records by domain, preserving listing order
(`records_by_domain` construction, cli.py lines 1419-1421 and 1232-1234). -/
def groupByDomain (records : List DNSRecord) : List (String × List String) :=
  records.foldl
    (fun acc r => dictSet acc r.domain ((dictLookup acc r.domain).getD [] ++ [r.answer])) []

/-- Body of the static-rewrite loop (cli.py lines 1194-1215), acting on one
`(domain, answer)` entry against the snapshot `current_records`. -/
def staticStep (env : Env) (current_records : List (String × String)) (w : World)
    (entry : String × String) : World :=
  match dictLookup current_records entry.1 with
  | some current_answer =>
      if current_answer = entry.2 then
        { w with state := _mark_record_managed w.state entry.1 entry.2 }
      else if _is_record_managed w.state entry.1 current_answer then
        let p := dns_update_record env w entry.1 current_answer entry.2
        let st := _unmark_record_managed p.1.state entry.1 current_answer
        { p.1 with state := _mark_record_managed st entry.1 entry.2 }
      else w
  | none =>
      let p := dns_add_record env w entry.1 entry.2
      { p.1 with state := _mark_record_managed p.1.state entry.1 entry.2 }

/-- The dict comprehension `{r.domain: r.answer for r in records}` (cli.py
line 1192): later records for the same domain win. -/
def lastWins (records : List DNSRecord) : List (String × String) :=
  records.foldl (fun acc r => dictSet acc r.domain r.answer) []

/-- `ExternalDNSSyncer._sync_static_rewrites` (cli.py lines 1188-1215). -/
def _sync_static_rewrites (env : Env) (w : World) : World :=
  if env.static_rewrites = [] then w
  else
    let current_records := lastWins (dns_get_records env w)
    env.static_rewrites.foldl (staticStep env current_records) w

/-- Remove every name of `removed` from a sources dict (the inner loop of
`_cleanup_removed_instances`, cli.py lines 1244-1247). -/
def removeSources (sources : List (String × SourceInfo)) (removed : List String) :
    List (String × SourceInfo) :=
  removed.foldl (fun s n => dictErase s n) sources

/-- Per-domain step of the removed-instance source cleanup (cli.py lines
1238-1251). -/
def cleanupSourceStep (removed : List String)
    (acc : List (String × DomainState) × List String) (entry : String × DomainState) :
    List (String × DomainState) × List String :=
  if entry.2.sources = [] then (acc.1 ++ [entry], acc.2)
  else
    let ss := removeSources entry.2.sources removed
    if ss = [] then (acc.1 ++ [(entry.1, ⟨ss⟩)], acc.2 ++ [entry.1])
    else (acc.1 ++ [(entry.1, ⟨ss⟩)], acc.2)

/-- First half of `_cleanup_removed_instances` (cli.py lines 1237-1251):
strip removed instances from every domain's sources and collect the domains
whose sources became empty (skipping domains whose sources were already empty). -/
def cleanupSources (removed : List String) (domains : List (String × DomainState)) :
    List (String × DomainState) × List String :=
  domains.foldl (cleanupSourceStep removed) ([], [])

/-- Delete-and-unmark step shared by every managed-guarded deletion loop
(cli.py lines 1260-1266, 1431-1435, 1515-1519). -/
def deleteManagedIfStep (env : Env) (domain : String) (w : World) (answer : String) : World :=
  if _is_record_managed w.state domain answer then
    let p := dns_delete_record env w domain answer
    { p.1 with state := _unmark_record_managed p.1.state domain answer }
  else w

/-- Per-domain deletion step of `_cleanup_removed_instances` (cli.py lines
1254-1273): delete only managed answers, then drop the state entry. -/
def cleanupDeleteStep (env : Env) (records_by_domain : List (String × List String))
    (w : World) (domain : String) : World :=
  if dictContains env.static_rewrites domain then w
  else
    let w :=
      ((dictLookup records_by_domain domain).getD []).foldl (deleteManagedIfStep env domain) w
    { w with state := { w.state with domains := dictErase w.state.domains domain } }

/-- The set `removed_instances = set(state["instances"].keys()) -
configured_names` (cli.py lines 1221-1223), as the key list filtered to
unconfigured names. -/
def removedNames (env : Env) (st : PState) : List String :=
  (st.instances.map (fun p => p.1)).filter
    (fun n => !((env.instances.map (fun i => i.name)).contains n))

/-- `ExternalDNSSyncer._cleanup_removed_instances` (cli.py lines 1217-1278). -/
def _cleanup_removed_instances (env : Env) (w : World) : World :=
  if removedNames env w.state = [] then w
  else
    let records_by_domain := groupByDomain (dns_get_records env w)
    let pr := cleanupSources (removedNames env w.state) w.state.domains
    let w1 := { w with state := { w.state with domains := pr.1 } }
    let w2 := (sortStrings pr.2).foldl (cleanupDeleteStep env records_by_domain) w1
    { w2 with state :=
        { w2.state with
            instances := (removedNames env w.state).foldl dictErase w2.state.instances } }

/-- Poll results gathered during the instance loop: `instance_success` and
`instance_seen_domains` (cli.py lines 1298-1299). -/
structure PollResults where
  success : List (String × Bool)
  seen : List (String × List String)

/-- Per-route body of the successful-poll branch (cli.py lines 1308-1329):
skip excluded hostnames and EXTERNAL-zone routes, add the hostname to `seen`,
and write the fresh source entry. -/
def pollRouteStep (env : Env) (instName : String) (acc : PState × List String)
    (route : ProxyRoute) : PState × List String :=
  if _is_domain_excluded route.hostname env.exclude_patterns then acc
  else if route.zone = DNSZone.external then acc
  else
    let seen := if route.hostname ∈ acc.2 then acc.2 else acc.2 ++ [route.hostname]
    let ds := (dictLookup acc.1.domains route.hostname).getD ⟨[]⟩
    let ds := { ds with sources := dictSet ds.sources instName ⟨route.target_ip, env.now⟩ }
    ({ acc.1 with domains := dictSet acc.1.domains route.hostname ds }, seen)

/-- Per-instance body of the poll loop (cli.py lines 1301-1362). -/
def pollInstanceStep (env : Env) (acc : World × PollResults) (inst : ProxyInstance) :
    World × PollResults :=
  match env.poll inst with
  | Except.ok routes =>
      let p := routes.foldl (pollRouteStep env inst.name) (acc.1.state, [])
      let st := { p.1 with instances := dictSet p.1.instances inst.name ⟨env.now, "", inst.url⟩ }
      ({ acc.1 with state := st },
       { success := dictSet acc.2.success inst.name true,
         seen := dictSet acc.2.seen inst.name p.2 })
  | Except.error err =>
      let prev := ((dictLookup acc.1.state.instances inst.name).map
        (fun i => i.last_success)).getD 0
      let st := { acc.1.state with
        instances := dictSet acc.1.state.instances inst.name ⟨prev, err, inst.url⟩ }
      ({ acc.1 with state := st },
       { success := dictSet acc.2.success inst.name false,
         seen := dictSet acc.2.seen inst.name [] })

/-- The poll loop over all configured instances (cli.py lines 1301-1362). -/
def pollPhase (env : Env) (w : World) : World × PollResults :=
  env.instances.foldl (pollInstanceStep env) (w, ⟨[], []⟩)

/-- One iteration of the pruning loop over configured instances (cli.py
lines 1372-1379). -/
def pruneStep (pr : PollResults) (domain : String)
    (ss : List (String × SourceInfo)) (inst : ProxyInstance) : List (String × SourceInfo) :=
  if !((dictLookup pr.success inst.name).getD false) then ss
  else if !(dictContains ss inst.name) then ss
  else if domain ∈ (dictLookup pr.seen inst.name).getD [] then ss
  else dictErase ss inst.name

/-- Source pruning for one domain (cli.py lines 1372-1379): an entry is
removed only for a configured instance whose poll succeeded and whose `seen`
set does not contain the domain. -/
def pruneSources (env : Env) (pr : PollResults) (domain : String)
    (sources : List (String × SourceInfo)) : List (String × SourceInfo) :=
  env.instances.foldl (pruneStep pr domain) sources

/-- Per-domain step of the pruning loop, rebuilding the domains dict and
collecting domains left with no sources (cli.py lines 1365-1382). -/
def pruneDomainStep (env : Env) (pr : PollResults)
    (acc : List (String × DomainState) × List String) (entry : String × DomainState) :
    List (String × DomainState) × List String :=
  let ss := pruneSources env pr entry.1 entry.2.sources
  (acc.1 ++ [(entry.1, (⟨ss⟩ : DomainState))],
   if ss = [] then acc.2 ++ [entry.1] else acc.2)

/-- The prune step (cli.py lines 1364-1382): prune every domain's sources and
collect `domains_to_delete_from_state` (domains with no sources left). -/
def prunePhase (env : Env) (pr : PollResults) (st : PState) : PState × List String :=
  let folded := st.domains.foldl (pruneDomainStep env pr) ([], [])
  ({ st with domains := folded.1 }, folded.2)

/-- Pick the answer from the first configured instance present in `sources`
with a truthy answer (cli.py lines 1391-1399). -/
def chooseAnswer (instanceList : List ProxyInstance)
    (sources : List (String × SourceInfo)) : Option (String × String) :=
  match instanceList with
  | [] => none
  | inst :: rest =>
      match dictLookup sources inst.name with
      | some src =>
          if src.answer ≠ "" then some (src.answer, inst.name)
          else chooseAnswer rest sources
      | none => chooseAnswer rest sources

/-- The set of distinct truthy answers of a sources dict (cli.py lines
1405-1407); only its size matters (conflict warning when > 1). -/
def distinctAnswers (sources : List (String × SourceInfo)) : List String :=
  List.eraseDups ((sources.map (fun p => p.2.answer)).filter (fun a => a != ""))

/-- One iteration of the desired-set loop (cli.py lines 1386-1414): skip
domains with empty sources or with no chosen answer; record a conflict
warning when several distinct answers exist. -/
def desiredStep (instanceList : List ProxyInstance)
    (acc : List (String × String) × List String) (entry : String × DomainState) :
    List (String × String) × List String :=
  if entry.2.sources = [] then acc
  else
    match chooseAnswer instanceList entry.2.sources with
    | none => acc
    | some ans =>
        let warns :=
          if (distinctAnswers entry.2.sources).length > 1 then acc.2 ++ [entry.1] else acc.2
        (dictSet acc.1 entry.1 ans.1, warns)

/-- Compute the desired record set and the conflict warnings (cli.py lines
1384-1414). -/
def computeDesired (instanceList : List ProxyInstance)
    (domains : List (String × DomainState)) : List (String × String) × List String :=
  domains.foldl (desiredStep instanceList) ([], [])

/-- Inner loop of the exclusion cleanup (cli.py lines 1430-1440): delete and
unmark every managed answer; track whether anything was deleted. -/
def exclInnerStep (env : Env) (domain : String) (acc : World × Bool) (answer : String) :
    World × Bool :=
  if _is_record_managed acc.1.state domain answer then
    let p := dns_delete_record env acc.1 domain answer
    ({ p.1 with state := _unmark_record_managed p.1.state domain answer }, true)
  else acc

/-- Per-domain step of the exclusion cleanup (cli.py lines 1425-1445): skip
static rewrites; for an excluded domain delete managed answers, drop the
state entry, and drop the grouped entry when something was deleted. -/
def exclStep (env : Env) (acc : World × List (String × List String))
    (entry : String × List String) : World × List (String × List String) :=
  if dictContains env.static_rewrites entry.1 then acc
  else if _is_domain_excluded entry.1 env.exclude_patterns then
    let p := entry.2.foldl (exclInnerStep env entry.1) (acc.1, false)
    let w := { p.1 with state :=
      { p.1.state with domains := dictErase p.1.state.domains entry.1 } }
    if p.2 then (w, dictErase acc.2 entry.1) else (w, acc.2)
  else acc

/-- The exclusion cleanup over the grouped resolver records (cli.py lines
1423-1445); iterates the snapshot `list(records_by_domain.items())` while
mutating `records_by_domain`. -/
def exclusionCleanup (env : Env) (w : World) (rbd : List (String × List String)) :
    World × List (String × List String) :=
  if env.exclude_patterns.isEmpty then (w, rbd)
  else rbd.foldl (exclStep env) (w, rbd)

/-- Unconditional delete-and-unmark step of the creates/updates branches
(cli.py lines 1479-1480, 1492-1493, 1502-1503). -/
def deleteManagedStep (env : Env) (domain : String) (w : World) (old_answer : String) : World :=
  let p := dns_delete_record env w domain old_answer
  { p.1 with state := _unmark_record_managed p.1.state domain old_answer }

/-- The duplicate-cleanup step of the adopt branch (cli.py lines 1476-1480):
delete managed answers other than the adopted one. -/
def deleteDupStep (env : Env) (domain answer : String) (w : World) (old_answer : String) :
    World :=
  if old_answer ≠ answer then deleteManagedStep env domain w old_answer else w

/-- One iteration of the creates/updates loop (cli.py lines 1448-1506) for a
desired `(domain, answer)` pair against the grouped records. -/
def applyDesiredStep (env : Env) (rbd : List (String × List String)) (w : World)
    (entry : String × String) : World :=
  let domain := entry.1
  let answer := entry.2
  let existing_answers := (dictLookup rbd domain).getD []
  if existing_answers = [] then
    let p := dns_add_record env w domain answer
    { p.1 with state := _mark_record_managed p.1.state domain answer }
  else if existing_answers = [answer] then
    { w with state := _mark_record_managed w.state domain answer }
  else
    let managed_answers := existing_answers.filter (fun a => _is_record_managed w.state domain a)
    let unmanaged_answers :=
      existing_answers.filter (fun a => !(_is_record_managed w.state domain a))
    if unmanaged_answers ≠ [] then
      if answer ∈ unmanaged_answers then
        let w := { w with state := _mark_record_managed w.state domain answer }
        managed_answers.foldl (deleteDupStep env domain answer) w
      else
        managed_answers.foldl (deleteManagedStep env domain) w
    else
      let w := existing_answers.foldl (deleteManagedStep env domain) w
      let p := dns_add_record env w domain answer
      { p.1 with state := _mark_record_managed p.1.state domain answer }

/-- One iteration of the orphan-deletion loop (cli.py lines 1509-1522):
static rewrites are kept; only managed answers are deleted; the state entry
is dropped. -/
def deleteDomainStep (env : Env) (rbd : List (String × List String)) (w : World)
    (domain : String) : World :=
  if dictContains env.static_rewrites domain then w
  else
    let w := ((dictLookup rbd domain).getD []).foldl (deleteManagedIfStep env domain) w
    { w with state := { w.state with domains := dictErase w.state.domains domain } }

/-- Steps 2-3 of the cycle: first-cycle instance cleanup (cli.py lines
1291-1293) then static rewrites (line 1296). -/
def afterStatic (env : Env) (w : World) : World :=
  let w := if !env.startup_cleanup_done then _cleanup_removed_instances env w else w
  _sync_static_rewrites env w

/-- Steps 2-4: cleanup, statics, then the poll loop. -/
def pollOut (env : Env) (w : World) : World × PollResults :=
  pollPhase env (afterStatic env w)

/-- Steps 2-5: state and `domains_to_delete_from_state` after pruning. -/
def pruneOut (env : Env) (w : World) : PState × List String :=
  prunePhase env (pollOut env w).2 (pollOut env w).1.state

/-- The desired record set computed by the cycle (cli.py lines 1384-1414). -/
def desiredOf (env : Env) (w : World) : List (String × String) :=
  (computeDesired env.instances (pruneOut env w).1.domains).1

/-- The world just before the resolver listing of Step 7 (cli.py line 1416). -/
def afterDesired (env : Env) (w : World) : World :=
  let wp := (pollOut env w).1
  let st := (pruneOut env w).1
  { wp with
    state := st
    warnings := wp.warnings ++ (computeDesired env.instances st.domains).2 }

/-- The record list returned by the Step 7 `get_records` call (cli.py line 1416). -/
def step7Listing (env : Env) (w : World) : List DNSRecord :=
  dns_get_records env (afterDesired env w)

/-- `ExternalDNSSyncer.sync_once` (cli.py lines 1280-1524), composed from the
phases above in source order. `state_store.save` is the returned state. -/
def sync_once (env : Env) (w0 : World) : World :=
  let w := afterDesired env w0
  let rbd := groupByDomain (step7Listing env w0)
  let p := exclusionCleanup env w rbd
  let w := (sortPairs (desiredOf env w0)).foldl (applyDesiredStep env p.2) p.1
  (sortStrings (pruneOut env w0).2).foldl (deleteDomainStep env p.2) w

/-- Running two cycles back-to-back in one process: the second cycle sees
`_startup_cleanup_done = True` (cli.py lines 1291-1293). -/
def sync_twice (env : Env) (w0 : World) : World :=
  sync_once { env with startup_cleanup_done := true } (sync_once env w0)

/-- Exceptions raised inside an adapter call. `requestException` covers
every `requests.exceptions.RequestException`, including the `HTTPError`
raised by `raise_for_status()`; the flag records whether it came from a
definitive 4xx response. `otherError` is any other exception. -/
inductive PyExc where
  | requestException (http4xx : Bool)
  | otherError
deriving DecidableEq

/-- Whether `retry_with_backoff`'s except-clause catches the exception: the
call sites leave `retryable_exceptions = (requests.exceptions.RequestException,)`
(cli.py line 135), which matches every `RequestException` subclass. -/
def isRetryable (e : PyExc) : Bool :=
  match e with
  | PyExc.requestException _ => true
  | PyExc.otherError => false

/-- Outcome of a `retry_with_backoff` invocation: final result, number of
calls to `func`, and the sleeps performed (in whole seconds; the float
defaults 1.0/2.0/30.0 are exact naturals). -/
structure RetryResult (T : Type) where
  result : Except PyExc T
  calls : Nat
  delays : List Nat

/-- The retry loop of `retry_with_backoff` (cli.py lines 155-166), unrolled
on the remaining fuel (`max_retries + 1 - attempt` iterations remain). -/
def retryGo {T : Type} (func : Nat → Except PyExc T)
    (max_retries base_delay max_delay exponential_base : Nat) :
    Nat → Nat → RetryResult T
  | _, 0 => ⟨Except.error PyExc.otherError, 0, []⟩
  | attempt, fuel + 1 =>
      match func attempt with
      | Except.ok v => ⟨Except.ok v, 1, []⟩
      | Except.error e =>
          if isRetryable e then
            if attempt = max_retries then ⟨Except.error e, 1, []⟩
            else
              let delay := min (base_delay * exponential_base ^ attempt) max_delay
              let r := retryGo func max_retries base_delay max_delay exponential_base
                (attempt + 1) fuel
              ⟨r.result, r.calls + 1, delay :: r.delays⟩
          else ⟨Except.error e, 1, []⟩

/-- `retry_with_backoff` (cli.py lines 128-166). `func attempt` is the
outcome of the `attempt`-th invocation of the zero-argument callable. -/
def retry_with_backoff {T : Type} (func : Nat → Except PyExc T)
    (max_retries base_delay max_delay exponential_base : Nat) : RetryResult T :=
  retryGo func max_retries base_delay max_delay exponential_base 0 (max_retries + 1)

/-- One of the three quote delimiters accepted by `HOST_RULE_RE`
(cli.py line 705): backtick, double quote, single quote. -/
def isHostDelim (c : Char) : Bool :=
  c == Char.ofNat 96 || c == Char.ofNat 34 || c == Char.ofNat 39

/-- Match a prefix of a character list, returning the remainder. -/
def stripPrefixChars : List Char → List Char → Option (List Char)
  | [], cs => some cs
  | _ :: _, [] => none
  | p :: ps, c :: cs => if c = p then stripPrefixChars ps cs else none

/-- Longest run of non-delimiter characters (the `[^...]+` capture of
`HOST_RULE_RE`) and the remainder. -/
def takeContent : List Char → List Char × List Char
  | [] => ([], [])
  | c :: rest =>
      if isHostDelim c then ([], c :: rest)
      else
        let p := takeContent rest
        (c :: p.1, p.2)

/-- Try to match `HOST_RULE_RE` at the head of the input: the literal
`Host(`, an opening delimiter, a non-empty run of non-delimiter characters
(captured), a closing delimiter, and `)`. The regex's character class lets
the two delimiters differ. Returns the capture and the rest of the input. -/
def matchHostAt (cs : List Char) : Option (List Char × List Char) :=
  match stripPrefixChars "Host(".data cs with
  | none => none
  | some rest =>
      match rest with
      | [] => none
      | d1 :: rest2 =>
          if isHostDelim d1 then
            let p := takeContent rest2
            if p.1 = [] then none
            else
              match p.2 with
              | d2 :: cp :: rest4 =>
                  if isHostDelim d2 && cp == Char.ofNat 41 then some (p.1, rest4)
                  else none
              | _ => none
          else none

/-- Left-to-right non-overlapping scan of `HOST_RULE_RE.finditer`; the fuel
argument (initially the input length) bounds the recursion. -/
def findHostMatchesGo : Nat → List Char → List String
  | 0, _ => []
  | _ + 1, [] => []
  | fuel + 1, c :: rest =>
      match matchHostAt (c :: rest) with
      | some p => String.mk p.1 :: findHostMatchesGo fuel p.2
      | none => findHostMatchesGo fuel rest

/-- `TraefikProxyProvider._extract_hostnames` (cli.py lines 963-965):
`sorted({m.group(1) for m in HOST_RULE_RE.finditer(rule)})`. -/
def _extract_hostnames (rule : String) : List String :=
  sortStrings (List.eraseDups (findHostMatchesGo rule.data.length rule.data))

/-!  Derived notions used to state theorems about the cycle. -/

/-- The managed answers recorded for a domain. -/
def managedOf (st : PState) (domain : String) : List String :=
  (dictLookup st.managed_records domain).getD []

/-- The answers a record list holds for a domain, in listing order. -/
def answersOf (records : List DNSRecord) (domain : String) : List String :=
  (records.filter (fun r => r.domain == domain)).map (fun r => r.answer)

/-- Whether the poll loop keeps a route: not excluded and not EXTERNAL
(cli.py lines 1310-1322). -/
def routeKept (env : Env) (r : ProxyRoute) : Bool :=
  !(_is_domain_excluded r.hostname env.exclude_patterns) && !(r.zone == DNSZone.external)

/-- The `seen` set built by the successful-poll branch for a route list. -/
def seenFold (env : Env) (routes : List ProxyRoute) (s : List String) : List String :=
  routes.foldl
    (fun s r =>
      if routeKept env r then (if r.hostname ∈ s then s else s ++ [r.hostname]) else s) s

/-- The target of the last kept route for a hostname (the value the poll
loop leaves in `sources[instance.name].answer`). -/
def lastTarget (env : Env) (routes : List ProxyRoute) (h : String) : Option String :=
  ((routes.filter (fun r => routeKept env r && r.hostname == h)).getLast?).map
    (fun r => r.target_ip)

/-- The desired answer contributed by one domain-state entry (the body of
the desired-set loop, cli.py lines 1386-1414). -/
def desiredFor (il : List ProxyInstance) (ds : DomainState) : Option String :=
  if ds.sources = [] then none
  else (chooseAnswer il ds.sources).map (fun p => p.1)

/-!  Concrete environments used by the counterexamples and witnesses. -/

/-- One instance `core` with target `2.2.2.2` reporting `app.com`, while a
static rewrite pins `app.com` to `1.1.1.1` and the resolver already holds an
operator-created `(app.com, 1.1.1.1)`. -/
def envStaticConflict : Env where
  instances := [⟨"core", "http://traefik:8080", "2.2.2.2"⟩]
  poll := fun _ => Except.ok [⟨"app.com", "core", "2.2.2.2", DNSZone.internal, "app@docker"⟩]
  exclude_patterns := []
  static_rewrites := [("app.com", "1.1.1.1")]
  listFails := false
  addFails := fun _ _ => false
  deleteFails := fun _ _ => false
  now := 100
  startup_cleanup_done := true

/-- Resolver holding the unmanaged pair `(app.com, 1.1.1.1)`, fresh state. -/
def wStaticConflict : World :=
  ⟨⟨[], [], []⟩, [⟨"app.com", "1.1.1.1"⟩], [], []⟩

/-- Resolver list fails; one instance reports `app.com`; the resolver in
fact already holds `(app.com, 2.2.2.2)`. -/
def envListFail : Env where
  instances := [⟨"core", "http://traefik:8080", "2.2.2.2"⟩]
  poll := fun _ => Except.ok [⟨"app.com", "core", "2.2.2.2", DNSZone.internal, "app@docker"⟩]
  exclude_patterns := []
  static_rewrites := []
  listFails := true
  addFails := fun _ _ => false
  deleteFails := fun _ _ => false
  now := 100
  startup_cleanup_done := true

/-- Resolver already in the desired shape, but its listing will fail. -/
def wListFail : World :=
  ⟨⟨[], [], []⟩, [⟨"app.com", "2.2.2.2"⟩], [], []⟩

/-- Two instances `core` (10.0.0.1) before `edge` (10.0.0.2), both reporting
`app.com`; the resolver starts with an unmanaged `(app.com, 10.0.0.2)`. -/
def envTwoInstances : Env where
  instances := [⟨"core", "http://t1:8080", "10.0.0.1"⟩, ⟨"edge", "http://t2:8080", "10.0.0.2"⟩]
  poll := fun i => Except.ok [⟨"app.com", i.name, i.target_ip, DNSZone.internal, "app@docker"⟩]
  exclude_patterns := []
  static_rewrites := []
  listFails := false
  addFails := fun _ _ => false
  deleteFails := fun _ _ => false
  now := 100
  startup_cleanup_done := true

/-- Resolver holding the unmanaged pair `(app.com, 10.0.0.2)`, fresh state. -/
def wTwoInstances : World :=
  ⟨⟨[], [], []⟩, [⟨"app.com", "10.0.0.2"⟩], [], []⟩

/-- A completely fresh world for `envTwoInstances`: empty resolver, empty
state, so nothing interferes with first-instance priority. -/
def wTwoClean : World :=
  ⟨⟨[], [], []⟩, [], [], []⟩

/-- A single healthy instance reporting `app.com -> 1.2.3.4`, with no
statics, no exclusions and reliable transports: the configuration on which
two back-to-back cycles converge. -/
def envClean : Env where
  instances := [⟨"core", "http://traefik:8080", "1.2.3.4"⟩]
  poll := fun _ => Except.ok [⟨"app.com", "core", "1.2.3.4", DNSZone.internal, "app@docker"⟩]
  exclude_patterns := []
  static_rewrites := []
  listFails := false
  addFails := fun _ _ => false
  deleteFails := fun _ _ => false
  now := 100
  startup_cleanup_done := false

/-- Fresh world for `envClean`. -/
def wClean : World :=
  ⟨⟨[], [], []⟩, [], [], []⟩

/-- A world for `envClean` whose resolver already holds the desired pair
`(app.com, 1.2.3.4)` as an operator-created, unmanaged record: the cycle
adopts it without deleting it. -/
def wUnmanagedAdopt : World :=
  ⟨⟨[], [], []⟩, [⟨"app.com", "1.2.3.4"⟩], [], []⟩

/-- A single instance whose poll fails, with stale state claiming `app.com`
should point to `2.2.2.2` while the resolver holds a managed `1.1.1.1`. -/
def envAllFail : Env where
  instances := [⟨"core", "http://traefik:8080", "2.2.2.2"⟩]
  poll := fun _ => Except.error "connection refused"
  exclude_patterns := []
  static_rewrites := []
  listFails := false
  addFails := fun _ _ => false
  deleteFails := fun _ _ => false
  now := 100
  startup_cleanup_done := true

/-- Stale state: `app.com` sourced from `core` with answer `2.2.2.2`; the
resolver's `(app.com, 1.1.1.1)` is managed. -/
def wAllFail : World :=
  ⟨⟨[("core", ⟨50, "", "http://traefik:8080"⟩)],
    [("app.com", ⟨[("core", ⟨"2.2.2.2", 50⟩)]⟩)],
    [("app.com", ["1.1.1.1"])]⟩,
   [⟨"app.com", "1.1.1.1"⟩], [], []⟩

/-- A world in which `envAllFail`'s failing poll is harmless: the resolver
already matches the stale desired answer and the record is managed. -/
def wPollFailClean : World :=
  ⟨⟨[("core", ⟨50, "", "http://traefik:8080"⟩)],
    [("app.com", ⟨[("core", ⟨"2.2.2.2", 50⟩)]⟩)],
    [("app.com", ["2.2.2.2"])]⟩,
   [⟨"app.com", "2.2.2.2"⟩], [], []⟩

/-- No instances; `x.com` is excluded; the state still carries a managed
record for `x.com` that is absent from the resolver. -/
def envExclStale : Env where
  instances := []
  poll := fun _ => Except.ok []
  exclude_patterns := [fun d => d == "x.com"]
  static_rewrites := []
  listFails := false
  addFails := fun _ _ => false
  deleteFails := fun _ _ => false
  now := 100
  startup_cleanup_done := true

/-- State with a stale managed entry for the excluded `x.com`. -/
def wExclStale : World :=
  ⟨⟨[], [], [("x.com", ["1.1.1.1"])]⟩, [], [], []⟩

/-- One instance whose poll fails; `x.com` is excluded and the resolver
holds an unmanaged `(x.com, 9.9.9.9)`; the state has a source entry for
`x.com` from the failing instance. -/
def envExclFailingPoll : Env where
  instances := [⟨"core", "http://traefik:8080", "1.1.1.1"⟩]
  poll := fun _ => Except.error "connection refused"
  exclude_patterns := [fun d => d == "x.com"]
  static_rewrites := []
  listFails := false
  addFails := fun _ _ => false
  deleteFails := fun _ _ => false
  now := 100
  startup_cleanup_done := true

/-- State carrying `x.com`'s source entry from `core`. -/
def wExclFailingPoll : World :=
  ⟨⟨[("core", ⟨50, "", "http://traefik:8080"⟩)],
    [("x.com", ⟨[("core", ⟨"1.1.1.1", 50⟩)]⟩)],
    []⟩,
   [⟨"x.com", "9.9.9.9"⟩], [], []⟩

/-- One instance reporting the mixed-case hostname `App.Example.COM`; the
resolver already holds a record for the lowercase variant. -/
def envMixedCase : Env where
  instances := [⟨"core", "http://traefik:8080", "1.2.3.4"⟩]
  poll := fun _ =>
    Except.ok [⟨"App.Example.COM", "core", "1.2.3.4", DNSZone.internal, "app@docker"⟩]
  exclude_patterns := []
  static_rewrites := []
  listFails := false
  addFails := fun _ _ => false
  deleteFails := fun _ _ => false
  now := 100
  startup_cleanup_done := true

/-- Resolver holding the lowercase variant, fresh state. -/
def wMixedCase : World :=
  ⟨⟨[], [], []⟩, [⟨"app.example.com", "9.9.9.9"⟩], [], []⟩

/-- One instance `core` reporting `new.com -> 5.5.5.5`, while every
`add_record` call fails at the transport level. -/
def envAddFail : Env where
  instances := [⟨"core", "http://traefik:8080", "5.5.5.5"⟩]
  poll := fun _ => Except.ok [⟨"new.com", "core", "5.5.5.5", DNSZone.internal, "app@docker"⟩]
  exclude_patterns := []
  static_rewrites := []
  listFails := false
  addFails := fun _ _ => true
  deleteFails := fun _ _ => false
  now := 100
  startup_cleanup_done := true

/-- Empty resolver, fresh state: the desired record will have to be added. -/
def wAddFail : World :=
  ⟨⟨[], [], []⟩, [], [], []⟩

/-- `w'` extends `w`'s trace only with operations satisfying `P`. -/
def NewOpsOnly (P : DnsOp → Prop) (w w' : World) : Prop :=
  ∀ op ∈ w'.trace, op ∈ w.trace ∨ P op

/-- The pair `(d, a)` is unmanaged, present in the resolver, and no delete
for it has been issued — the invariant behind the no-unmanaged-mutation
property. -/
def UnmanagedIntact (d a : String) (w : World) : Prop :=
  a ∉ managedOf w.state d ∧ (⟨d, a⟩ : DNSRecord) ∈ w.resolver ∧
    DnsOp.delete d a ∉ w.trace

/-- Claim C1 is false as stated: in `envStaticConflict`, the pair
`(app.com, 1.1.1.1)` is present in the resolver before the cycle, is not in
`managed_records` of the pre-cycle state, and `app.com` matches no exclusion
pattern — yet the cycle issues `delete_record(app.com, 1.1.1.1)` (the static
rewrite step first adopts the record as managed, and the creates/updates
step then consolidates it away), and the pair is gone afterwards. -/
theorem c1_counterexample :
    (⟨"app.com", "1.1.1.1"⟩ : DNSRecord) ∈ wStaticConflict.resolver ∧
    _is_record_managed wStaticConflict.state "app.com" "1.1.1.1" = false ∧
    _is_domain_excluded "app.com" envStaticConflict.exclude_patterns = false ∧
    DnsOp.delete "app.com" "1.1.1.1" ∈ (sync_once envStaticConflict wStaticConflict).trace ∧
    (⟨"app.com", "1.1.1.1"⟩ : DNSRecord) ∉ (sync_once envStaticConflict wStaticConflict).resolver := by
  decide

/-- Claim C2 is false as stated: in `envListFail` the resolver's list
operation fails during the cycle, yet Step 8 is not short-circuited — the
cycle still issues `add_record(app.com, 2.2.2.2)` (a create). -/
theorem c2_counterexample :
    envListFail.listFails = true ∧
    DnsOp.add "app.com" "2.2.2.2" ∈ (sync_once envListFail wListFail).trace := by
  decide

/-- Claim C3 is false as stated: in `envStaticConflict` (a static rewrite
`app.com -> 1.1.1.1` while the proxy reports `app.com -> 2.2.2.2`), the
second `sync_once` with unchanged inputs issues further resolver mutations
(the static step rotates the record back, the creates/updates step rotates
it forward again, forever). -/
theorem c3_counterexample :
    (sync_twice envStaticConflict wStaticConflict).trace ≠
      (sync_once envStaticConflict wStaticConflict).trace := by
  decide

/-- Claim C4's end-state sentence is false as stated: in `envTwoInstances`,
`app.com` is reported by `core` (10.0.0.1) before `edge` (10.0.0.2), yet the
cycle does NOT end with `(app.com, 10.0.0.1)`: the pre-existing unmanaged
`(app.com, 10.0.0.2)` makes the engine skip the desired answer, so the
resolver still holds `(app.com, 10.0.0.2)` and never receives
`(app.com, 10.0.0.1)`. -/
theorem c4_counterexample :
    (⟨"app.com", "10.0.0.1"⟩ : DNSRecord) ∉ (sync_once envTwoInstances wTwoInstances).resolver ∧
    (⟨"app.com", "10.0.0.2"⟩ : DNSRecord) ∈ (sync_once envTwoInstances wTwoInstances).resolver := by
  decide

/-- Claim C5 is false as stated: in `envAllFail` every configured instance's
poll fails, yet the cycle issues `delete_record(app.com, 1.1.1.1)` for a
domain that matches no exclusion pattern (the stale desired answer from the
failed instance triggers the managed-consolidation branch of Step 8). -/
theorem c5_counterexample :
    (envAllFail.poll ⟨"core", "http://traefik:8080", "2.2.2.2"⟩).isOk = false ∧
    envAllFail.instances = [⟨"core", "http://traefik:8080", "2.2.2.2"⟩] ∧
    _is_domain_excluded "app.com" envAllFail.exclude_patterns = false ∧
    DnsOp.delete "app.com" "1.1.1.1" ∈ (sync_once envAllFail wAllFail).trace := by
  decide

/-- Claim C6 is false as stated: a definitive 4xx response raises
`requests.exceptions.HTTPError`, which is a `RequestException` and therefore
IS retried: with the adapters' `max_retries=2` the callable runs 3 times and
the loop sleeps 1s then 2s. -/
theorem c6_counterexample :
    (retry_with_backoff (fun _ => (Except.error (PyExc.requestException true) : Except PyExc Nat))
        2 1 30 2).calls = 3 ∧
    (retry_with_backoff (fun _ => (Except.error (PyExc.requestException true) : Except PyExc Nat))
        2 1 30 2).delays = [1, 2] := by
  decide

/-- Claim C7 is false as stated: in `envExclStale` the cycle completes with
`managed_records` still containing the excluded, non-static hostname `x.com`
(the exclusion cleanup only walks the resolver's listing, and `x.com` has no
resolver record to trigger it). -/
theorem c7_counterexample :
    _is_domain_excluded "x.com" envExclStale.exclude_patterns = true ∧
    dictContains envExclStale.static_rewrites "x.com" = false ∧
    dictLookup (sync_once envExclStale wExclStale).state.managed_records "x.com" =
      some ["1.1.1.1"] := by
  decide

/-- Claim C8 is false as stated: in `envExclFailingPoll` instance `core`'s
poll fails, yet the cycle removes the `domains["x.com"].sources["core"]`
entry — the exclusion cleanup pops the whole `x.com` domain from the state
because the resolver lists an (unmanaged) record for the excluded `x.com`. -/
theorem c8_counterexample :
    (envExclFailingPoll.poll ⟨"core", "http://traefik:8080", "1.1.1.1"⟩).isOk = false ∧
    (dictLookup wExclFailingPoll.state.domains "x.com").isSome = true ∧
    dictLookup (sync_once envExclFailingPoll wExclFailingPoll).state.domains "x.com" =
      none := by
  decide

/-- Claim C9 is false as stated: hostnames are not lowercased anywhere —
`_extract_hostnames` returns the capture verbatim, and the engine treats
`App.Example.COM` and `app.example.com` as two distinct record identities
(the cycle ends with both records in the resolver rather than one). -/
theorem c9_counterexample :
    _extract_hostnames "Host(`App.Example.COM`)" = ["App.Example.COM"] ∧
    (sync_once envMixedCase wMixedCase).resolver =
      [⟨"app.example.com", "9.9.9.9"⟩, ⟨"App.Example.COM", "1.2.3.4"⟩] := by
  decide

/-! ### Dictionary lemmas -/

theorem dictLookup_dictSet_self {α : Type} (l : List (String × α)) (k : String) (v : α) :
    dictLookup (dictSet l k v) k = some v := by
  induction l with
  | nil => simp [dictSet, dictLookup]
  | cons hd tl ih =>
      obtain ⟨k', v'⟩ := hd
      by_cases h : k' = k <;> simp [dictSet, dictLookup, h, ih]

theorem dictLookup_dictSet_ne {α : Type} (l : List (String × α)) (k k' : String) (v : α)
    (h : k ≠ k') : dictLookup (dictSet l k v) k' = dictLookup l k' := by
  induction l with
  | nil => simp [dictSet, dictLookup, h]
  | cons hd tl ih =>
      obtain ⟨k0, v0⟩ := hd
      by_cases h0 : k0 = k
      · subst h0
        simp [dictSet, dictLookup, h]
      · simp only [dictSet, if_neg h0]
        by_cases h1 : k0 = k'
        · simp [dictLookup, h1]
        · simp [dictLookup, h1, ih]

theorem dictLookup_dictErase_self {α : Type} (l : List (String × α)) (k : String) :
    dictLookup (dictErase l k) k = none := by
  induction l with
  | nil => simp [dictErase, dictLookup]
  | cons hd tl ih =>
      obtain ⟨k0, v0⟩ := hd
      by_cases h0 : k0 = k <;> simp [dictErase, dictLookup, h0, ih]

theorem dictLookup_dictErase_ne {α : Type} (l : List (String × α)) (k k' : String)
    (h : k ≠ k') : dictLookup (dictErase l k) k' = dictLookup l k' := by
  induction l with
  | nil => simp [dictErase]
  | cons hd tl ih =>
      obtain ⟨k0, v0⟩ := hd
      by_cases h0 : k0 = k
      · subst h0
        have h2 : k0 ≠ k' := h
        simp [dictErase, dictLookup, h2, ih]
      · have h2 : k' ≠ k := Ne.symm h
        by_cases h1 : k0 = k' <;> simp [dictErase, dictLookup, h0, h1, h2, ih]

theorem dictLookup_eq_none_iff {α : Type} (l : List (String × α)) (k : String) :
    dictLookup l k = none ↔ ∀ p ∈ l, p.1 ≠ k := by
  induction l with
  | nil => simp [dictLookup]
  | cons hd tl ih =>
      obtain ⟨k0, v0⟩ := hd
      by_cases h0 : k0 = k <;> simp [dictLookup, h0, ih]

theorem dictSet_dictSet {α : Type} (l : List (String × α)) (k : String) (v v' : α) :
    dictSet (dictSet l k v) k v' = dictSet l k v' := by
  induction l with
  | nil => simp [dictSet]
  | cons hd tl ih =>
      obtain ⟨k0, v0⟩ := hd
      by_cases h0 : k0 = k <;> simp [dictSet, h0, ih]

theorem dictLookup_isSome_iff {α : Type} (l : List (String × α)) (k : String) :
    (dictLookup l k).isSome = true ↔ ∃ p ∈ l, p.1 = k := by
  induction l with
  | nil => simp [dictLookup]
  | cons hd tl ih =>
      obtain ⟨k0, v0⟩ := hd
      by_cases h0 : k0 = k <;> simp [dictLookup, h0, ih]

theorem keys_dictSet {α : Type} (l : List (String × α)) (k : String) (v : α) :
    (dictSet l k v).map (fun p => p.1) =
      if (dictLookup l k).isSome then l.map (fun p => p.1)
      else l.map (fun p => p.1) ++ [k] := by
  induction l with
  | nil => simp [dictSet, dictLookup]
  | cons hd tl ih =>
      obtain ⟨k0, v0⟩ := hd
      by_cases h0 : k0 = k
      · simp [dictSet, dictLookup, h0]
      · simp only [dictSet, if_neg h0, dictLookup, List.map_cons, ih]
        by_cases h1 : (dictLookup tl k).isSome <;> simp [h0, h1]

theorem keysNodup_dictSet {α : Type} (l : List (String × α)) (k : String) (v : α)
    (h : (l.map (fun p => p.1)).Nodup) : ((dictSet l k v).map (fun p => p.1)).Nodup := by
  rw [keys_dictSet]
  by_cases h1 : (dictLookup l k).isSome
  · simpa [h1] using h
  · have hk : ∀ p ∈ l, p.1 ≠ k := by
      rw [← dictLookup_eq_none_iff]
      exact Option.not_isSome_iff_eq_none.mp h1
    simp only [if_neg h1]
    rw [List.nodup_append]
    refine ⟨h, List.nodup_singleton _, ?_⟩
    intro x hx hy
    simp only [List.mem_singleton] at hy
    subst hy
    obtain ⟨p, hp, rfl⟩ := List.mem_map.mp hx
    exact hk p hp rfl

/-! ### Sorting lemmas -/

theorem insertBy_perm {α : Type} (lt : α → α → Bool) (a : α) (l : List α) :
    (insertBy lt a l).Perm (a :: l) := by
  induction l with
  | nil => simp [insertBy]
  | cons b t ih =>
      by_cases h : lt a b
      · simp [insertBy, h]
      · simp only [insertBy, if_neg h]
        exact (ih.cons b).trans (List.Perm.swap a b t)

theorem sortBy_perm {α : Type} (lt : α → α → Bool) (l : List α) :
    (sortBy lt l).Perm l := by
  induction l with
  | nil => simp [sortBy]
  | cons a t ih =>
      simp only [sortBy, List.foldr_cons]
      exact (insertBy_perm lt a _).trans (ih.cons a)

theorem mem_sortBy {α : Type} (lt : α → α → Bool) (l : List α) (a : α) :
    a ∈ sortBy lt l ↔ a ∈ l :=
  (sortBy_perm lt l).mem_iff

/-! ### Grouping lemmas -/

theorem groupByDomain_go_lookup (rs : List DNSRecord) :
    ∀ (acc : List (String × List String)) (d : String),
      dictLookup
        (rs.foldl
          (fun acc r => dictSet acc r.domain ((dictLookup acc r.domain).getD [] ++ [r.answer]))
          acc) d =
      match dictLookup acc d with
      | some l => some (l ++ answersOf rs d)
      | none => if answersOf rs d = [] then none else some (answersOf rs d) := by
  induction rs with
  | nil =>
      intro acc d
      cases h : dictLookup acc d <;> simp [answersOf, h]
  | cons r rest ih =>
      intro acc d
      by_cases hd : r.domain = d
      · subst hd
        rw [List.foldl_cons, ih]
        rw [dictLookup_dictSet_self]
        cases h : dictLookup acc r.domain <;>
          simp [answersOf, List.filter_cons, h]
      · rw [List.foldl_cons, ih]
        rw [dictLookup_dictSet_ne _ _ _ _ hd]
        have hne : (r.domain == d) = false := by
          simp [hd]
        cases h : dictLookup acc d <;>
          simp [answersOf, List.filter_cons, hne, h]

theorem groupByDomain_lookup (rs : List DNSRecord) (d : String) :
    (dictLookup (groupByDomain rs) d).getD [] = answersOf rs d := by
  rw [groupByDomain, groupByDomain_go_lookup rs [] d]
  simp only [dictLookup]
  by_cases h : answersOf rs d = [] <;> simp [h]

theorem mem_answersOf (rs : List DNSRecord) (d a : String) :
    a ∈ answersOf rs d ↔ (⟨d, a⟩ : DNSRecord) ∈ rs := by
  constructor
  · intro h
    obtain ⟨r, hr, rfl⟩ := List.mem_map.mp h
    have := List.mem_filter.mp hr
    have hd : r.domain = d := by simpa using this.2
    have : r = ⟨d, r.answer⟩ := by
      cases r
      simp_all
    rw [← this]
    exact List.mem_filter.mp hr |>.1
  · intro h
    apply List.mem_map.mpr
    exact ⟨⟨d, a⟩, List.mem_filter.mpr ⟨h, by simp⟩, rfl⟩

/-! ### Managed-record helper lemmas -/

theorem _is_record_managed_iff (st : PState) (d a : String) :
    _is_record_managed st d a = true ↔ a ∈ managedOf st d := by
  simp [_is_record_managed, managedOf]

theorem mark_eq_of_mem (st : PState) (d a : String) (h : a ∈ managedOf st d) :
    _mark_record_managed st d a = st := by
  unfold managedOf at h
  simp [_mark_record_managed, h]

theorem mark_eq_of_not_mem (st : PState) (d a : String) (h : a ∉ managedOf st d) :
    _mark_record_managed st d a =
      { st with managed_records := dictSet st.managed_records d (managedOf st d ++ [a]) } := by
  unfold managedOf at h ⊢
  simp [_mark_record_managed, h]

theorem mark_domains (st : PState) (d a : String) :
    (_mark_record_managed st d a).domains = st.domains := by
  by_cases h : a ∈ managedOf st d
  · rw [mark_eq_of_mem st d a h]
  · rw [mark_eq_of_not_mem st d a h]

theorem mark_instances (st : PState) (d a : String) :
    (_mark_record_managed st d a).instances = st.instances := by
  by_cases h : a ∈ managedOf st d
  · rw [mark_eq_of_mem st d a h]
  · rw [mark_eq_of_not_mem st d a h]

theorem unmark_eq_cases (st : PState) (d a : String) (answers : List String)
    (h : dictLookup st.managed_records d = some answers) :
    _unmark_record_managed st d a =
      (if (if a ∈ answers then answers.erase a else answers) = [] then
        { st with managed_records := dictErase st.managed_records d }
      else
        { st with managed_records :=
            dictSet st.managed_records d (if a ∈ answers then answers.erase a else answers) }) := by
  simp only [_unmark_record_managed, h]

theorem unmark_eq_of_none (st : PState) (d a : String)
    (h : dictLookup st.managed_records d = none) : _unmark_record_managed st d a = st := by
  simp [_unmark_record_managed, h]

theorem unmark_domains (st : PState) (d a : String) :
    (_unmark_record_managed st d a).domains = st.domains := by
  cases h : dictLookup st.managed_records d with
  | none => rw [unmark_eq_of_none st d a h]
  | some answers =>
      rw [unmark_eq_cases st d a answers h]
      by_cases he : (if a ∈ answers then answers.erase a else answers) = []
      · rw [if_pos he]
      · rw [if_neg he]

theorem unmark_instances (st : PState) (d a : String) :
    (_unmark_record_managed st d a).instances = st.instances := by
  cases h : dictLookup st.managed_records d with
  | none => rw [unmark_eq_of_none st d a h]
  | some answers =>
      rw [unmark_eq_cases st d a answers h]
      by_cases he : (if a ∈ answers then answers.erase a else answers) = []
      · rw [if_pos he]
      · rw [if_neg he]

theorem managedOf_mark_self (st : PState) (d a : String) :
    managedOf (_mark_record_managed st d a) d =
      (if a ∈ managedOf st d then managedOf st d else managedOf st d ++ [a]) := by
  by_cases h : a ∈ managedOf st d
  · rw [mark_eq_of_mem st d a h, if_pos h]
  · rw [mark_eq_of_not_mem st d a h, if_neg h]
    unfold managedOf
    simp [dictLookup_dictSet_self]

theorem managedOf_mark_ne (st : PState) (d d' a : String) (h : d ≠ d') :
    managedOf (_mark_record_managed st d a) d' = managedOf st d' := by
  by_cases hm : a ∈ managedOf st d
  · rw [mark_eq_of_mem st d a hm]
  · rw [mark_eq_of_not_mem st d a hm]
    unfold managedOf
    simp [dictLookup_dictSet_ne _ _ _ _ h]

theorem managedOf_unmark_self (st : PState) (d a : String) :
    managedOf (_unmark_record_managed st d a) d = (managedOf st d).erase a := by
  cases hl : dictLookup st.managed_records d with
  | none =>
      rw [unmark_eq_of_none st d a hl]
      unfold managedOf
      rw [hl]
      simp
  | some answers =>
      have hml : managedOf st d = answers := by
        unfold managedOf
        rw [hl]
        rfl
      have he2 : (if a ∈ answers then answers.erase a else answers) = answers.erase a := by
        by_cases hm : a ∈ answers
        · rw [if_pos hm]
        · rw [if_neg hm, List.erase_of_not_mem hm]
      rw [unmark_eq_cases st d a answers hl, he2, hml]
      by_cases he : answers.erase a = []
      · rw [if_pos he]
        unfold managedOf
        rw [dictLookup_dictErase_self, he]
        rfl
      · rw [if_neg he]
        unfold managedOf
        rw [dictLookup_dictSet_self]
        rfl

theorem managedOf_unmark_ne (st : PState) (d d' a : String) (h : d ≠ d') :
    managedOf (_unmark_record_managed st d a) d' = managedOf st d' := by
  cases hl : dictLookup st.managed_records d with
  | none => rw [unmark_eq_of_none st d a hl]
  | some answers =>
      rw [unmark_eq_cases st d a answers hl]
      by_cases he : (if a ∈ answers then answers.erase a else answers) = []
      · rw [if_pos he]
        unfold managedOf
        rw [dictLookup_dictErase_ne _ _ _ h]
      · rw [if_neg he]
        unfold managedOf
        rw [dictLookup_dictSet_ne _ _ _ _ h]

theorem mem_managedOf_mark (st : PState) (d a x : String) :
    x ∈ managedOf (_mark_record_managed st d a) d ↔ x ∈ managedOf st d ∨ x = a := by
  rw [managedOf_mark_self]
  by_cases h : a ∈ managedOf st d
  · rw [if_pos h]
    constructor
    · exact fun hx => Or.inl hx
    · rintro (hx | rfl)
      · exact hx
      · exact h
  · rw [if_neg h]
    simp

theorem mem_managedOf_unmark (st : PState) (d a x : String) :
    x ∈ managedOf (_unmark_record_managed st d a) d → x ∈ managedOf st d := by
  rw [managedOf_unmark_self]
  exact fun h => List.mem_of_mem_erase h

theorem not_mem_managedOf_unmark_self (st : PState) (d a : String)
    (hnd : (managedOf st d).Nodup) : a ∉ managedOf (_unmark_record_managed st d a) d := by
  rw [managedOf_unmark_self]
  exact hnd.not_mem_erase

theorem managedOf_nodup_mark (st : PState) (d d' a : String)
    (h : (managedOf st d).Nodup) : (managedOf (_mark_record_managed st d' a) d).Nodup := by
  by_cases hd : d' = d
  · subst hd
    rw [managedOf_mark_self]
    by_cases hm : a ∈ managedOf st d'
    · rw [if_pos hm]
      exact h
    · rw [if_neg hm]
      simpa [List.nodup_append] using ⟨h, hm⟩
  · rw [managedOf_mark_ne st d' d a hd]
    exact h

theorem managedOf_nodup_unmark (st : PState) (d d' a : String)
    (h : (managedOf st d).Nodup) : (managedOf (_unmark_record_managed st d' a) d).Nodup := by
  by_cases hd : d' = d
  · subst hd
    rw [managedOf_unmark_self]
    exact h.erase a
  · rw [managedOf_unmark_ne st d' d a hd]
    exact h

/-! ### Retry behaviour -/

theorem retryGo_allFail {T : Type} (func : Nat → Except PyExc T)
    (max_retries base_delay max_delay exponential_base : Nat)
    (hfail : ∀ i, ∃ b, func i = Except.error (PyExc.requestException b)) :
    ∀ (fuel attempt : Nat), attempt + fuel = max_retries + 1 →
      (retryGo func max_retries base_delay max_delay exponential_base attempt fuel).calls
          = fuel ∧
      (retryGo func max_retries base_delay max_delay exponential_base attempt fuel).delays
          = (List.range' attempt (fuel - 1)).map
              (fun i => min (base_delay * exponential_base ^ i) max_delay) := by
  intro fuel
  induction fuel with
  | zero =>
      intro attempt _
      simp [retryGo]
  | succ f ih =>
      intro attempt hsum
      obtain ⟨b, hb⟩ := hfail attempt
      by_cases hmr : attempt = max_retries
      · have hf : f = 0 := by omega
        subst hf
        subst hmr
        simp [retryGo, hb, isRetryable]
      · have hrec := ih (attempt + 1) (by omega)
        have hf : 1 ≤ f := by omega
        have hstep :
            retryGo func max_retries base_delay max_delay exponential_base attempt (f + 1)
              = ⟨(retryGo func max_retries base_delay max_delay exponential_base
                    (attempt + 1) f).result,
                 (retryGo func max_retries base_delay max_delay exponential_base
                    (attempt + 1) f).calls + 1,
                 min (base_delay * exponential_base ^ attempt) max_delay ::
                   (retryGo func max_retries base_delay max_delay exponential_base
                      (attempt + 1) f).delays⟩ := by
          simp [retryGo, hb, isRetryable, hmr]
        rw [hstep]
        constructor
        · simp [hrec.1]
        · simp only [hrec.2]
          rw [show (f + 1 - 1) = f by omega, show f = (f - 1) + 1 by omega,
            List.range'_succ]
          simp

/-- Claim C6 (amended): `retry_with_backoff` retries every
`requests.exceptions.RequestException` — including the `HTTPError` raised
for a definitive 4xx response — with exponential backoff delays
`min(base_delay * exponential_base^attempt, max_delay)`; with the adapters'
`max_retries` it performs `max_retries + 1` calls before giving up.  Only
exceptions outside the `RequestException` hierarchy are not retried: they
propagate after a single call. -/
theorem c6_amended {T : Type} (func g : Nat → Except PyExc T)
    (max_retries base_delay max_delay exponential_base : Nat)
    (hfunc : ∀ i, ∃ b, func i = Except.error (PyExc.requestException b))
    (hg : g 0 = Except.error PyExc.otherError) :
    (retry_with_backoff func max_retries base_delay max_delay exponential_base).calls
        = max_retries + 1 ∧
    (retry_with_backoff func max_retries base_delay max_delay exponential_base).delays
        = (List.range max_retries).map
            (fun i => min (base_delay * exponential_base ^ i) max_delay) ∧
    (retry_with_backoff g max_retries base_delay max_delay exponential_base).calls = 1 := by
  have h := retryGo_allFail func max_retries base_delay max_delay exponential_base hfunc
    (max_retries + 1) 0 (by omega)
  refine ⟨h.1, ?_, ?_⟩
  · unfold retry_with_backoff at h ⊢
    rw [h.2]
    simp [List.range_eq_range']
  · unfold retry_with_backoff
    rw [retryGo, hg]
    simp [isRetryable]

/-- Witness for `c6_amended` at the adapters' call-site parameters
(`max_retries=2`, `base_delay=1`, `max_delay=30`, `exponential_base=2`). -/
theorem c6_witness :
    (retry_with_backoff
        (fun _ => (Except.error (PyExc.requestException false) : Except PyExc Unit))
        2 1 30 2).calls = 3 ∧
    (retry_with_backoff
        (fun _ => (Except.error (PyExc.requestException false) : Except PyExc Unit))
        2 1 30 2).delays = [1, 2] ∧
    (retry_with_backoff
        (fun _ => (Except.error PyExc.otherError : Except PyExc Unit)) 2 1 30 2).calls = 1 := by
  have h := c6_amended
    (fun _ => (Except.error (PyExc.requestException false) : Except PyExc Unit))
    (fun _ => (Except.error PyExc.otherError : Except PyExc Unit))
    2 1 30 2 (fun _ => ⟨false, rfl⟩) rfl
  refine ⟨h.1, ?_, h.2.2⟩
  rw [h.2.1]
  decide

/-- Claim C9 (amended): domains are handled verbatim and compared by exact,
case-sensitive string equality throughout the engine: marking or unmarking a
managed record for a domain `d` never affects any other domain `d'` — in
particular a variant of `d` differing only in letter case is a completely
independent record identity. -/
theorem c9_amended (st : PState) (d d' a a' : String) (h : d ≠ d') :
    _is_record_managed (_mark_record_managed st d a) d' a'
        = _is_record_managed st d' a' ∧
    _is_record_managed (_unmark_record_managed st d a) d' a'
        = _is_record_managed st d' a' := by
  constructor
  · have hm := managedOf_mark_ne st d d' a h
    unfold managedOf at hm
    unfold _is_record_managed
    rw [hm]
  · have hm := managedOf_unmark_ne st d d' a h
    unfold managedOf at hm
    unfold _is_record_managed
    rw [hm]

/-- Witness for `c9_amended`: the case variants `App.COM` and `app.com` are
independent identities. -/
theorem c9_witness :
    (_is_record_managed (_mark_record_managed ⟨[], [], []⟩ "App.COM" "1.1.1.1")
        "app.com" "1.1.1.1"
      = _is_record_managed (⟨[], [], []⟩ : PState) "app.com" "1.1.1.1") ∧
    (_is_record_managed (_unmark_record_managed ⟨[], [], []⟩ "App.COM" "1.1.1.1")
        "app.com" "1.1.1.1"
      = _is_record_managed (⟨[], [], []⟩ : PState) "app.com" "1.1.1.1") :=
  c9_amended ⟨[], [], []⟩ "App.COM" "app.com" "1.1.1.1" "1.1.1.1" (by decide)

/-! ### Pruning lemmas -/

theorem dictLookup_map_value {α β : Type} (f : String → α → β)
    (l : List (String × α)) (k : String) :
    dictLookup (l.map (fun e => (e.1, f e.1 e.2))) k = (dictLookup l k).map (f k) := by
  induction l with
  | nil => simp [dictLookup]
  | cons hd tl ih =>
      obtain ⟨k0, v0⟩ := hd
      by_cases h : k0 = k
      · subst h
        simp [dictLookup]
      · simp [dictLookup, h, ih]

theorem prunePhase_fold (env : Env) (pr : PollResults) :
    ∀ (l : List (String × DomainState)) (a : List (String × DomainState)) (b : List String),
      l.foldl (pruneDomainStep env pr) (a, b)
        = (a ++ l.map (fun e => (e.1, (⟨pruneSources env pr e.1 e.2.sources⟩ : DomainState))),
           b ++ (l.filter
              (fun e => decide (pruneSources env pr e.1 e.2.sources = []))).map
              (fun e => e.1)) := by
  intro l
  induction l with
  | nil => simp
  | cons e t ih =>
      intro a b
      rw [List.foldl_cons]
      by_cases hss : pruneSources env pr e.1 e.2.sources = [] <;>
        simp [pruneDomainStep, hss, ih, List.filter_cons]

theorem prunePhase_domains (env : Env) (pr : PollResults) (st : PState) :
    (prunePhase env pr st).1.domains
      = st.domains.map
          (fun e => (e.1, (⟨pruneSources env pr e.1 e.2.sources⟩ : DomainState))) := by
  simp [prunePhase, prunePhase_fold]

theorem prunePhase_instances (env : Env) (pr : PollResults) (st : PState) :
    (prunePhase env pr st).1.instances = st.instances := rfl

theorem prunePhase_managed (env : Env) (pr : PollResults) (st : PState) :
    (prunePhase env pr st).1.managed_records = st.managed_records := rfl

theorem prunePhase_dels (env : Env) (pr : PollResults) (st : PState) :
    (prunePhase env pr st).2
      = (st.domains.filter
          (fun e => decide (pruneSources env pr e.1 e.2.sources = []))).map (fun e => e.1) := by
  simp [prunePhase, prunePhase_fold]

theorem prunePhase_lookup (env : Env) (pr : PollResults) (st : PState) (d : String) :
    dictLookup ((prunePhase env pr st).1.domains) d
      = (dictLookup st.domains d).map
          (fun ds => (⟨pruneSources env pr d ds.sources⟩ : DomainState)) := by
  rw [prunePhase_domains]
  exact dictLookup_map_value (fun k ds => (⟨pruneSources env pr k ds.sources⟩ : DomainState))
    st.domains d

theorem pruneStep_lookup_failed (pr : PollResults) (d n : String)
    (hf : (dictLookup pr.success n).getD false = false)
    (ss : List (String × SourceInfo)) (inst : ProxyInstance) :
    dictLookup (pruneStep pr d ss inst) n = dictLookup ss n := by
  unfold pruneStep
  by_cases h1 : (dictLookup pr.success inst.name).getD false
  · have hne : inst.name ≠ n := by
      intro h
      rw [h, hf] at h1
      exact absurd h1 (by simp)
    simp only [h1, Bool.not_true, Bool.false_eq_true, if_false]
    by_cases h2 : dictContains ss inst.name
    · simp only [h2, Bool.not_true, Bool.false_eq_true, if_false]
      by_cases h3 : d ∈ (dictLookup pr.seen inst.name).getD []
      · rw [if_pos h3]
      · rw [if_neg h3]
        exact dictLookup_dictErase_ne ss inst.name n hne
    · simp [h2]
  · simp [h1]

theorem pruneStep_lookup_sub (pr : PollResults) (d n : String)
    (ss : List (String × SourceInfo)) (inst : ProxyInstance) (v : SourceInfo)
    (h : dictLookup (pruneStep pr d ss inst) n = some v) : dictLookup ss n = some v := by
  unfold pruneStep at h
  by_cases h1 : (dictLookup pr.success inst.name).getD false
  · simp only [h1, Bool.not_true, Bool.false_eq_true, if_false] at h
    by_cases h2 : dictContains ss inst.name
    · simp only [h2, Bool.not_true, Bool.false_eq_true, if_false] at h
      by_cases h3 : d ∈ (dictLookup pr.seen inst.name).getD []
      · rwa [if_pos h3] at h
      · rw [if_neg h3] at h
        by_cases hne : inst.name = n
        · rw [hne, dictLookup_dictErase_self] at h
          exact absurd h (by simp)
        · rwa [dictLookup_dictErase_ne ss inst.name n hne] at h
    · simpa [h2] using h
  · simpa [h1] using h

theorem pruneStep_none_mono (pr : PollResults) (d n : String)
    (ss : List (String × SourceInfo)) (inst : ProxyInstance)
    (h : dictLookup ss n = none) : dictLookup (pruneStep pr d ss inst) n = none := by
  cases hpost : dictLookup (pruneStep pr d ss inst) n with
  | none => rfl
  | some v =>
      rw [pruneStep_lookup_sub pr d n ss inst v hpost] at h
      exact absurd h (by simp)

theorem pruneFold_none_mono (pr : PollResults) (d n : String) :
    ∀ (insts : List ProxyInstance) (ss : List (String × SourceInfo)),
      dictLookup ss n = none →
      dictLookup (insts.foldl (pruneStep pr d) ss) n = none := by
  intro insts
  induction insts with
  | nil => exact fun ss h => h
  | cons i t ih =>
      intro ss h
      rw [List.foldl_cons]
      exact ih _ (pruneStep_none_mono pr d n ss i h)

theorem pruneFold_lookup_failed (pr : PollResults) (d n : String)
    (hf : (dictLookup pr.success n).getD false = false) :
    ∀ (insts : List ProxyInstance) (ss : List (String × SourceInfo)),
      dictLookup (insts.foldl (pruneStep pr d) ss) n = dictLookup ss n := by
  intro insts
  induction insts with
  | nil => exact fun ss => rfl
  | cons i t ih =>
      intro ss
      rw [List.foldl_cons, ih, pruneStep_lookup_failed pr d n hf ss i]

theorem pruneSources_lookup_failed (env : Env) (pr : PollResults) (d n : String)
    (hf : (dictLookup pr.success n).getD false = false)
    (ss : List (String × SourceInfo)) :
    dictLookup (pruneSources env pr d ss) n = dictLookup ss n :=
  pruneFold_lookup_failed pr d n hf env.instances ss

theorem pruneFold_removed (pr : PollResults) (d n : String) :
    ∀ (insts : List ProxyInstance) (ss : List (String × SourceInfo)),
      dictLookup (insts.foldl (pruneStep pr d) ss) n = none →
      dictLookup ss n = none ∨
        ((dictLookup pr.success n).getD false = true ∧
          (∃ inst ∈ insts, inst.name = n) ∧
          d ∉ (dictLookup pr.seen n).getD []) := by
  intro insts
  induction insts with
  | nil => exact fun ss h => Or.inl h
  | cons i t ih =>
      intro ss h
      rw [List.foldl_cons] at h
      rcases ih (pruneStep pr d ss i) h with h' | ⟨hs, ⟨inst, hinst, hname⟩, hseen⟩
      · unfold pruneStep at h'
        by_cases h1 : (dictLookup pr.success i.name).getD false
        · simp only [h1, Bool.not_true, Bool.false_eq_true, if_false] at h'
          by_cases h2 : dictContains ss i.name
          · simp only [h2, Bool.not_true, Bool.false_eq_true, if_false] at h'
            by_cases h3 : d ∈ (dictLookup pr.seen i.name).getD []
            · rw [if_pos h3] at h'
              exact Or.inl h'
            · rw [if_neg h3] at h'
              by_cases hne : i.name = n
              · subst hne
                exact Or.inr ⟨h1, ⟨i, List.mem_cons_self i t, rfl⟩, h3⟩
              · rw [dictLookup_dictErase_ne ss i.name n hne] at h'
                exact Or.inl h'
          · simp only [h2, Bool.not_false, if_true] at h'
            exact Or.inl h'
        · simp only [h1, Bool.not_false, if_true] at h'
          exact Or.inl h'
      · exact Or.inr ⟨hs, ⟨inst, List.mem_cons_of_mem i hinst, hname⟩, hseen⟩

theorem pruneSources_removed (env : Env) (pr : PollResults) (d n : String)
    (ss : List (String × SourceInfo))
    (h : dictLookup (pruneSources env pr d ss) n = none) :
    dictLookup ss n = none ∨
      ((dictLookup pr.success n).getD false = true ∧
        (∃ inst ∈ env.instances, inst.name = n) ∧
        d ∉ (dictLookup pr.seen n).getD []) :=
  pruneFold_removed pr d n env.instances ss h

theorem pruneFold_erases (pr : PollResults) (d n : String)
    (hs : (dictLookup pr.success n).getD false = true)
    (hseen : d ∉ (dictLookup pr.seen n).getD []) :
    ∀ (insts : List ProxyInstance) (ss : List (String × SourceInfo)),
      (∃ inst ∈ insts, inst.name = n) →
      dictLookup (insts.foldl (pruneStep pr d) ss) n = none := by
  intro insts
  induction insts with
  | nil =>
      intro ss h
      simp at h
  | cons i t ih =>
      intro ss hmem
      rw [List.foldl_cons]
      by_cases hin : i.name = n
      · have hnone : dictLookup (pruneStep pr d ss i) n = none := by
          unfold pruneStep
          rw [hin, hs]
          simp only [Bool.not_true, Bool.false_eq_true, if_false]
          by_cases h2 : dictContains ss n
          · simp only [h2, Bool.not_true, Bool.false_eq_true, if_false]
            rw [if_neg hseen]
            exact dictLookup_dictErase_self ss n
          · simp only [h2, Bool.not_false, if_true]
            unfold dictContains at h2
            exact Option.not_isSome_iff_eq_none.mp (by simpa using h2)
        exact pruneFold_none_mono pr d n t _ hnone
      · rcases hmem with ⟨inst, hinst, hname⟩
        rcases List.mem_cons.mp hinst with rfl | hmem'
        · exact absurd hname hin
        · exact ih _ ⟨inst, hmem', hname⟩

theorem pruneSources_erases (env : Env) (pr : PollResults) (d n : String)
    (ss : List (String × SourceInfo))
    (hs : (dictLookup pr.success n).getD false = true)
    (hseen : d ∉ (dictLookup pr.seen n).getD [])
    (hconf : ∃ inst ∈ env.instances, inst.name = n) :
    dictLookup (pruneSources env pr d ss) n = none :=
  pruneFold_erases pr d n hs hseen env.instances ss hconf

/-- Claim C8 (amended): the pruning step (Step 5) never drops a whole
domain — it only rewrites each domain's sources through `pruneSources` —
and an individual `sources[d][i]` entry is removed by it only when instance
`i` is configured, was polled successfully in the current cycle, and did not
report `d` in that poll; in particular when `i`'s poll failed its entry
survives pruning unchanged.  (Whole-domain state removals — exclusion
cleanup, orphan deletion and removed-instance cleanup — are separate steps
and can also discard source entries.) -/
theorem c8_amended (env : Env) (pr : PollResults) (st : PState) (d n : String)
    (ds : DomainState) (hds : dictLookup st.domains d = some ds) :
    dictLookup ((prunePhase env pr st).1.domains) d
      = some ⟨pruneSources env pr d ds.sources⟩ ∧
    ((dictLookup pr.success n).getD false = false →
      dictLookup (pruneSources env pr d ds.sources) n = dictLookup ds.sources n) ∧
    (dictLookup (pruneSources env pr d ds.sources) n = none →
      dictLookup ds.sources n = none ∨
        ((dictLookup pr.success n).getD false = true ∧
          (∃ inst ∈ env.instances, inst.name = n) ∧
          d ∉ (dictLookup pr.seen n).getD [])) := by
  refine ⟨?_, ?_, ?_⟩
  · rw [prunePhase_lookup, hds]
    rfl
  · exact fun hf => pruneSources_lookup_failed env pr d n hf ds.sources
  · exact pruneSources_removed env pr d n ds.sources

/-- Witness for `c8_amended`: the state of `envAllFail` with the failing
instance `core`. -/
theorem c8_witness :
    dictLookup
        ((prunePhase envAllFail ⟨[("core", false)], [("core", [])]⟩ wAllFail.state).1.domains)
        "app.com"
      = some ⟨pruneSources envAllFail ⟨[("core", false)], [("core", [])]⟩ "app.com"
          [("core", ⟨"2.2.2.2", 50⟩)]⟩ ∧
    ((dictLookup (⟨[("core", false)], [("core", [])]⟩ : PollResults).success "core").getD false
        = false →
      dictLookup
          (pruneSources envAllFail ⟨[("core", false)], [("core", [])]⟩ "app.com"
            [("core", ⟨"2.2.2.2", 50⟩)]) "core"
        = dictLookup [("core", (⟨"2.2.2.2", 50⟩ : SourceInfo))] "core") ∧
    (dictLookup
        (pruneSources envAllFail ⟨[("core", false)], [("core", [])]⟩ "app.com"
          [("core", ⟨"2.2.2.2", 50⟩)]) "core" = none →
      dictLookup [("core", (⟨"2.2.2.2", 50⟩ : SourceInfo))] "core" = none ∨
        ((dictLookup (⟨[("core", false)], [("core", [])]⟩ : PollResults).success "core").getD
            false = true ∧
          (∃ inst ∈ envAllFail.instances, inst.name = "core") ∧
          "app.com" ∉
            (dictLookup (⟨[("core", false)], [("core", [])]⟩ : PollResults).seen "core").getD
              [])) :=
  c8_amended envAllFail ⟨[("core", false)], [("core", [])]⟩ wAllFail.state "app.com" "core"
    ⟨[("core", ⟨"2.2.2.2", 50⟩)]⟩ (by decide)

/-! ### World-level frame lemmas for the DNS primitives -/

theorem NewOpsOnly_rfl (P : DnsOp → Prop) (w : World) : NewOpsOnly P w w :=
  fun op h => Or.inl h

theorem NewOpsOnly_trans {P : DnsOp → Prop} {w w' w'' : World}
    (h1 : NewOpsOnly P w w') (h2 : NewOpsOnly P w' w'') : NewOpsOnly P w w'' := by
  intro op hop
  rcases h2 op hop with h | h
  · exact h1 op h
  · exact Or.inr h

theorem NewOpsOnly_mono {P Q : DnsOp → Prop} {w w' : World}
    (hPQ : ∀ op, P op → Q op) (h : NewOpsOnly P w w') : NewOpsOnly Q w w' := by
  intro op hop
  rcases h op hop with h' | h'
  · exact Or.inl h'
  · exact Or.inr (hPQ op h')

theorem dns_add_state (env : Env) (w : World) (d a : String) :
    (dns_add_record env w d a).1.state = w.state := by
  unfold dns_add_record
  split <;> rfl

theorem dns_add_trace (env : Env) (w : World) (d a : String) :
    (dns_add_record env w d a).1.trace = w.trace ++ [DnsOp.add d a] := by
  unfold dns_add_record
  split <;> rfl

theorem dns_add_warnings (env : Env) (w : World) (d a : String) :
    (dns_add_record env w d a).1.warnings = w.warnings := by
  unfold dns_add_record
  split <;> rfl

theorem dns_add_resolver_mem (env : Env) (w : World) (d a : String) (r : DNSRecord)
    (h : r ∈ w.resolver) : r ∈ (dns_add_record env w d a).1.resolver := by
  unfold dns_add_record
  split
  · exact h
  · simp only [List.mem_append]
    exact Or.inl h

theorem dns_add_resolver_sub (env : Env) (w : World) (d a : String) (r : DNSRecord)
    (h : r ∈ (dns_add_record env w d a).1.resolver) : r ∈ w.resolver ∨ r = ⟨d, a⟩ := by
  unfold dns_add_record at h
  split at h
  · exact Or.inl h
  · simpa using h

theorem dns_delete_state (env : Env) (w : World) (d a : String) :
    (dns_delete_record env w d a).1.state = w.state := by
  unfold dns_delete_record
  split <;> rfl

theorem dns_delete_trace (env : Env) (w : World) (d a : String) :
    (dns_delete_record env w d a).1.trace = w.trace ++ [DnsOp.delete d a] := by
  unfold dns_delete_record
  split <;> rfl

theorem dns_delete_warnings (env : Env) (w : World) (d a : String) :
    (dns_delete_record env w d a).1.warnings = w.warnings := by
  unfold dns_delete_record
  split <;> rfl

theorem dns_delete_resolver_sub (env : Env) (w : World) (d a : String) (r : DNSRecord)
    (h : r ∈ (dns_delete_record env w d a).1.resolver) : r ∈ w.resolver := by
  unfold dns_delete_record at h
  split at h
  · exact h
  · exact (List.mem_filter.mp h).1

theorem dns_delete_resolver_mem_ne (env : Env) (w : World) (d a : String) (r : DNSRecord)
    (h : r ∈ w.resolver) (hne : r ≠ ⟨d, a⟩) :
    r ∈ (dns_delete_record env w d a).1.resolver := by
  unfold dns_delete_record
  split
  · exact h
  · exact List.mem_filter.mpr ⟨h, by simpa using hne⟩

/-! ### Poll-phase frame lemmas -/

theorem pollRouteStep_fold_frame (env : Env) (n : String) (routes : List ProxyRoute) :
    ∀ (st : PState) (s : List String),
      (routes.foldl (pollRouteStep env n) (st, s)).1.managed_records = st.managed_records ∧
      (routes.foldl (pollRouteStep env n) (st, s)).1.instances = st.instances := by
  induction routes with
  | nil => exact fun st s => ⟨rfl, rfl⟩
  | cons r t ih =>
      intro st s
      rw [List.foldl_cons]
      unfold pollRouteStep
      by_cases h1 : _is_domain_excluded r.hostname env.exclude_patterns
      · simpa [h1] using ih st s
      · by_cases h2 : r.zone = DNSZone.external
        · simpa [h1, h2] using ih st s
        · simpa [h1, h2] using ih _ _

theorem pollInstanceStep_frame (env : Env) (acc : World × PollResults) (inst : ProxyInstance) :
    (pollInstanceStep env acc inst).1.trace = acc.1.trace ∧
    (pollInstanceStep env acc inst).1.resolver = acc.1.resolver ∧
    (pollInstanceStep env acc inst).1.warnings = acc.1.warnings ∧
    (pollInstanceStep env acc inst).1.state.managed_records
        = acc.1.state.managed_records := by
  unfold pollInstanceStep
  cases h : env.poll inst with
  | ok routes =>
      refine ⟨rfl, rfl, rfl, ?_⟩
      simp only []
      exact (pollRouteStep_fold_frame env inst.name routes acc.1.state []).1
  | error err => exact ⟨rfl, rfl, rfl, rfl⟩

theorem pollFold_frame (env : Env) (insts : List ProxyInstance) :
    ∀ (acc : World × PollResults),
      (insts.foldl (pollInstanceStep env) acc).1.trace = acc.1.trace ∧
      (insts.foldl (pollInstanceStep env) acc).1.resolver = acc.1.resolver ∧
      (insts.foldl (pollInstanceStep env) acc).1.warnings = acc.1.warnings ∧
      (insts.foldl (pollInstanceStep env) acc).1.state.managed_records
          = acc.1.state.managed_records := by
  induction insts with
  | nil => exact fun acc => ⟨rfl, rfl, rfl, rfl⟩
  | cons i t ih =>
      intro acc
      rw [List.foldl_cons]
      have h1 := pollInstanceStep_frame env acc i
      have h2 := ih (pollInstanceStep env acc i)
      exact ⟨h2.1.trans h1.1, h2.2.1.trans h1.2.1, h2.2.2.1.trans h1.2.2.1,
        h2.2.2.2.trans h1.2.2.2⟩

theorem pollPhase_frame (env : Env) (w : World) :
    (pollPhase env w).1.trace = w.trace ∧
    (pollPhase env w).1.resolver = w.resolver ∧
    (pollPhase env w).1.warnings = w.warnings ∧
    (pollPhase env w).1.state.managed_records = w.state.managed_records :=
  pollFold_frame env env.instances (w, ⟨[], []⟩)

/-! ### The cycle under a failed resolver listing -/

theorem sync_once_eq (env : Env) (w : World) :
    sync_once env w =
      (sortStrings (pruneOut env w).2).foldl
        (deleteDomainStep env
          (exclusionCleanup env (afterDesired env w)
            (groupByDomain (step7Listing env w))).2)
        ((sortPairs (desiredOf env w)).foldl
          (applyDesiredStep env
            (exclusionCleanup env (afterDesired env w)
              (groupByDomain (step7Listing env w))).2)
          (exclusionCleanup env (afterDesired env w)
            (groupByDomain (step7Listing env w))).1) := rfl

theorem step7Listing_listFail (env : Env) (w : World) (h : env.listFails = true) :
    step7Listing env w = [] := by
  unfold step7Listing dns_get_records
  rw [h]
  rfl

theorem dns_get_records_listFail (env : Env) (w : World) (h : env.listFails = true) :
    dns_get_records env w = [] := by
  unfold dns_get_records
  rw [h]
  rfl

theorem exclusionCleanup_nil (env : Env) (w : World) :
    exclusionCleanup env w [] = (w, []) := by
  unfold exclusionCleanup
  split <;> rfl

theorem afterDesired_trace (env : Env) (w : World) :
    (afterDesired env w).trace = (afterStatic env w).trace := by
  unfold afterDesired pollOut pruneOut
  exact (pollPhase_frame env (afterStatic env w)).1

theorem afterDesired_resolver (env : Env) (w : World) :
    (afterDesired env w).resolver = (afterStatic env w).resolver := by
  unfold afterDesired pollOut pruneOut
  exact (pollPhase_frame env (afterStatic env w)).2.1

theorem afterDesired_managed (env : Env) (w : World) :
    (afterDesired env w).state.managed_records
      = (afterStatic env w).state.managed_records := by
  unfold afterDesired pollOut pruneOut
  rw [prunePhase_managed]
  exact (pollPhase_frame env (afterStatic env w)).2.2.2

theorem cleanupDeleteStep_nil (env : Env) (w : World) (dom : String) :
    (cleanupDeleteStep env [] w dom).trace = w.trace ∧
    (cleanupDeleteStep env [] w dom).resolver = w.resolver ∧
    (cleanupDeleteStep env [] w dom).warnings = w.warnings ∧
    (cleanupDeleteStep env [] w dom).state.managed_records
        = w.state.managed_records := by
  unfold cleanupDeleteStep
  split
  · exact ⟨rfl, rfl, rfl, rfl⟩
  · exact ⟨rfl, rfl, rfl, rfl⟩

theorem cleanupDeleteFold_nil (env : Env) (doms : List String) :
    ∀ (w : World),
      ((doms.foldl (cleanupDeleteStep env []) w)).trace = w.trace ∧
      ((doms.foldl (cleanupDeleteStep env []) w)).resolver = w.resolver ∧
      ((doms.foldl (cleanupDeleteStep env []) w)).warnings = w.warnings ∧
      ((doms.foldl (cleanupDeleteStep env []) w)).state.managed_records
          = w.state.managed_records := by
  induction doms with
  | nil => exact fun w => ⟨rfl, rfl, rfl, rfl⟩
  | cons dm t ih =>
      intro w
      rw [List.foldl_cons]
      have h1 := cleanupDeleteStep_nil env w dm
      have h2 := ih (cleanupDeleteStep env [] w dm)
      exact ⟨h2.1.trans h1.1, h2.2.1.trans h1.2.1, h2.2.2.1.trans h1.2.2.1,
        h2.2.2.2.trans h1.2.2.2⟩


/-! ### Managed-guarded delete step lemmas -/

theorem deleteManagedIfStep_frame (env : Env) (dom : String) (w : World) (ans : String) :
    (deleteManagedIfStep env dom w ans).warnings = w.warnings ∧
    (deleteManagedIfStep env dom w ans).state.domains = w.state.domains ∧
    (deleteManagedIfStep env dom w ans).state.instances = w.state.instances := by
  unfold deleteManagedIfStep
  split
  · refine ⟨?_, ?_, ?_⟩
    · simp only []
      exact dns_delete_warnings env w dom ans
    · simp only []
      rw [unmark_domains]
      have := dns_delete_state env w dom ans
      rw [this]
    · simp only []
      rw [unmark_instances]
      have := dns_delete_state env w dom ans
      rw [this]
  · exact ⟨rfl, rfl, rfl⟩

theorem deleteManagedIfStep_trace_mono (env : Env) (dom : String) (w : World) (ans : String)
    (op : DnsOp) (h : op ∈ w.trace) : op ∈ (deleteManagedIfStep env dom w ans).trace := by
  unfold deleteManagedIfStep
  split
  · simp only []
    rw [dns_delete_trace]
    exact List.mem_append_left _ h
  · exact h

theorem deleteManagedIfStep_newOps (env : Env) (dom : String) (w : World) (ans : String) :
    NewOpsOnly (fun op => op = DnsOp.delete dom ans ∧ ans ∈ managedOf w.state dom) w
      (deleteManagedIfStep env dom w ans) := by
  unfold deleteManagedIfStep
  split
  · rename_i hmg
    intro op hop
    simp only [] at hop
    rw [dns_delete_trace] at hop
    rcases List.mem_append.mp hop with h | h
    · exact Or.inl h
    · simp only [List.mem_singleton] at h
      exact Or.inr ⟨h, (_is_record_managed_iff w.state dom ans).mp hmg⟩
  · exact NewOpsOnly_rfl _ w

theorem deleteManagedIfStep_resolver_sub (env : Env) (dom : String) (w : World) (ans : String)
    (r : DNSRecord) (h : r ∈ (deleteManagedIfStep env dom w ans).resolver) :
    r ∈ w.resolver := by
  unfold deleteManagedIfStep at h
  split at h
  · simp only [] at h
    exact dns_delete_resolver_sub env w dom ans r h
  · exact h

theorem deleteManagedIfStep_managed_ne (env : Env) (dom : String) (w : World) (ans : String)
    (d : String) (h : d ≠ dom) :
    managedOf (deleteManagedIfStep env dom w ans).state d = managedOf w.state d := by
  unfold deleteManagedIfStep
  split
  · simp only []
    rw [managedOf_unmark_ne _ _ _ _ (Ne.symm h)]
    rw [dns_delete_state]
  · rfl

theorem deleteManagedIfStep_managed_sub (env : Env) (dom : String) (w : World) (ans : String)
    (x : String) (h : x ∈ managedOf (deleteManagedIfStep env dom w ans).state dom) :
    x ∈ managedOf w.state dom := by
  unfold deleteManagedIfStep at h
  split at h
  · simp only [] at h
    have h2 := mem_managedOf_unmark _ dom ans x h
    rwa [dns_delete_state] at h2
  · exact h

theorem deleteManagedIfStep_intact (env : Env) (dom : String) (w : World) (ans : String)
    (d a : String) (h : UnmanagedIntact d a w) :
    UnmanagedIntact d a (deleteManagedIfStep env dom w ans) := by
  obtain ⟨hm, hr, ht⟩ := h
  unfold deleteManagedIfStep
  split
  · rename_i hmg
    have hmg' := (_is_record_managed_iff w.state dom ans).mp hmg
    have hne : ¬(dom = d ∧ ans = a) := by
      rintro ⟨rfl, rfl⟩
      exact hm hmg'
    refine ⟨?_, ?_, ?_⟩
    · simp only []
      by_cases hd : dom = d
      · subst hd
        rw [dns_delete_state]
        intro hmem
        exact hm (mem_managedOf_unmark _ dom ans a hmem)
      · rw [managedOf_unmark_ne _ _ _ _ hd, dns_delete_state]
        exact hm
    · simp only []
      apply dns_delete_resolver_mem_ne env w dom ans _ hr
      intro hEq
      apply hne
      have h1 : d = dom := congrArg DNSRecord.domain hEq
      have h2 : a = ans := congrArg DNSRecord.answer hEq
      exact ⟨h1.symm, h2.symm⟩
    · simp only []
      rw [dns_delete_trace]
      intro hmem
      rcases List.mem_append.mp hmem with h' | h'
      · exact ht h'
      · simp only [List.mem_singleton] at h'
        apply hne
        cases h'
        exact ⟨rfl, rfl⟩
  · exact ⟨hm, hr, ht⟩

theorem deleteManagedIfFold_frame (env : Env) (dom : String) (answers : List String) :
    ∀ (w : World),
      ((answers.foldl (deleteManagedIfStep env dom) w)).warnings = w.warnings ∧
      ((answers.foldl (deleteManagedIfStep env dom) w)).state.domains = w.state.domains ∧
      ((answers.foldl (deleteManagedIfStep env dom) w)).state.instances
          = w.state.instances := by
  induction answers with
  | nil => exact fun w => ⟨rfl, rfl, rfl⟩
  | cons x t ih =>
      intro w
      rw [List.foldl_cons]
      have h1 := deleteManagedIfStep_frame env dom w x
      have h2 := ih (deleteManagedIfStep env dom w x)
      exact ⟨h2.1.trans h1.1, h2.2.1.trans h1.2.1, h2.2.2.trans h1.2.2⟩

theorem deleteManagedIfFold_trace_mono (env : Env) (dom : String) (answers : List String) :
    ∀ (w : World) (op : DnsOp), op ∈ w.trace →
      op ∈ ((answers.foldl (deleteManagedIfStep env dom) w)).trace := by
  induction answers with
  | nil => exact fun w op h => h
  | cons x t ih =>
      intro w op h
      rw [List.foldl_cons]
      exact ih _ op (deleteManagedIfStep_trace_mono env dom w x op h)

theorem deleteManagedIfFold_newOps (env : Env) (dom : String) (answers : List String) :
    ∀ (w : World),
      NewOpsOnly (fun op => ∃ x, op = DnsOp.delete dom x ∧ x ∈ managedOf w.state dom) w
        ((answers.foldl (deleteManagedIfStep env dom) w)) := by
  induction answers with
  | nil => exact fun w => NewOpsOnly_rfl _ w
  | cons x t ih =>
      intro w op hop
      rw [List.foldl_cons] at hop
      rcases ih (deleteManagedIfStep env dom w x) op hop with h | ⟨y, hy, hmem⟩
      · rcases deleteManagedIfStep_newOps env dom w x op h with h' | ⟨h', hmg⟩
        · exact Or.inl h'
        · exact Or.inr ⟨x, h', hmg⟩
      · exact Or.inr ⟨y, hy, deleteManagedIfStep_managed_sub env dom w x y hmem⟩

theorem deleteManagedIfFold_resolver_sub (env : Env) (dom : String) (answers : List String) :
    ∀ (w : World) (r : DNSRecord),
      r ∈ ((answers.foldl (deleteManagedIfStep env dom) w)).resolver → r ∈ w.resolver := by
  induction answers with
  | nil => exact fun w r h => h
  | cons x t ih =>
      intro w r h
      rw [List.foldl_cons] at h
      exact deleteManagedIfStep_resolver_sub env dom w x r (ih _ r h)

theorem deleteManagedIfFold_managed_ne (env : Env) (dom : String) (answers : List String) :
    ∀ (w : World) (d : String), d ≠ dom →
      managedOf ((answers.foldl (deleteManagedIfStep env dom) w)).state d
        = managedOf w.state d := by
  induction answers with
  | nil => exact fun w d _ => rfl
  | cons x t ih =>
      intro w d hd
      rw [List.foldl_cons, ih _ d hd, deleteManagedIfStep_managed_ne env dom w x d hd]

theorem deleteManagedIfFold_managed_sub (env : Env) (dom : String) (answers : List String) :
    ∀ (w : World) (x : String),
      x ∈ managedOf ((answers.foldl (deleteManagedIfStep env dom) w)).state dom →
      x ∈ managedOf w.state dom := by
  induction answers with
  | nil => exact fun w x h => h
  | cons y t ih =>
      intro w x h
      rw [List.foldl_cons] at h
      exact deleteManagedIfStep_managed_sub env dom w y x (ih _ x h)

theorem deleteManagedIfFold_intact (env : Env) (dom : String) (answers : List String) :
    ∀ (w : World) (d a : String), UnmanagedIntact d a w →
      UnmanagedIntact d a ((answers.foldl (deleteManagedIfStep env dom) w)) := by
  induction answers with
  | nil => exact fun w d a h => h
  | cons x t ih =>
      intro w d a h
      rw [List.foldl_cons]
      exact ih _ d a (deleteManagedIfStep_intact env dom w x d a h)

/-! ### Update primitive and static-rewrite step lemmas -/

theorem dns_update_eq (env : Env) (w : World) (d o n : String) :
    dns_update_record env w d o n =
      (if (dns_delete_record env w d o).2 = true then
        dns_add_record env (dns_delete_record env w d o).1 d n
      else ((dns_delete_record env w d o).1, false)) := rfl

theorem dns_update_state (env : Env) (w : World) (d o n : String) :
    (dns_update_record env w d o n).1.state = w.state := by
  rw [dns_update_eq]
  split
  · rw [dns_add_state, dns_delete_state]
  · rw [dns_delete_state]

theorem dns_update_warnings (env : Env) (w : World) (d o n : String) :
    (dns_update_record env w d o n).1.warnings = w.warnings := by
  rw [dns_update_eq]
  split
  · rw [dns_add_warnings, dns_delete_warnings]
  · rw [dns_delete_warnings]

theorem dns_update_trace_mono (env : Env) (w : World) (d o n : String) (op : DnsOp)
    (h : op ∈ w.trace) : op ∈ (dns_update_record env w d o n).1.trace := by
  rw [dns_update_eq]
  have h1 : op ∈ (dns_delete_record env w d o).1.trace := by
    rw [dns_delete_trace]
    exact List.mem_append_left _ h
  split
  · rw [dns_add_trace]
    exact List.mem_append_left _ h1
  · exact h1

theorem dns_update_newOps (env : Env) (w : World) (d o n : String) :
    NewOpsOnly (fun op => op = DnsOp.delete d o ∨ op = DnsOp.add d n) w
      (dns_update_record env w d o n).1 := by
  rw [dns_update_eq]
  have hdel : ∀ op ∈ (dns_delete_record env w d o).1.trace,
      op ∈ w.trace ∨ op = DnsOp.delete d o ∨ op = DnsOp.add d n := by
    intro op hop
    rw [dns_delete_trace] at hop
    rcases List.mem_append.mp hop with h | h
    · exact Or.inl h
    · simp only [List.mem_singleton] at h
      exact Or.inr (Or.inl h)
  split
  · intro op hop
    rw [dns_add_trace] at hop
    rcases List.mem_append.mp hop with h | h
    · exact hdel op h
    · simp only [List.mem_singleton] at h
      exact Or.inr (Or.inr h)
  · exact hdel

theorem dns_update_resolver_mem_ne (env : Env) (w : World) (d o n : String) (r : DNSRecord)
    (h : r ∈ w.resolver) (hne : r ≠ ⟨d, o⟩) :
    r ∈ (dns_update_record env w d o n).1.resolver := by
  rw [dns_update_eq]
  have h1 := dns_delete_resolver_mem_ne env w d o r h hne
  split
  · exact dns_add_resolver_mem env _ d n r h1
  · exact h1

theorem dns_update_resolver_sub_or (env : Env) (w : World) (d o n : String) (r : DNSRecord)
    (h : r ∈ (dns_update_record env w d o n).1.resolver) :
    r ∈ w.resolver ∨ r = ⟨d, n⟩ := by
  rw [dns_update_eq] at h
  split at h
  · rcases dns_add_resolver_sub env _ d n r h with h' | h'
    · exact Or.inl (dns_delete_resolver_sub env w d o r h')
    · exact Or.inr h'
  · exact Or.inl (dns_delete_resolver_sub env w d o r h)

theorem staticStep_warnings (env : Env) (cr : List (String × String)) (w : World)
    (e : String × String) : (staticStep env cr w e).warnings = w.warnings := by
  unfold staticStep
  cases hcur : dictLookup cr e.1 with
  | some cur =>
      dsimp only
      by_cases h1 : cur = e.2
      · rw [if_pos h1]
      · rw [if_neg h1]
        by_cases h2 : _is_record_managed w.state e.1 cur
        · rw [if_pos h2]
          exact dns_update_warnings env w e.1 cur e.2
        · rw [if_neg h2]
  | none =>
      dsimp only
      exact dns_add_warnings env w e.1 e.2

theorem staticStep_domains (env : Env) (cr : List (String × String)) (w : World)
    (e : String × String) : (staticStep env cr w e).state.domains = w.state.domains := by
  unfold staticStep
  cases hcur : dictLookup cr e.1 with
  | some cur =>
      dsimp only
      by_cases h1 : cur = e.2
      · rw [if_pos h1]
        exact mark_domains w.state e.1 e.2
      · rw [if_neg h1]
        by_cases h2 : _is_record_managed w.state e.1 cur
        · rw [if_pos h2]
          rw [mark_domains, unmark_domains, dns_update_state]
        · rw [if_neg h2]
  | none =>
      dsimp only
      rw [mark_domains, dns_add_state]

theorem staticStep_instances (env : Env) (cr : List (String × String)) (w : World)
    (e : String × String) : (staticStep env cr w e).state.instances = w.state.instances := by
  unfold staticStep
  cases hcur : dictLookup cr e.1 with
  | some cur =>
      dsimp only
      by_cases h1 : cur = e.2
      · rw [if_pos h1]
        exact mark_instances w.state e.1 e.2
      · rw [if_neg h1]
        by_cases h2 : _is_record_managed w.state e.1 cur
        · rw [if_pos h2]
          rw [mark_instances, unmark_instances, dns_update_state]
        · rw [if_neg h2]
  | none =>
      dsimp only
      rw [mark_instances, dns_add_state]

theorem staticStep_trace_mono (env : Env) (cr : List (String × String)) (w : World)
    (e : String × String) (op : DnsOp) (h : op ∈ w.trace) :
    op ∈ (staticStep env cr w e).trace := by
  unfold staticStep
  cases hcur : dictLookup cr e.1 with
  | some cur =>
      dsimp only
      by_cases h1 : cur = e.2
      · rw [if_pos h1]
        exact h
      · rw [if_neg h1]
        by_cases h2 : _is_record_managed w.state e.1 cur
        · rw [if_pos h2]
          exact dns_update_trace_mono env w e.1 cur e.2 op h
        · rw [if_neg h2]
          exact h
  | none =>
      dsimp only
      rw [dns_add_trace]
      exact List.mem_append_left _ h

theorem staticStep_newOps (env : Env) (cr : List (String × String)) (w : World)
    (e : String × String) :
    NewOpsOnly (fun op => (∃ x, op = DnsOp.add e.1 x) ∨
      (∃ x, op = DnsOp.delete e.1 x ∧ x ∈ managedOf w.state e.1)) w
      (staticStep env cr w e) := by
  unfold staticStep
  cases hcur : dictLookup cr e.1 with
  | some cur =>
      dsimp only
      by_cases h1 : cur = e.2
      · rw [if_pos h1]
        exact NewOpsOnly_rfl _ w
      · rw [if_neg h1]
        by_cases h2 : _is_record_managed w.state e.1 cur
        · rw [if_pos h2]
          intro op hop
          rcases dns_update_newOps env w e.1 cur e.2 op hop with h | h | h
          · exact Or.inl h
          · exact Or.inr (Or.inr ⟨cur, h, (_is_record_managed_iff w.state e.1 cur).mp h2⟩)
          · exact Or.inr (Or.inl ⟨e.2, h⟩)
        · rw [if_neg h2]
          exact NewOpsOnly_rfl _ w
  | none =>
      dsimp only
      intro op hop
      rw [dns_add_trace] at hop
      rcases List.mem_append.mp hop with h | h
      · exact Or.inl h
      · simp only [List.mem_singleton] at h
        exact Or.inr (Or.inl ⟨e.2, h⟩)

theorem staticStep_managed_ne (env : Env) (cr : List (String × String)) (w : World)
    (e : String × String) (d : String) (h : e.1 ≠ d) :
    managedOf (staticStep env cr w e).state d = managedOf w.state d := by
  unfold staticStep
  cases hcur : dictLookup cr e.1 with
  | some cur =>
      dsimp only
      by_cases h1 : cur = e.2
      · rw [if_pos h1]
        exact managedOf_mark_ne w.state e.1 d e.2 h
      · rw [if_neg h1]
        by_cases h2 : _is_record_managed w.state e.1 cur
        · rw [if_pos h2]
          rw [managedOf_mark_ne _ _ _ _ h, managedOf_unmark_ne _ _ _ _ h, dns_update_state]
        · rw [if_neg h2]
  | none =>
      dsimp only
      rw [managedOf_mark_ne _ _ _ _ h, dns_add_state]

theorem staticStep_resolver_mem_ne (env : Env) (cr : List (String × String)) (w : World)
    (e : String × String) (r : DNSRecord) (h : r ∈ w.resolver) (hne : r.domain ≠ e.1) :
    r ∈ (staticStep env cr w e).resolver := by
  unfold staticStep
  cases hcur : dictLookup cr e.1 with
  | some cur =>
      dsimp only
      by_cases h1 : cur = e.2
      · rw [if_pos h1]
        exact h
      · rw [if_neg h1]
        by_cases h2 : _is_record_managed w.state e.1 cur
        · rw [if_pos h2]
          apply dns_update_resolver_mem_ne env w e.1 cur e.2 r h
          intro hEq
          exact hne (congrArg DNSRecord.domain hEq)
        · rw [if_neg h2]
          exact h
  | none =>
      dsimp only
      exact dns_add_resolver_mem env w e.1 e.2 r h

theorem staticStep_resolver_sub_or (env : Env) (cr : List (String × String)) (w : World)
    (e : String × String) (r : DNSRecord) (h : r ∈ (staticStep env cr w e).resolver) :
    r ∈ w.resolver ∨ r.domain = e.1 := by
  unfold staticStep at h
  cases hcur : dictLookup cr e.1 with
  | some cur =>
      rw [hcur] at h
      dsimp only at h
      by_cases h1 : cur = e.2
      · rw [if_pos h1] at h
        exact Or.inl h
      · rw [if_neg h1] at h
        by_cases h2 : _is_record_managed w.state e.1 cur
        · rw [if_pos h2] at h
          rcases dns_update_resolver_sub_or env w e.1 cur e.2 r h with h' | h'
          · exact Or.inl h'
          · subst h'
            exact Or.inr rfl
        · rw [if_neg h2] at h
          exact Or.inl h
  | none =>
      rw [hcur] at h
      dsimp only at h
      rcases dns_add_resolver_sub env w e.1 e.2 r h with h' | h'
      · exact Or.inl h'
      · subst h'
        exact Or.inr rfl

theorem staticStep_intact (env : Env) (cr : List (String × String)) (w : World)
    (e : String × String) (d a : String) (hne : e.1 ≠ d)
    (h : UnmanagedIntact d a w) : UnmanagedIntact d a (staticStep env cr w e) := by
  obtain ⟨hm, hr, ht⟩ := h
  refine ⟨?_, ?_, ?_⟩
  · rw [staticStep_managed_ne env cr w e d hne]
    exact hm
  · exact staticStep_resolver_mem_ne env cr w e ⟨d, a⟩ hr (fun hEq => hne (by simpa using hEq.symm))
  · intro hmem
    rcases staticStep_newOps env cr w e (DnsOp.delete d a) hmem with h' | ⟨x, hx⟩ | ⟨x, hx, _⟩
    · exact ht h'
    · simp at hx
    · have : e.1 = d := by
        cases hx
        rfl
      exact hne this

/-! ### Static-rewrite phase lemmas -/

theorem staticFold_warnings (env : Env) (cr : List (String × String))
    (L : List (String × String)) : ∀ (w : World),
    ((L.foldl (staticStep env cr) w)).warnings = w.warnings := by
  induction L with
  | nil => exact fun w => rfl
  | cons e t ih =>
      intro w
      rw [List.foldl_cons, ih, staticStep_warnings]

theorem staticFold_domains (env : Env) (cr : List (String × String))
    (L : List (String × String)) : ∀ (w : World),
    ((L.foldl (staticStep env cr) w)).state.domains = w.state.domains := by
  induction L with
  | nil => exact fun w => rfl
  | cons e t ih =>
      intro w
      rw [List.foldl_cons, ih, staticStep_domains]

theorem staticFold_instances (env : Env) (cr : List (String × String))
    (L : List (String × String)) : ∀ (w : World),
    ((L.foldl (staticStep env cr) w)).state.instances = w.state.instances := by
  induction L with
  | nil => exact fun w => rfl
  | cons e t ih =>
      intro w
      rw [List.foldl_cons, ih, staticStep_instances]

theorem staticFold_trace_mono (env : Env) (cr : List (String × String))
    (L : List (String × String)) : ∀ (w : World) (op : DnsOp), op ∈ w.trace →
    op ∈ ((L.foldl (staticStep env cr) w)).trace := by
  induction L with
  | nil => exact fun w op h => h
  | cons e t ih =>
      intro w op h
      rw [List.foldl_cons]
      exact ih _ op (staticStep_trace_mono env cr w e op h)

theorem staticFold_newOps (env : Env) (cr : List (String × String))
    (L : List (String × String)) : ∀ (w : World),
    NewOpsOnly (fun op => ∃ e ∈ L, ∃ x, op = DnsOp.add e.1 x ∨ op = DnsOp.delete e.1 x) w
      ((L.foldl (staticStep env cr) w)) := by
  induction L with
  | nil => exact fun w => NewOpsOnly_rfl _ w
  | cons e t ih =>
      intro w op hop
      rw [List.foldl_cons] at hop
      rcases ih (staticStep env cr w e) op hop with h | ⟨e', he', x, hx⟩
      · rcases staticStep_newOps env cr w e op h with h' | ⟨x, hx⟩ | ⟨x, hx, _⟩
        · exact Or.inl h'
        · exact Or.inr ⟨e, List.mem_cons_self e t, x, Or.inl hx⟩
        · exact Or.inr ⟨e, List.mem_cons_self e t, x, Or.inr hx⟩
      · exact Or.inr ⟨e', List.mem_cons_of_mem e he', x, hx⟩

theorem staticFold_managed_ne (env : Env) (cr : List (String × String))
    (L : List (String × String)) (d : String) (hd : ∀ e ∈ L, e.1 ≠ d) : ∀ (w : World),
    managedOf ((L.foldl (staticStep env cr) w)).state d = managedOf w.state d := by
  induction L with
  | nil => exact fun w => rfl
  | cons e t ih =>
      intro w
      rw [List.foldl_cons, ih (fun e' he' => hd e' (List.mem_cons_of_mem e he')),
        staticStep_managed_ne env cr w e d (hd e (List.mem_cons_self e t))]

theorem staticFold_resolver_sub_or (env : Env) (cr : List (String × String))
    (L : List (String × String)) : ∀ (w : World) (r : DNSRecord),
    r ∈ ((L.foldl (staticStep env cr) w)).resolver →
      r ∈ w.resolver ∨ ∃ e ∈ L, r.domain = e.1 := by
  induction L with
  | nil => exact fun w r h => Or.inl h
  | cons e t ih =>
      intro w r h
      rw [List.foldl_cons] at h
      rcases ih _ r h with h' | ⟨e', he', hdom⟩
      · rcases staticStep_resolver_sub_or env cr w e r h' with h'' | h''
        · exact Or.inl h''
        · exact Or.inr ⟨e, List.mem_cons_self e t, h''⟩
      · exact Or.inr ⟨e', List.mem_cons_of_mem e he', hdom⟩

theorem staticFold_intact (env : Env) (cr : List (String × String))
    (L : List (String × String)) (d a : String) (hd : ∀ e ∈ L, e.1 ≠ d) : ∀ (w : World),
    UnmanagedIntact d a w → UnmanagedIntact d a ((L.foldl (staticStep env cr) w)) := by
  induction L with
  | nil => exact fun w h => h
  | cons e t ih =>
      intro w h
      rw [List.foldl_cons]
      exact ih (fun e' he' => hd e' (List.mem_cons_of_mem e he')) _
        (staticStep_intact env cr w e d a (hd e (List.mem_cons_self e t)) h)

theorem statics_eq (env : Env) (w : World) (h : env.static_rewrites ≠ []) :
    _sync_static_rewrites env w
      = env.static_rewrites.foldl
          (staticStep env (lastWins (dns_get_records env w))) w := by
  unfold _sync_static_rewrites
  rw [if_neg h]

theorem statics_warnings (env : Env) (w : World) :
    (_sync_static_rewrites env w).warnings = w.warnings := by
  by_cases h : env.static_rewrites = []
  · unfold _sync_static_rewrites
    rw [if_pos h]
  · rw [statics_eq env w h, staticFold_warnings]

theorem statics_domains (env : Env) (w : World) :
    (_sync_static_rewrites env w).state.domains = w.state.domains := by
  by_cases h : env.static_rewrites = []
  · unfold _sync_static_rewrites
    rw [if_pos h]
  · rw [statics_eq env w h, staticFold_domains]

theorem statics_instances (env : Env) (w : World) :
    (_sync_static_rewrites env w).state.instances = w.state.instances := by
  by_cases h : env.static_rewrites = []
  · unfold _sync_static_rewrites
    rw [if_pos h]
  · rw [statics_eq env w h, staticFold_instances]

theorem statics_trace_mono (env : Env) (w : World) (op : DnsOp) (h : op ∈ w.trace) :
    op ∈ (_sync_static_rewrites env w).trace := by
  by_cases hs : env.static_rewrites = []
  · unfold _sync_static_rewrites
    rw [if_pos hs]
    exact h
  · rw [statics_eq env w hs]
    exact staticFold_trace_mono env _ _ w op h

theorem statics_newOps (env : Env) (w : World) :
    NewOpsOnly
      (fun op => ∃ e ∈ env.static_rewrites, ∃ x,
        op = DnsOp.add e.1 x ∨ op = DnsOp.delete e.1 x) w (_sync_static_rewrites env w) := by
  by_cases hs : env.static_rewrites = []
  · unfold _sync_static_rewrites
    rw [if_pos hs]
    exact NewOpsOnly_rfl _ w
  · rw [statics_eq env w hs]
    exact staticFold_newOps env _ _ w

theorem statics_managed_ne (env : Env) (w : World) (d : String)
    (hd : dictLookup env.static_rewrites d = none) :
    managedOf (_sync_static_rewrites env w).state d = managedOf w.state d := by
  by_cases hs : env.static_rewrites = []
  · unfold _sync_static_rewrites
    rw [if_pos hs]
  · rw [statics_eq env w hs]
    exact staticFold_managed_ne env _ _ d ((dictLookup_eq_none_iff _ _).mp hd) w

theorem statics_resolver_sub_or (env : Env) (w : World) (r : DNSRecord)
    (h : r ∈ (_sync_static_rewrites env w).resolver) :
    r ∈ w.resolver ∨ ∃ e ∈ env.static_rewrites, r.domain = e.1 := by
  by_cases hs : env.static_rewrites = []
  · unfold _sync_static_rewrites at h
    rw [if_pos hs] at h
    exact Or.inl h
  · rw [statics_eq env w hs] at h
    exact staticFold_resolver_sub_or env _ _ w r h

theorem statics_intact (env : Env) (w : World) (d a : String)
    (hd : dictLookup env.static_rewrites d = none) (h : UnmanagedIntact d a w) :
    UnmanagedIntact d a (_sync_static_rewrites env w) := by
  by_cases hs : env.static_rewrites = []
  · unfold _sync_static_rewrites
    rw [if_pos hs]
    exact h
  · rw [statics_eq env w hs]
    exact staticFold_intact env _ _ d a ((dictLookup_eq_none_iff _ _).mp hd) w h

/-! ### Removed-instance cleanup lemmas -/

theorem cleanupDeleteStep_warnings (env : Env) (rbd : List (String × List String))
    (w : World) (dom : String) : (cleanupDeleteStep env rbd w dom).warnings = w.warnings := by
  unfold cleanupDeleteStep
  split
  · rfl
  · exact (deleteManagedIfFold_frame env dom _ w).1

theorem cleanupDeleteStep_instances (env : Env) (rbd : List (String × List String))
    (w : World) (dom : String) :
    (cleanupDeleteStep env rbd w dom).state.instances = w.state.instances := by
  unfold cleanupDeleteStep
  split
  · rfl
  · exact (deleteManagedIfFold_frame env dom _ w).2.2

theorem cleanupDeleteStep_trace_mono (env : Env) (rbd : List (String × List String))
    (w : World) (dom : String) (op : DnsOp) (h : op ∈ w.trace) :
    op ∈ (cleanupDeleteStep env rbd w dom).trace := by
  unfold cleanupDeleteStep
  split
  · exact h
  · exact deleteManagedIfFold_trace_mono env dom _ w op h

theorem cleanupDeleteStep_newOps (env : Env) (rbd : List (String × List String))
    (w : World) (dom : String) :
    NewOpsOnly (fun op => ∃ x, op = DnsOp.delete dom x) w (cleanupDeleteStep env rbd w dom) := by
  unfold cleanupDeleteStep
  split
  · exact NewOpsOnly_rfl _ w
  · intro op hop
    rcases deleteManagedIfFold_newOps env dom _ w op hop with h | ⟨x, hx, _⟩
    · exact Or.inl h
    · exact Or.inr ⟨x, hx⟩

theorem cleanupDeleteStep_resolver_sub (env : Env) (rbd : List (String × List String))
    (w : World) (dom : String) (r : DNSRecord)
    (h : r ∈ (cleanupDeleteStep env rbd w dom).resolver) : r ∈ w.resolver := by
  unfold cleanupDeleteStep at h
  split at h
  · exact h
  · exact deleteManagedIfFold_resolver_sub env dom _ w r h

theorem cleanupDeleteStep_managed_sub (env : Env) (rbd : List (String × List String))
    (w : World) (dom : String) (d x : String)
    (h : x ∈ managedOf (cleanupDeleteStep env rbd w dom).state d) :
    x ∈ managedOf w.state d := by
  unfold cleanupDeleteStep at h
  split at h
  · exact h
  · have h' : x ∈ managedOf
        ((((dictLookup rbd dom).getD []).foldl
          (deleteManagedIfStep env dom) w)).state d := h
    by_cases hd : d = dom
    · subst hd
      exact deleteManagedIfFold_managed_sub env d _ w x h'
    · rw [deleteManagedIfFold_managed_ne env dom _ w d hd] at h'
      exact h'

theorem cleanupDeleteStep_intact (env : Env) (rbd : List (String × List String))
    (w : World) (dom : String) (d a : String) (h : UnmanagedIntact d a w) :
    UnmanagedIntact d a (cleanupDeleteStep env rbd w dom) := by
  unfold cleanupDeleteStep
  split
  · exact h
  · have h2 := deleteManagedIfFold_intact env dom ((dictLookup rbd dom).getD []) w d a h
    exact ⟨h2.1, h2.2.1, h2.2.2⟩

theorem cleanupDeleteFold_warnings (env : Env) (rbd : List (String × List String))
    (doms : List String) : ∀ (w : World),
    ((doms.foldl (cleanupDeleteStep env rbd) w)).warnings = w.warnings := by
  induction doms with
  | nil => exact fun w => rfl
  | cons dm t ih =>
      intro w
      rw [List.foldl_cons, ih, cleanupDeleteStep_warnings]

theorem cleanupDeleteFold_instances (env : Env) (rbd : List (String × List String))
    (doms : List String) : ∀ (w : World),
    ((doms.foldl (cleanupDeleteStep env rbd) w)).state.instances = w.state.instances := by
  induction doms with
  | nil => exact fun w => rfl
  | cons dm t ih =>
      intro w
      rw [List.foldl_cons, ih, cleanupDeleteStep_instances]

theorem cleanupDeleteFold_trace_mono (env : Env) (rbd : List (String × List String))
    (doms : List String) : ∀ (w : World) (op : DnsOp), op ∈ w.trace →
    op ∈ ((doms.foldl (cleanupDeleteStep env rbd) w)).trace := by
  induction doms with
  | nil => exact fun w op h => h
  | cons dm t ih =>
      intro w op h
      rw [List.foldl_cons]
      exact ih _ op (cleanupDeleteStep_trace_mono env rbd w dm op h)

theorem cleanupDeleteFold_newOps (env : Env) (rbd : List (String × List String))
    (doms : List String) : ∀ (w : World),
    NewOpsOnly (fun op => ∃ dom x, op = DnsOp.delete dom x) w
      ((doms.foldl (cleanupDeleteStep env rbd) w)) := by
  induction doms with
  | nil => exact fun w => NewOpsOnly_rfl _ w
  | cons dm t ih =>
      intro w op hop
      rw [List.foldl_cons] at hop
      rcases ih _ op hop with h | h
      · rcases cleanupDeleteStep_newOps env rbd w dm op h with h' | ⟨x, hx⟩
        · exact Or.inl h'
        · exact Or.inr ⟨dm, x, hx⟩
      · exact Or.inr h

theorem cleanupDeleteFold_resolver_sub (env : Env) (rbd : List (String × List String))
    (doms : List String) : ∀ (w : World) (r : DNSRecord),
    r ∈ ((doms.foldl (cleanupDeleteStep env rbd) w)).resolver → r ∈ w.resolver := by
  induction doms with
  | nil => exact fun w r h => h
  | cons dm t ih =>
      intro w r h
      rw [List.foldl_cons] at h
      exact cleanupDeleteStep_resolver_sub env rbd w dm r (ih _ r h)

theorem cleanupDeleteFold_managed_sub (env : Env) (rbd : List (String × List String))
    (doms : List String) : ∀ (w : World) (d x : String),
    x ∈ managedOf ((doms.foldl (cleanupDeleteStep env rbd) w)).state d →
    x ∈ managedOf w.state d := by
  induction doms with
  | nil => exact fun w d x h => h
  | cons dm t ih =>
      intro w d x h
      rw [List.foldl_cons] at h
      exact cleanupDeleteStep_managed_sub env rbd w dm d x (ih _ d x h)

theorem cleanupDeleteFold_intact (env : Env) (rbd : List (String × List String))
    (doms : List String) : ∀ (w : World) (d a : String), UnmanagedIntact d a w →
    UnmanagedIntact d a ((doms.foldl (cleanupDeleteStep env rbd) w)) := by
  induction doms with
  | nil => exact fun w d a h => h
  | cons dm t ih =>
      intro w d a h
      rw [List.foldl_cons]
      exact ih _ d a (cleanupDeleteStep_intact env rbd w dm d a h)

theorem cleanup_eq_nil (env : Env) (w : World) (h : removedNames env w.state = []) :
    _cleanup_removed_instances env w = w := by
  unfold _cleanup_removed_instances
  rw [if_pos h]

theorem cleanup_eq_removed (env : Env) (w : World) (h : removedNames env w.state ≠ []) :
    _cleanup_removed_instances env w =
      (let w2 := (sortStrings
          (cleanupSources (removedNames env w.state) w.state.domains).2).foldl
            (cleanupDeleteStep env (groupByDomain (dns_get_records env w)))
            { w with state := { w.state with
                domains := (cleanupSources (removedNames env w.state) w.state.domains).1 } }
       { w2 with state := { w2.state with
          instances := (removedNames env w.state).foldl dictErase w2.state.instances } }) := by
  unfold _cleanup_removed_instances
  rw [if_neg h]

theorem cleanup_warnings (env : Env) (w : World) :
    (_cleanup_removed_instances env w).warnings = w.warnings := by
  by_cases h : removedNames env w.state = []
  · rw [cleanup_eq_nil env w h]
  · rw [cleanup_eq_removed env w h]
    exact cleanupDeleteFold_warnings env _ _ _

theorem cleanup_trace_mono (env : Env) (w : World) (op : DnsOp) (h : op ∈ w.trace) :
    op ∈ (_cleanup_removed_instances env w).trace := by
  by_cases hr : removedNames env w.state = []
  · rw [cleanup_eq_nil env w hr]
    exact h
  · rw [cleanup_eq_removed env w hr]
    exact cleanupDeleteFold_trace_mono env _ _ _ op h

theorem cleanup_newOps (env : Env) (w : World) :
    NewOpsOnly (fun op => ∃ dom x, op = DnsOp.delete dom x) w
      (_cleanup_removed_instances env w) := by
  by_cases hr : removedNames env w.state = []
  · rw [cleanup_eq_nil env w hr]
    exact NewOpsOnly_rfl _ w
  · rw [cleanup_eq_removed env w hr]
    exact cleanupDeleteFold_newOps env _ _ _

theorem cleanup_resolver_sub (env : Env) (w : World) (r : DNSRecord)
    (h : r ∈ (_cleanup_removed_instances env w).resolver) : r ∈ w.resolver := by
  by_cases hr : removedNames env w.state = []
  · rw [cleanup_eq_nil env w hr] at h
    exact h
  · rw [cleanup_eq_removed env w hr] at h
    exact cleanupDeleteFold_resolver_sub env (groupByDomain (dns_get_records env w))
      (sortStrings (cleanupSources (removedNames env w.state) w.state.domains).2)
      { w with state := { w.state with
          domains := (cleanupSources (removedNames env w.state) w.state.domains).1 } } r h

theorem cleanup_managed_sub (env : Env) (w : World) (d x : String)
    (h : x ∈ managedOf (_cleanup_removed_instances env w).state d) :
    x ∈ managedOf w.state d := by
  by_cases hr : removedNames env w.state = []
  · rw [cleanup_eq_nil env w hr] at h
    exact h
  · rw [cleanup_eq_removed env w hr] at h
    exact cleanupDeleteFold_managed_sub env (groupByDomain (dns_get_records env w))
      (sortStrings (cleanupSources (removedNames env w.state) w.state.domains).2)
      { w with state := { w.state with
          domains := (cleanupSources (removedNames env w.state) w.state.domains).1 } } d x h

theorem cleanup_intact (env : Env) (w : World) (d a : String)
    (h : UnmanagedIntact d a w) : UnmanagedIntact d a (_cleanup_removed_instances env w) := by
  by_cases hr : removedNames env w.state = []
  · rw [cleanup_eq_nil env w hr]
    exact h
  · rw [cleanup_eq_removed env w hr]
    have h2 := cleanupDeleteFold_intact env (groupByDomain (dns_get_records env w))
      (sortStrings (cleanupSources (removedNames env w.state) w.state.domains).2)
      { w with state := { w.state with
          domains := (cleanupSources (removedNames env w.state) w.state.domains).1 } }
      d a ⟨h.1, h.2.1, h.2.2⟩
    exact ⟨h2.1, h2.2.1, h2.2.2⟩

theorem afterStatic_of_done (env : Env) (w : World) (h : env.startup_cleanup_done = true) :
    afterStatic env w = _sync_static_rewrites env w := by
  unfold afterStatic
  rw [h]
  rfl

/-! ### Exclusion-cleanup lemmas -/

theorem ite_pair_fst {α β : Type} (c : Prop) [Decidable c] (x : α) (y z : β) :
    (if c then (x, y) else (x, z)).1 = x := by
  split <;> rfl

theorem exclInnerStep_world (env : Env) (dom : String) (acc : World × Bool) (ans : String) :
    (exclInnerStep env dom acc ans).1 = deleteManagedIfStep env dom acc.1 ans := by
  unfold exclInnerStep deleteManagedIfStep
  split <;> rfl

theorem exclInnerFold_world (env : Env) (dom : String) (answers : List String) :
    ∀ (acc : World × Bool),
      (answers.foldl (exclInnerStep env dom) acc).1
        = answers.foldl (deleteManagedIfStep env dom) acc.1 := by
  induction answers with
  | nil => exact fun acc => rfl
  | cons x t ih =>
      intro acc
      rw [List.foldl_cons, List.foldl_cons, ih, exclInnerStep_world]

theorem exclStep_excl_eq (env : Env) (acc : World × List (String × List String))
    (e : String × List String) (h1 : dictContains env.static_rewrites e.1 = false)
    (h2 : _is_domain_excluded e.1 env.exclude_patterns = true) :
    (exclStep env acc e).1 =
      (let pw := e.2.foldl (deleteManagedIfStep env e.1) acc.1
       { pw with state := { pw.state with domains := dictErase pw.state.domains e.1 } }) := by
  unfold exclStep
  rw [if_neg (by simp [h1]), if_pos h2]
  dsimp only
  rw [ite_pair_fst]
  rw [exclInnerFold_world]

theorem exclStep_skip_eq (env : Env) (acc : World × List (String × List String))
    (e : String × List String)
    (h : dictContains env.static_rewrites e.1 = true ∨
      _is_domain_excluded e.1 env.exclude_patterns = false) :
    (exclStep env acc e).1 = acc.1 := by
  unfold exclStep
  rcases h with h | h
  · rw [if_pos h]
  · by_cases h1 : dictContains env.static_rewrites e.1 = true
    · rw [if_pos h1]
    · rw [if_neg h1, if_neg (by simp [h])]

theorem exclStep_world_cases (env : Env) (acc : World × List (String × List String))
    (e : String × List String) :
    (exclStep env acc e).1 = acc.1 ∨
    ((exclStep env acc e).1 =
      (let pw := e.2.foldl (deleteManagedIfStep env e.1) acc.1
       { pw with state := { pw.state with domains := dictErase pw.state.domains e.1 } }) ∧
      _is_domain_excluded e.1 env.exclude_patterns = true) := by
  by_cases h1 : dictContains env.static_rewrites e.1 = true
  · exact Or.inl (exclStep_skip_eq env acc e (Or.inl h1))
  · by_cases h2 : _is_domain_excluded e.1 env.exclude_patterns = true
    · exact Or.inr ⟨exclStep_excl_eq env acc e (by simpa using h1) h2, h2⟩
    · exact Or.inl (exclStep_skip_eq env acc e (Or.inr (by simpa using h2)))

theorem exclStep_warnings (env : Env) (acc : World × List (String × List String))
    (e : String × List String) : (exclStep env acc e).1.warnings = acc.1.warnings := by
  rcases exclStep_world_cases env acc e with h | ⟨h, _⟩
  · rw [h]
  · rw [h]
    exact (deleteManagedIfFold_frame env e.1 e.2 acc.1).1

theorem exclStep_instances (env : Env) (acc : World × List (String × List String))
    (e : String × List String) :
    (exclStep env acc e).1.state.instances = acc.1.state.instances := by
  rcases exclStep_world_cases env acc e with h | ⟨h, _⟩
  · rw [h]
  · rw [h]
    exact (deleteManagedIfFold_frame env e.1 e.2 acc.1).2.2

theorem exclStep_trace_mono (env : Env) (acc : World × List (String × List String))
    (e : String × List String) (op : DnsOp) (hop : op ∈ acc.1.trace) :
    op ∈ (exclStep env acc e).1.trace := by
  rcases exclStep_world_cases env acc e with h | ⟨h, _⟩
  · rw [h]
    exact hop
  · rw [h]
    exact deleteManagedIfFold_trace_mono env e.1 e.2 acc.1 op hop

theorem exclStep_newOps (env : Env) (acc : World × List (String × List String))
    (e : String × List String) :
    NewOpsOnly (fun op => ∃ dd x, op = DnsOp.delete dd x ∧
        _is_domain_excluded dd env.exclude_patterns = true) acc.1 (exclStep env acc e).1 := by
  rcases exclStep_world_cases env acc e with h | ⟨h, hexcl⟩
  · rw [h]
    exact NewOpsOnly_rfl _ _
  · rw [h]
    intro op hop
    rcases deleteManagedIfFold_newOps env e.1 e.2 acc.1 op hop with h' | ⟨x, hx, _⟩
    · exact Or.inl h'
    · exact Or.inr ⟨e.1, x, hx, hexcl⟩

theorem exclStep_resolver_sub (env : Env) (acc : World × List (String × List String))
    (e : String × List String) (r : DNSRecord)
    (h : r ∈ (exclStep env acc e).1.resolver) : r ∈ acc.1.resolver := by
  rcases exclStep_world_cases env acc e with heq | ⟨heq, _⟩
  · rw [heq] at h
    exact h
  · rw [heq] at h
    exact deleteManagedIfFold_resolver_sub env e.1 e.2 acc.1 r h

theorem exclStep_managed_sub (env : Env) (acc : World × List (String × List String))
    (e : String × List String) (d x : String)
    (h : x ∈ managedOf (exclStep env acc e).1.state d) : x ∈ managedOf acc.1.state d := by
  rcases exclStep_world_cases env acc e with heq | ⟨heq, _⟩
  · rw [heq] at h
    exact h
  · rw [heq] at h
    have h' : x ∈ managedOf ((e.2.foldl (deleteManagedIfStep env e.1) acc.1)).state d := h
    by_cases hd : d = e.1
    · subst hd
      exact deleteManagedIfFold_managed_sub env e.1 e.2 acc.1 x h'
    · rw [deleteManagedIfFold_managed_ne env e.1 e.2 acc.1 d hd] at h'
      exact h'

theorem exclStep_managed_ne (env : Env) (acc : World × List (String × List String))
    (e : String × List String) (d : String) (hd : e.1 ≠ d) :
    managedOf (exclStep env acc e).1.state d = managedOf acc.1.state d := by
  rcases exclStep_world_cases env acc e with heq | ⟨heq, _⟩
  · rw [heq]
  · rw [heq]
    exact deleteManagedIfFold_managed_ne env e.1 e.2 acc.1 d (Ne.symm hd)

theorem exclStep_intact (env : Env) (acc : World × List (String × List String))
    (e : String × List String) (d a : String) (h : UnmanagedIntact d a acc.1) :
    UnmanagedIntact d a (exclStep env acc e).1 := by
  rcases exclStep_world_cases env acc e with heq | ⟨heq, _⟩
  · rw [heq]
    exact h
  · rw [heq]
    have key := deleteManagedIfFold_intact env e.1 e.2 acc.1 d a h
    exact ⟨key.1, key.2.1, key.2.2⟩

theorem exclStep_rbd_ne (env : Env) (acc : World × List (String × List String))
    (e : String × List String) (k : String)
    (hk : _is_domain_excluded k env.exclude_patterns = false) :
    dictLookup (exclStep env acc e).2 k = dictLookup acc.2 k := by
  unfold exclStep
  split
  · rfl
  · split
    · rename_i hexcl
      have hne : e.1 ≠ k := by
        intro hEq
        rw [hEq, hk] at hexcl
        cases hexcl
      dsimp only
      split
      · exact dictLookup_dictErase_ne acc.2 e.1 k hne
      · rfl
    · rfl

theorem exclFold_warnings (env : Env) (L : List (String × List String)) :
    ∀ (acc : World × List (String × List String)),
      ((L.foldl (exclStep env) acc)).1.warnings = acc.1.warnings := by
  induction L with
  | nil => exact fun acc => rfl
  | cons e t ih =>
      intro acc
      rw [List.foldl_cons, ih, exclStep_warnings]

theorem exclFold_instances (env : Env) (L : List (String × List String)) :
    ∀ (acc : World × List (String × List String)),
      ((L.foldl (exclStep env) acc)).1.state.instances = acc.1.state.instances := by
  induction L with
  | nil => exact fun acc => rfl
  | cons e t ih =>
      intro acc
      rw [List.foldl_cons, ih, exclStep_instances]

theorem exclFold_trace_mono (env : Env) (L : List (String × List String)) :
    ∀ (acc : World × List (String × List String)) (op : DnsOp), op ∈ acc.1.trace →
      op ∈ ((L.foldl (exclStep env) acc)).1.trace := by
  induction L with
  | nil => exact fun acc op h => h
  | cons e t ih =>
      intro acc op h
      rw [List.foldl_cons]
      exact ih _ op (exclStep_trace_mono env acc e op h)

theorem exclFold_newOps (env : Env) (L : List (String × List String)) :
    ∀ (acc : World × List (String × List String)),
      NewOpsOnly (fun op => ∃ dd x, op = DnsOp.delete dd x ∧
        _is_domain_excluded dd env.exclude_patterns = true) acc.1
        ((L.foldl (exclStep env) acc)).1 := by
  induction L with
  | nil => exact fun acc => NewOpsOnly_rfl _ _
  | cons e t ih =>
      intro acc op hop
      rw [List.foldl_cons] at hop
      rcases ih (exclStep env acc e) op hop with h | h
      · exact exclStep_newOps env acc e op h
      · exact Or.inr h

theorem exclFold_resolver_sub (env : Env) (L : List (String × List String)) :
    ∀ (acc : World × List (String × List String)) (r : DNSRecord),
      r ∈ ((L.foldl (exclStep env) acc)).1.resolver → r ∈ acc.1.resolver := by
  induction L with
  | nil => exact fun acc r h => h
  | cons e t ih =>
      intro acc r h
      rw [List.foldl_cons] at h
      exact exclStep_resolver_sub env acc e r (ih _ r h)

theorem exclFold_managed_sub (env : Env) (L : List (String × List String)) :
    ∀ (acc : World × List (String × List String)) (d x : String),
      x ∈ managedOf ((L.foldl (exclStep env) acc)).1.state d →
      x ∈ managedOf acc.1.state d := by
  induction L with
  | nil => exact fun acc d x h => h
  | cons e t ih =>
      intro acc d x h
      rw [List.foldl_cons] at h
      exact exclStep_managed_sub env acc e d x (ih _ d x h)

theorem exclFold_intact (env : Env) (L : List (String × List String)) :
    ∀ (acc : World × List (String × List String)) (d a : String),
      UnmanagedIntact d a acc.1 →
      UnmanagedIntact d a ((L.foldl (exclStep env) acc)).1 := by
  induction L with
  | nil => exact fun acc d a h => h
  | cons e t ih =>
      intro acc d a h
      rw [List.foldl_cons]
      exact ih _ d a (exclStep_intact env acc e d a h)

theorem exclFold_rbd_ne (env : Env) (L : List (String × List String)) (k : String)
    (hk : _is_domain_excluded k env.exclude_patterns = false) :
    ∀ (acc : World × List (String × List String)),
      dictLookup ((L.foldl (exclStep env) acc)).2 k = dictLookup acc.2 k := by
  induction L with
  | nil => exact fun acc => rfl
  | cons e t ih =>
      intro acc
      rw [List.foldl_cons, ih, exclStep_rbd_ne env acc e k hk]

theorem exclusionCleanup_warnings (env : Env) (w : World)
    (rbd : List (String × List String)) :
    (exclusionCleanup env w rbd).1.warnings = w.warnings := by
  unfold exclusionCleanup
  split
  · rfl
  · exact exclFold_warnings env rbd (w, rbd)

theorem exclusionCleanup_instances (env : Env) (w : World)
    (rbd : List (String × List String)) :
    (exclusionCleanup env w rbd).1.state.instances = w.state.instances := by
  unfold exclusionCleanup
  split
  · rfl
  · exact exclFold_instances env rbd (w, rbd)

theorem exclusionCleanup_trace_mono (env : Env) (w : World)
    (rbd : List (String × List String)) (op : DnsOp) (h : op ∈ w.trace) :
    op ∈ (exclusionCleanup env w rbd).1.trace := by
  unfold exclusionCleanup
  split
  · exact h
  · exact exclFold_trace_mono env rbd (w, rbd) op h

theorem exclusionCleanup_newOps (env : Env) (w : World)
    (rbd : List (String × List String)) :
    NewOpsOnly (fun op => ∃ dd x, op = DnsOp.delete dd x ∧
      _is_domain_excluded dd env.exclude_patterns = true) w
      (exclusionCleanup env w rbd).1 := by
  unfold exclusionCleanup
  split
  · exact NewOpsOnly_rfl _ _
  · exact exclFold_newOps env rbd (w, rbd)

theorem exclusionCleanup_resolver_sub (env : Env) (w : World)
    (rbd : List (String × List String)) (r : DNSRecord)
    (h : r ∈ (exclusionCleanup env w rbd).1.resolver) : r ∈ w.resolver := by
  unfold exclusionCleanup at h
  split at h
  · exact h
  · exact exclFold_resolver_sub env rbd (w, rbd) r h

theorem exclusionCleanup_managed_sub (env : Env) (w : World)
    (rbd : List (String × List String)) (d x : String)
    (h : x ∈ managedOf (exclusionCleanup env w rbd).1.state d) :
    x ∈ managedOf w.state d := by
  unfold exclusionCleanup at h
  split at h
  · exact h
  · exact exclFold_managed_sub env rbd (w, rbd) d x h

theorem exclusionCleanup_intact (env : Env) (w : World)
    (rbd : List (String × List String)) (d a : String) (h : UnmanagedIntact d a w) :
    UnmanagedIntact d a (exclusionCleanup env w rbd).1 := by
  unfold exclusionCleanup
  split
  · exact h
  · exact exclFold_intact env rbd (w, rbd) d a h

theorem exclusionCleanup_rbd_ne (env : Env) (w : World)
    (rbd : List (String × List String)) (k : String)
    (hk : _is_domain_excluded k env.exclude_patterns = false) :
    dictLookup (exclusionCleanup env w rbd).2 k = dictLookup rbd k := by
  unfold exclusionCleanup
  split
  · rfl
  · exact exclFold_rbd_ne env rbd k hk (w, rbd)

/-! ### Creates/updates step lemmas -/

theorem deleteDomainStep_eq (env : Env) (rbd : List (String × List String)) (w : World)
    (dom : String) : deleteDomainStep env rbd w dom = cleanupDeleteStep env rbd w dom := rfl

theorem deleteManagedStep_frame (env : Env) (dom : String) (w : World) (old : String) :
    (deleteManagedStep env dom w old).warnings = w.warnings ∧
    (deleteManagedStep env dom w old).state.domains = w.state.domains ∧
    (deleteManagedStep env dom w old).state.instances = w.state.instances := by
  unfold deleteManagedStep
  refine ⟨?_, ?_, ?_⟩
  · exact dns_delete_warnings env w dom old
  · dsimp only
    rw [unmark_domains]
    rw [dns_delete_state]
  · dsimp only
    rw [unmark_instances]
    rw [dns_delete_state]

theorem deleteManagedStep_trace (env : Env) (dom : String) (w : World) (old : String) :
    (deleteManagedStep env dom w old).trace = w.trace ++ [DnsOp.delete dom old] := by
  unfold deleteManagedStep
  exact dns_delete_trace env w dom old

theorem deleteManagedStep_resolver_sub (env : Env) (dom : String) (w : World) (old : String)
    (r : DNSRecord) (h : r ∈ (deleteManagedStep env dom w old).resolver) : r ∈ w.resolver := by
  unfold deleteManagedStep at h
  exact dns_delete_resolver_sub env w dom old r h

theorem deleteManagedStep_resolver_mem_ne (env : Env) (dom : String) (w : World)
    (old : String) (r : DNSRecord) (h : r ∈ w.resolver) (hne : r ≠ ⟨dom, old⟩) :
    r ∈ (deleteManagedStep env dom w old).resolver := by
  unfold deleteManagedStep
  exact dns_delete_resolver_mem_ne env w dom old r h hne

theorem deleteManagedStep_managed_ne (env : Env) (dom : String) (w : World) (old : String)
    (d : String) (hd : d ≠ dom) :
    managedOf (deleteManagedStep env dom w old).state d = managedOf w.state d := by
  unfold deleteManagedStep
  dsimp only
  rw [managedOf_unmark_ne _ _ _ _ (Ne.symm hd), dns_delete_state]

theorem deleteManagedStep_managed_sub (env : Env) (dom : String) (w : World) (old : String)
    (x : String) (h : x ∈ managedOf (deleteManagedStep env dom w old).state dom) :
    x ∈ managedOf w.state dom := by
  unfold deleteManagedStep at h
  dsimp only at h
  have h2 := mem_managedOf_unmark _ dom old x h
  rwa [dns_delete_state] at h2

theorem deleteManagedStep_intact (env : Env) (dom : String) (w : World) (old : String)
    (d a : String) (hcond : dom = d → old ≠ a) (h : UnmanagedIntact d a w) :
    UnmanagedIntact d a (deleteManagedStep env dom w old) := by
  obtain ⟨hm, hr, ht⟩ := h
  have hne : ¬(dom = d ∧ old = a) := by
    rintro ⟨rfl, rfl⟩
    exact hcond rfl rfl
  refine ⟨?_, ?_, ?_⟩
  · by_cases hd : dom = d
    · subst hd
      intro hmem
      exact hm (deleteManagedStep_managed_sub env dom w old a hmem)
    · rw [deleteManagedStep_managed_ne env dom w old d (Ne.symm hd)]
      exact hm
  · apply deleteManagedStep_resolver_mem_ne env dom w old _ hr
    intro hEq
    exact hne ⟨(congrArg DNSRecord.domain hEq).symm, (congrArg DNSRecord.answer hEq).symm⟩
  · rw [deleteManagedStep_trace]
    intro hmem
    rcases List.mem_append.mp hmem with h' | h'
    · exact ht h'
    · simp only [List.mem_singleton] at h'
      cases h'
      exact hne ⟨rfl, rfl⟩

theorem deleteDupStep_cases (env : Env) (dom ans : String) (w : World) (old : String) :
    deleteDupStep env dom ans w old = deleteManagedStep env dom w old ∨
    deleteDupStep env dom ans w old = w := by
  unfold deleteDupStep
  by_cases h : old ≠ ans
  · rw [if_pos h]
    exact Or.inl rfl
  · rw [if_neg h]
    exact Or.inr rfl

theorem deleteManagedFold_warnings (env : Env) (dom : String) (L : List String) :
    ∀ (w : World), ((L.foldl (deleteManagedStep env dom) w)).warnings = w.warnings := by
  induction L with
  | nil => exact fun w => rfl
  | cons x t ih =>
      intro w
      rw [List.foldl_cons, ih, (deleteManagedStep_frame env dom w x).1]

theorem deleteManagedFold_domains (env : Env) (dom : String) (L : List String) :
    ∀ (w : World), ((L.foldl (deleteManagedStep env dom) w)).state.domains
      = w.state.domains := by
  induction L with
  | nil => exact fun w => rfl
  | cons x t ih =>
      intro w
      rw [List.foldl_cons, ih, (deleteManagedStep_frame env dom w x).2.1]

theorem deleteManagedFold_instances (env : Env) (dom : String) (L : List String) :
    ∀ (w : World), ((L.foldl (deleteManagedStep env dom) w)).state.instances
      = w.state.instances := by
  induction L with
  | nil => exact fun w => rfl
  | cons x t ih =>
      intro w
      rw [List.foldl_cons, ih, (deleteManagedStep_frame env dom w x).2.2]

theorem deleteManagedFold_trace_mono (env : Env) (dom : String) (L : List String) :
    ∀ (w : World) (op : DnsOp), op ∈ w.trace →
      op ∈ ((L.foldl (deleteManagedStep env dom) w)).trace := by
  induction L with
  | nil => exact fun w op h => h
  | cons x t ih =>
      intro w op h
      rw [List.foldl_cons]
      apply ih
      rw [deleteManagedStep_trace]
      exact List.mem_append_left _ h

theorem deleteManagedFold_newOps (env : Env) (dom : String) (L : List String) :
    ∀ (w : World),
      NewOpsOnly (fun op => ∃ x ∈ L, op = DnsOp.delete dom x) w
        ((L.foldl (deleteManagedStep env dom) w)) := by
  induction L with
  | nil => exact fun w => NewOpsOnly_rfl _ _
  | cons x t ih =>
      intro w op hop
      rw [List.foldl_cons] at hop
      rcases ih _ op hop with h | ⟨y, hy, hop'⟩
      · rw [deleteManagedStep_trace] at h
        rcases List.mem_append.mp h with h' | h'
        · exact Or.inl h'
        · simp only [List.mem_singleton] at h'
          exact Or.inr ⟨x, List.mem_cons_self x t, h'⟩
      · exact Or.inr ⟨y, List.mem_cons_of_mem x hy, hop'⟩

theorem deleteManagedFold_resolver_sub (env : Env) (dom : String) (L : List String) :
    ∀ (w : World) (r : DNSRecord),
      r ∈ ((L.foldl (deleteManagedStep env dom) w)).resolver → r ∈ w.resolver := by
  induction L with
  | nil => exact fun w r h => h
  | cons x t ih =>
      intro w r h
      rw [List.foldl_cons] at h
      exact deleteManagedStep_resolver_sub env dom w x r (ih _ r h)

theorem deleteManagedFold_managed_ne (env : Env) (dom : String) (L : List String)
    (d : String) (hd : d ≠ dom) : ∀ (w : World),
    managedOf ((L.foldl (deleteManagedStep env dom) w)).state d = managedOf w.state d := by
  induction L with
  | nil => exact fun w => rfl
  | cons x t ih =>
      intro w
      rw [List.foldl_cons, ih, deleteManagedStep_managed_ne env dom w x d hd]

theorem deleteManagedFold_intact (env : Env) (dom : String) (L : List String)
    (d a : String) (hcond : dom = d → a ∉ L) : ∀ (w : World),
    UnmanagedIntact d a w → UnmanagedIntact d a ((L.foldl (deleteManagedStep env dom) w)) := by
  induction L with
  | nil => exact fun w h => h
  | cons x t ih =>
      intro w h
      rw [List.foldl_cons]
      refine ih (fun hdd => fun hmem => hcond hdd (List.mem_cons_of_mem x hmem)) _
        (deleteManagedStep_intact env dom w x d a ?_ h)
      intro hdd
      intro hxa
      subst hxa
      exact hcond hdd (List.mem_cons_self x t)

theorem deleteDupFold_warnings (env : Env) (dom ans : String) (L : List String) :
    ∀ (w : World), ((L.foldl (deleteDupStep env dom ans) w)).warnings = w.warnings := by
  induction L with
  | nil => exact fun w => rfl
  | cons x t ih =>
      intro w
      rw [List.foldl_cons, ih]
      rcases deleteDupStep_cases env dom ans w x with h | h <;> rw [h]
      exact (deleteManagedStep_frame env dom w x).1

theorem deleteDupFold_domains (env : Env) (dom ans : String) (L : List String) :
    ∀ (w : World), ((L.foldl (deleteDupStep env dom ans) w)).state.domains
      = w.state.domains := by
  induction L with
  | nil => exact fun w => rfl
  | cons x t ih =>
      intro w
      rw [List.foldl_cons, ih]
      rcases deleteDupStep_cases env dom ans w x with h | h <;> rw [h]
      exact (deleteManagedStep_frame env dom w x).2.1

theorem deleteDupFold_instances (env : Env) (dom ans : String) (L : List String) :
    ∀ (w : World), ((L.foldl (deleteDupStep env dom ans) w)).state.instances
      = w.state.instances := by
  induction L with
  | nil => exact fun w => rfl
  | cons x t ih =>
      intro w
      rw [List.foldl_cons, ih]
      rcases deleteDupStep_cases env dom ans w x with h | h <;> rw [h]
      exact (deleteManagedStep_frame env dom w x).2.2

theorem deleteDupFold_trace_mono (env : Env) (dom ans : String) (L : List String) :
    ∀ (w : World) (op : DnsOp), op ∈ w.trace →
      op ∈ ((L.foldl (deleteDupStep env dom ans) w)).trace := by
  induction L with
  | nil => exact fun w op h => h
  | cons x t ih =>
      intro w op h
      rw [List.foldl_cons]
      apply ih
      rcases deleteDupStep_cases env dom ans w x with heq | heq <;> rw [heq]
      · rw [deleteManagedStep_trace]
        exact List.mem_append_left _ h
      · exact h

theorem deleteDupFold_newOps (env : Env) (dom ans : String) (L : List String) :
    ∀ (w : World),
      NewOpsOnly (fun op => ∃ x ∈ L, op = DnsOp.delete dom x) w
        ((L.foldl (deleteDupStep env dom ans) w)) := by
  induction L with
  | nil => exact fun w => NewOpsOnly_rfl _ _
  | cons x t ih =>
      intro w op hop
      rw [List.foldl_cons] at hop
      rcases ih _ op hop with h | ⟨y, hy, hop'⟩
      · rcases deleteDupStep_cases env dom ans w x with heq | heq
        · rw [heq, deleteManagedStep_trace] at h
          rcases List.mem_append.mp h with h' | h'
          · exact Or.inl h'
          · simp only [List.mem_singleton] at h'
            exact Or.inr ⟨x, List.mem_cons_self x t, h'⟩
        · rw [heq] at h
          exact Or.inl h
      · exact Or.inr ⟨y, List.mem_cons_of_mem x hy, hop'⟩

theorem deleteDupFold_resolver_sub (env : Env) (dom ans : String) (L : List String) :
    ∀ (w : World) (r : DNSRecord),
      r ∈ ((L.foldl (deleteDupStep env dom ans) w)).resolver → r ∈ w.resolver := by
  induction L with
  | nil => exact fun w r h => h
  | cons x t ih =>
      intro w r h
      rw [List.foldl_cons] at h
      have h2 := ih _ r h
      rcases deleteDupStep_cases env dom ans w x with heq | heq
      · rw [heq] at h2
        exact deleteManagedStep_resolver_sub env dom w x r h2
      · rw [heq] at h2
        exact h2

theorem deleteDupFold_managed_ne (env : Env) (dom ans : String) (L : List String)
    (d : String) (hd : d ≠ dom) : ∀ (w : World),
    managedOf ((L.foldl (deleteDupStep env dom ans) w)).state d = managedOf w.state d := by
  induction L with
  | nil => exact fun w => rfl
  | cons x t ih =>
      intro w
      rw [List.foldl_cons, ih]
      rcases deleteDupStep_cases env dom ans w x with heq | heq <;> rw [heq]
      exact deleteManagedStep_managed_ne env dom w x d hd

theorem deleteDupFold_intact (env : Env) (dom ans : String) (L : List String)
    (d a : String) (hcond : dom = d → a ∉ L) : ∀ (w : World),
    UnmanagedIntact d a w →
      UnmanagedIntact d a ((L.foldl (deleteDupStep env dom ans) w)) := by
  induction L with
  | nil => exact fun w h => h
  | cons x t ih =>
      intro w h
      rw [List.foldl_cons]
      refine ih (fun hdd hmem => hcond hdd (List.mem_cons_of_mem x hmem)) _ ?_
      rcases deleteDupStep_cases env dom ans w x with heq | heq <;> rw [heq]
      · refine deleteManagedStep_intact env dom w x d a ?_ h
        intro hdd hxa
        subst hxa
        exact hcond hdd (List.mem_cons_self x t)
      · exact h

theorem applyDesiredStep_eq_add (env : Env) (rbd : List (String × List String)) (w : World)
    (e : String × String) (h1 : (dictLookup rbd e.1).getD [] = []) :
    applyDesiredStep env rbd w e =
      { (dns_add_record env w e.1 e.2).1 with
        state := _mark_record_managed (dns_add_record env w e.1 e.2).1.state e.1 e.2 } := by
  unfold applyDesiredStep
  dsimp only
  rw [h1]
  rfl

theorem applyDesiredStep_eq_adopt (env : Env) (rbd : List (String × List String)) (w : World)
    (e : String × String) (h2 : (dictLookup rbd e.1).getD [] = [e.2]) :
    applyDesiredStep env rbd w e = { w with state := _mark_record_managed w.state e.1 e.2 } := by
  unfold applyDesiredStep
  dsimp only
  rw [h2]
  rw [if_neg (by simp)]
  rw [if_pos rfl]

theorem applyDesiredStep_eq_adopt2 (env : Env) (rbd : List (String × List String)) (w : World)
    (e : String × String)
    (h1 : (dictLookup rbd e.1).getD [] ≠ [])
    (h2 : (dictLookup rbd e.1).getD [] ≠ [e.2])
    (h4 : e.2 ∈ ((dictLookup rbd e.1).getD []).filter
      (fun a => !(_is_record_managed w.state e.1 a))) :
    applyDesiredStep env rbd w e =
      (((dictLookup rbd e.1).getD []).filter
          (fun a => _is_record_managed w.state e.1 a)).foldl
        (deleteDupStep env e.1 e.2)
        { w with state := _mark_record_managed w.state e.1 e.2 } := by
  unfold applyDesiredStep
  dsimp only
  rw [if_neg h1, if_neg h2]
  have h3 : ((dictLookup rbd e.1).getD []).filter
      (fun a => !(_is_record_managed w.state e.1 a)) ≠ [] := by
    intro hc
    rw [hc] at h4
    simp at h4
  rw [if_pos h3, if_pos h4]

theorem applyDesiredStep_eq_skip (env : Env) (rbd : List (String × List String)) (w : World)
    (e : String × String)
    (h1 : (dictLookup rbd e.1).getD [] ≠ [])
    (h2 : (dictLookup rbd e.1).getD [] ≠ [e.2])
    (h3 : ((dictLookup rbd e.1).getD []).filter
      (fun a => !(_is_record_managed w.state e.1 a)) ≠ [])
    (h4 : e.2 ∉ ((dictLookup rbd e.1).getD []).filter
      (fun a => !(_is_record_managed w.state e.1 a))) :
    applyDesiredStep env rbd w e =
      (((dictLookup rbd e.1).getD []).filter
          (fun a => _is_record_managed w.state e.1 a)).foldl
        (deleteManagedStep env e.1) w := by
  unfold applyDesiredStep
  dsimp only
  rw [if_neg h1, if_neg h2, if_pos h3, if_neg h4]

theorem applyDesiredStep_eq_consolidate (env : Env) (rbd : List (String × List String))
    (w : World) (e : String × String)
    (h1 : (dictLookup rbd e.1).getD [] ≠ [])
    (h2 : (dictLookup rbd e.1).getD [] ≠ [e.2])
    (h3 : ((dictLookup rbd e.1).getD []).filter
      (fun a => !(_is_record_managed w.state e.1 a)) = []) :
    applyDesiredStep env rbd w e =
      (let w2 := ((dictLookup rbd e.1).getD []).foldl (deleteManagedStep env e.1) w
       { (dns_add_record env w2 e.1 e.2).1 with
         state := _mark_record_managed (dns_add_record env w2 e.1 e.2).1.state e.1 e.2 }) := by
  unfold applyDesiredStep
  dsimp only
  rw [if_neg h1, if_neg h2, if_neg (by simpa using h3)]

theorem applyDesiredStep_cases (env : Env) (rbd : List (String × List String)) (w : World)
    (e : String × String) :
    applyDesiredStep env rbd w e =
      { (dns_add_record env w e.1 e.2).1 with
        state := _mark_record_managed (dns_add_record env w e.1 e.2).1.state e.1 e.2 } ∨
    applyDesiredStep env rbd w e = { w with state := _mark_record_managed w.state e.1 e.2 } ∨
    (applyDesiredStep env rbd w e =
      (((dictLookup rbd e.1).getD []).filter
          (fun a => _is_record_managed w.state e.1 a)).foldl
        (deleteDupStep env e.1 e.2)
        { w with state := _mark_record_managed w.state e.1 e.2 }) ∨
    (applyDesiredStep env rbd w e =
      (((dictLookup rbd e.1).getD []).filter
          (fun a => _is_record_managed w.state e.1 a)).foldl
        (deleteManagedStep env e.1) w) ∨
    (applyDesiredStep env rbd w e =
      (let w2 := ((dictLookup rbd e.1).getD []).foldl (deleteManagedStep env e.1) w
       { (dns_add_record env w2 e.1 e.2).1 with
         state := _mark_record_managed (dns_add_record env w2 e.1 e.2).1.state e.1 e.2 }) ∧
      ((dictLookup rbd e.1).getD []).filter
        (fun a => !(_is_record_managed w.state e.1 a)) = []) := by
  by_cases h1 : (dictLookup rbd e.1).getD [] = []
  · exact Or.inl (applyDesiredStep_eq_add env rbd w e h1)
  · by_cases h2 : (dictLookup rbd e.1).getD [] = [e.2]
    · exact Or.inr (Or.inl (applyDesiredStep_eq_adopt env rbd w e h2))
    · by_cases h3 : ((dictLookup rbd e.1).getD []).filter
        (fun a => !(_is_record_managed w.state e.1 a)) = []
      · exact Or.inr (Or.inr (Or.inr (Or.inr
          ⟨applyDesiredStep_eq_consolidate env rbd w e h1 h2 h3, h3⟩)))
      · by_cases h4 : e.2 ∈ ((dictLookup rbd e.1).getD []).filter
          (fun a => !(_is_record_managed w.state e.1 a))
        · exact Or.inr (Or.inr (Or.inl (applyDesiredStep_eq_adopt2 env rbd w e h1 h2 h4)))
        · exact Or.inr (Or.inr (Or.inr (Or.inl
            (applyDesiredStep_eq_skip env rbd w e h1 h2 h3 h4))))

theorem applyDesiredStep_warnings (env : Env) (rbd : List (String × List String)) (w : World)
    (e : String × String) : (applyDesiredStep env rbd w e).warnings = w.warnings := by
  rcases applyDesiredStep_cases env rbd w e with h | h | h | h | ⟨h, _⟩ <;> rw [h]
  · exact dns_add_warnings env w e.1 e.2
  · rw [deleteDupFold_warnings]
  · rw [deleteManagedFold_warnings]
  · dsimp only
    rw [dns_add_warnings, deleteManagedFold_warnings]

theorem applyDesiredStep_domains (env : Env) (rbd : List (String × List String)) (w : World)
    (e : String × String) :
    (applyDesiredStep env rbd w e).state.domains = w.state.domains := by
  rcases applyDesiredStep_cases env rbd w e with h | h | h | h | ⟨h, _⟩ <;> rw [h]
  · dsimp only
    rw [mark_domains, dns_add_state]
  · exact mark_domains w.state e.1 e.2
  · rw [deleteDupFold_domains]
    dsimp only
    exact mark_domains w.state e.1 e.2
  · rw [deleteManagedFold_domains]
  · dsimp only
    rw [mark_domains, dns_add_state, deleteManagedFold_domains]

theorem applyDesiredStep_instances (env : Env) (rbd : List (String × List String)) (w : World)
    (e : String × String) :
    (applyDesiredStep env rbd w e).state.instances = w.state.instances := by
  rcases applyDesiredStep_cases env rbd w e with h | h | h | h | ⟨h, _⟩ <;> rw [h]
  · dsimp only
    rw [mark_instances, dns_add_state]
  · exact mark_instances w.state e.1 e.2
  · rw [deleteDupFold_instances]
    dsimp only
    exact mark_instances w.state e.1 e.2
  · rw [deleteManagedFold_instances]
  · dsimp only
    rw [mark_instances, dns_add_state, deleteManagedFold_instances]

theorem applyDesiredStep_trace_mono (env : Env) (rbd : List (String × List String))
    (w : World) (e : String × String) (op : DnsOp) (hop : op ∈ w.trace) :
    op ∈ (applyDesiredStep env rbd w e).trace := by
  rcases applyDesiredStep_cases env rbd w e with h | h | h | h | ⟨h, _⟩ <;> rw [h]
  · rw [dns_add_trace]
    exact List.mem_append_left _ hop
  · exact hop
  · exact deleteDupFold_trace_mono env e.1 e.2 _ _ op hop
  · exact deleteManagedFold_trace_mono env e.1 _ _ op hop
  · dsimp only
    rw [dns_add_trace]
    exact List.mem_append_left _ (deleteManagedFold_trace_mono env e.1 _ _ op hop)

theorem applyDesiredStep_newOps (env : Env) (rbd : List (String × List String)) (w : World)
    (e : String × String) :
    NewOpsOnly (fun op => (∃ x, op = DnsOp.add e.1 x) ∨ ∃ x, op = DnsOp.delete e.1 x) w
      (applyDesiredStep env rbd w e) := by
  rcases applyDesiredStep_cases env rbd w e with h | h | h | h | ⟨h, _⟩ <;> rw [h]
  · intro op hop
    rw [dns_add_trace] at hop
    rcases List.mem_append.mp hop with h' | h'
    · exact Or.inl h'
    · simp only [List.mem_singleton] at h'
      exact Or.inr (Or.inl ⟨e.2, h'⟩)
  · exact NewOpsOnly_rfl _ _
  · intro op hop
    rcases deleteDupFold_newOps env e.1 e.2 _ _ op hop with h' | ⟨x, _, hx⟩
    · exact Or.inl h'
    · exact Or.inr (Or.inr ⟨x, hx⟩)
  · intro op hop
    rcases deleteManagedFold_newOps env e.1 _ _ op hop with h' | ⟨x, _, hx⟩
    · exact Or.inl h'
    · exact Or.inr (Or.inr ⟨x, hx⟩)
  · intro op hop
    dsimp only at hop
    rw [dns_add_trace] at hop
    rcases List.mem_append.mp hop with h' | h'
    · rcases deleteManagedFold_newOps env e.1 _ _ op h' with h'' | ⟨x, _, hx⟩
      · exact Or.inl h''
      · exact Or.inr (Or.inr ⟨x, hx⟩)
    · simp only [List.mem_singleton] at h'
      exact Or.inr (Or.inl ⟨e.2, h'⟩)

theorem applyDesiredStep_managed_ne (env : Env) (rbd : List (String × List String))
    (w : World) (e : String × String) (d : String) (hd : e.1 ≠ d) :
    managedOf (applyDesiredStep env rbd w e).state d = managedOf w.state d := by
  rcases applyDesiredStep_cases env rbd w e with h | h | h | h | ⟨h, _⟩ <;> rw [h]
  · dsimp only
    rw [managedOf_mark_ne _ _ _ _ hd, dns_add_state]
  · exact managedOf_mark_ne w.state e.1 d e.2 hd
  · rw [deleteDupFold_managed_ne env e.1 e.2 _ d (Ne.symm hd)]
    dsimp only
    exact managedOf_mark_ne w.state e.1 d e.2 hd
  · rw [deleteManagedFold_managed_ne env e.1 _ d (Ne.symm hd)]
  · dsimp only
    rw [managedOf_mark_ne _ _ _ _ hd, dns_add_state,
      deleteManagedFold_managed_ne env e.1 _ d (Ne.symm hd)]

theorem applyDesiredStep_resolver_mem (env : Env) (rbd : List (String × List String))
    (w : World) (e : String × String) (r : DNSRecord) (hr : r ∈ w.resolver)
    (hd : r.domain ≠ e.1) : r ∈ (applyDesiredStep env rbd w e).resolver := by
  have hne : ∀ x, r ≠ ⟨e.1, x⟩ := by
    intro x hEq
    exact hd (congrArg DNSRecord.domain hEq)
  rcases applyDesiredStep_cases env rbd w e with h | h | h | h | ⟨h, _⟩ <;> rw [h]
  · exact dns_add_resolver_mem env w e.1 e.2 r hr
  · exact hr
  · -- deletes of (e.1, x) only
    have key : ∀ (L : List String) (w0 : World), r ∈ w0.resolver →
        r ∈ ((L.foldl (deleteDupStep env e.1 e.2) w0)).resolver := by
      intro L
      induction L with
      | nil => exact fun w0 h0 => h0
      | cons x t ih =>
          intro w0 h0
          rw [List.foldl_cons]
          apply ih
          rcases deleteDupStep_cases env e.1 e.2 w0 x with heq | heq <;> rw [heq]
          · exact deleteManagedStep_resolver_mem_ne env e.1 w0 x r h0 (hne x)
          · exact h0
    exact key _ _ hr
  · have key : ∀ (L : List String) (w0 : World), r ∈ w0.resolver →
        r ∈ ((L.foldl (deleteManagedStep env e.1) w0)).resolver := by
      intro L
      induction L with
      | nil => exact fun w0 h0 => h0
      | cons x t ih =>
          intro w0 h0
          rw [List.foldl_cons]
          exact ih _ (deleteManagedStep_resolver_mem_ne env e.1 w0 x r h0 (hne x))
    exact key _ _ hr
  · dsimp only
    apply dns_add_resolver_mem
    have key : ∀ (L : List String) (w0 : World), r ∈ w0.resolver →
        r ∈ ((L.foldl (deleteManagedStep env e.1) w0)).resolver := by
      intro L
      induction L with
      | nil => exact fun w0 h0 => h0
      | cons x t ih =>
          intro w0 h0
          rw [List.foldl_cons]
          exact ih _ (deleteManagedStep_resolver_mem_ne env e.1 w0 x r h0 (hne x))
    exact key _ _ hr

theorem applyDesiredStep_resolver_sub_or (env : Env) (rbd : List (String × List String))
    (w : World) (e : String × String) (r : DNSRecord)
    (h : r ∈ (applyDesiredStep env rbd w e).resolver) :
    r ∈ w.resolver ∨ r.domain = e.1 := by
  rcases applyDesiredStep_cases env rbd w e with heq | heq | heq | heq | ⟨heq, _⟩ <;>
    rw [heq] at h
  · rcases dns_add_resolver_sub env w e.1 e.2 r h with h' | h'
    · exact Or.inl h'
    · subst h'
      exact Or.inr rfl
  · exact Or.inl h
  · exact Or.inl (deleteDupFold_resolver_sub env e.1 e.2 _
      { w with state := _mark_record_managed w.state e.1 e.2 } r h)
  · exact Or.inl (deleteManagedFold_resolver_sub env e.1 _ _ r h)
  · dsimp only at h
    rcases dns_add_resolver_sub env _ e.1 e.2 r h with h' | h'
    · exact Or.inl (deleteManagedFold_resolver_sub env e.1 _ _ r h')
    · subst h'
      exact Or.inr rfl

theorem applyDesiredStep_intact (env : Env) (rbd : List (String × List String)) (w : World)
    (e : String × String) (d a : String)
    (hda : e.1 = d → e.2 ≠ a)
    (hmem : e.1 = d → a ∈ (dictLookup rbd e.1).getD [])
    (h : UnmanagedIntact d a w) : UnmanagedIntact d a (applyDesiredStep env rbd w e) := by
  obtain ⟨hm, hr, ht⟩ := h
  have hmark : ∀ (st : PState), a ∉ managedOf st d →
      a ∉ managedOf (_mark_record_managed st e.1 e.2) d := by
    intro st hst
    by_cases hd : e.1 = d
    · subst hd
      rw [mem_managedOf_mark]
      rintro (hmem' | rfl)
      · exact hst hmem'
      · exact hda rfl rfl
    · rw [managedOf_mark_ne _ _ _ _ hd]
      exact hst
  have hnotmg : ∀ x ∈ ((dictLookup rbd e.1).getD []).filter
      (fun y => _is_record_managed w.state e.1 y), e.1 = d → x ≠ a := by
    intro x hx hd
    subst hd
    intro hxa
    subst hxa
    have := (List.mem_filter.mp hx).2
    exact hm ((_is_record_managed_iff w.state e.1 x).mp this)
  rcases applyDesiredStep_cases env rbd w e with heq | heq | heq | heq | ⟨heq, hum⟩ <;>
    rw [heq]
  · -- add branch: if e.1 = d then existing is empty yet a is listed, both possible
    refine ⟨?_, ?_, ?_⟩
    · dsimp only
      apply hmark
      rw [dns_add_state]
      exact hm
    · exact dns_add_resolver_mem env w e.1 e.2 ⟨d, a⟩ hr
    · dsimp only
      rw [dns_add_trace]
      intro hmem'
      rcases List.mem_append.mp hmem' with h' | h'
      · exact ht h'
      · simp at h'
  · exact ⟨hmark w.state hm, hr, ht⟩
  · have h0 : UnmanagedIntact d a { w with state := _mark_record_managed w.state e.1 e.2 } :=
      ⟨hmark w.state hm, hr, ht⟩
    refine deleteDupFold_intact env e.1 e.2 _ d a ?_ _ h0
    intro hdd hmemA
    exact hnotmg a hmemA hdd rfl
  · refine deleteManagedFold_intact env e.1 _ d a ?_ _ ⟨hm, hr, ht⟩
    intro hdd hmemA
    exact hnotmg a hmemA hdd rfl
  · -- consolidate branch: impossible when e.1 = d, harmless otherwise
    by_cases hd : e.1 = d
    · exfalso
      have hmem' := hmem hd
      have hmm : a ∉ managedOf w.state e.1 := by
        rw [hd]
        exact hm
      have hin : a ∈ ((dictLookup rbd e.1).getD []).filter
          (fun y => !(_is_record_managed w.state e.1 y)) := by
        apply List.mem_filter.mpr
        refine ⟨hmem', ?_⟩
        cases hb : _is_record_managed w.state e.1 a with
        | false => simp
        | true => exact absurd ((_is_record_managed_iff w.state e.1 a).mp hb) hmm
      rw [hum] at hin
      simp at hin
    · have h1 : UnmanagedIntact d a
          (((dictLookup rbd e.1).getD []).foldl (deleteManagedStep env e.1) w) := by
        refine deleteManagedFold_intact env e.1 _ d a ?_ _ ⟨hm, hr, ht⟩
        intro hdd
        exact absurd hdd hd
      obtain ⟨hm1, hr1, ht1⟩ := h1
      refine ⟨?_, ?_, ?_⟩
      · dsimp only
        apply hmark
        rw [dns_add_state]
        exact hm1
      · exact dns_add_resolver_mem env _ e.1 e.2 ⟨d, a⟩ hr1
      · dsimp only
        rw [dns_add_trace]
        intro hmem'
        rcases List.mem_append.mp hmem' with h' | h'
        · exact ht1 h'
        · simp at h'

theorem applyDesiredFold_warnings (env : Env) (rbd : List (String × List String))
    (L : List (String × String)) : ∀ (w : World),
    ((L.foldl (applyDesiredStep env rbd) w)).warnings = w.warnings := by
  induction L with
  | nil => exact fun w => rfl
  | cons e t ih =>
      intro w
      rw [List.foldl_cons, ih, applyDesiredStep_warnings]

theorem applyDesiredFold_domains (env : Env) (rbd : List (String × List String))
    (L : List (String × String)) : ∀ (w : World),
    ((L.foldl (applyDesiredStep env rbd) w)).state.domains = w.state.domains := by
  induction L with
  | nil => exact fun w => rfl
  | cons e t ih =>
      intro w
      rw [List.foldl_cons, ih, applyDesiredStep_domains]

theorem applyDesiredFold_instances (env : Env) (rbd : List (String × List String))
    (L : List (String × String)) : ∀ (w : World),
    ((L.foldl (applyDesiredStep env rbd) w)).state.instances = w.state.instances := by
  induction L with
  | nil => exact fun w => rfl
  | cons e t ih =>
      intro w
      rw [List.foldl_cons, ih, applyDesiredStep_instances]

theorem applyDesiredFold_trace_mono (env : Env) (rbd : List (String × List String))
    (L : List (String × String)) : ∀ (w : World) (op : DnsOp), op ∈ w.trace →
    op ∈ ((L.foldl (applyDesiredStep env rbd) w)).trace := by
  induction L with
  | nil => exact fun w op h => h
  | cons e t ih =>
      intro w op h
      rw [List.foldl_cons]
      exact ih _ op (applyDesiredStep_trace_mono env rbd w e op h)

theorem applyDesiredFold_newOps (env : Env) (rbd : List (String × List String))
    (L : List (String × String)) : ∀ (w : World),
    NewOpsOnly (fun op => ∃ e ∈ L, (∃ x, op = DnsOp.add e.1 x) ∨ ∃ x, op = DnsOp.delete e.1 x)
      w ((L.foldl (applyDesiredStep env rbd) w)) := by
  induction L with
  | nil => exact fun w => NewOpsOnly_rfl _ _
  | cons e t ih =>
      intro w op hop
      rw [List.foldl_cons] at hop
      rcases ih _ op hop with h' | ⟨e', he', hx⟩
      · rcases applyDesiredStep_newOps env rbd w e op h' with h'' | hx
        · exact Or.inl h''
        · exact Or.inr ⟨e, List.mem_cons_self e t, hx⟩
      · exact Or.inr ⟨e', List.mem_cons_of_mem e he', hx⟩

theorem applyDesiredFold_managed_ne (env : Env) (rbd : List (String × List String))
    (L : List (String × String)) (d : String) (hd : ∀ e ∈ L, e.1 ≠ d) : ∀ (w : World),
    managedOf ((L.foldl (applyDesiredStep env rbd) w)).state d = managedOf w.state d := by
  induction L with
  | nil => exact fun w => rfl
  | cons e t ih =>
      intro w
      rw [List.foldl_cons, ih (fun e' he' => hd e' (List.mem_cons_of_mem e he')),
        applyDesiredStep_managed_ne env rbd w e d (hd e (List.mem_cons_self e t))]

theorem applyDesiredFold_resolver_mem (env : Env) (rbd : List (String × List String))
    (L : List (String × String)) (r : DNSRecord) (hd : ∀ e ∈ L, r.domain ≠ e.1) :
    ∀ (w : World), r ∈ w.resolver → r ∈ ((L.foldl (applyDesiredStep env rbd) w)).resolver := by
  induction L with
  | nil => exact fun w h => h
  | cons e t ih =>
      intro w h
      rw [List.foldl_cons]
      exact ih (fun e' he' => hd e' (List.mem_cons_of_mem e he')) _
        (applyDesiredStep_resolver_mem env rbd w e r h (hd e (List.mem_cons_self e t)))

theorem applyDesiredFold_resolver_sub_or (env : Env) (rbd : List (String × List String))
    (L : List (String × String)) : ∀ (w : World) (r : DNSRecord),
    r ∈ ((L.foldl (applyDesiredStep env rbd) w)).resolver →
    r ∈ w.resolver ∨ ∃ e ∈ L, r.domain = e.1 := by
  induction L with
  | nil => exact fun w r h => Or.inl h
  | cons e t ih =>
      intro w r h
      rw [List.foldl_cons] at h
      rcases ih _ r h with h' | ⟨e', he', hx⟩
      · rcases applyDesiredStep_resolver_sub_or env rbd w e r h' with h'' | h''
        · exact Or.inl h''
        · exact Or.inr ⟨e, List.mem_cons_self e t, h''⟩
      · exact Or.inr ⟨e', List.mem_cons_of_mem e he', hx⟩

theorem applyDesiredFold_intact (env : Env) (rbd : List (String × List String))
    (L : List (String × String)) (d a : String)
    (hda : ∀ e ∈ L, e.1 = d → e.2 ≠ a)
    (hmem : ∀ e ∈ L, e.1 = d → a ∈ (dictLookup rbd e.1).getD []) : ∀ (w : World),
    UnmanagedIntact d a w → UnmanagedIntact d a ((L.foldl (applyDesiredStep env rbd) w)) := by
  induction L with
  | nil => exact fun w h => h
  | cons e t ih =>
      intro w h
      rw [List.foldl_cons]
      exact ih (fun e' he' => hda e' (List.mem_cons_of_mem e he'))
        (fun e' he' => hmem e' (List.mem_cons_of_mem e he')) _
        (applyDesiredStep_intact env rbd w e d a (hda e (List.mem_cons_self e t))
          (hmem e (List.mem_cons_self e t)) h)

theorem NewOpsOnly_of_trace_eq (P : DnsOp → Prop) (w w' : World)
    (h : w'.trace = w.trace) : NewOpsOnly P w w' := by
  intro op hop
  rw [h] at hop
  exact Or.inl hop

theorem deleteDomainFold_eq (env : Env) (rbd : List (String × List String))
    (doms : List String) (w : World) :
    doms.foldl (deleteDomainStep env rbd) w = doms.foldl (cleanupDeleteStep env rbd) w := rfl

theorem staticStep_nil_eq (env : Env) (w : World) (e : String × String) :
    staticStep env [] w e =
      { (dns_add_record env w e.1 e.2).1 with
        state := _mark_record_managed (dns_add_record env w e.1 e.2).1.state e.1 e.2 } := rfl

theorem staticFold_nil_newOps (env : Env) (L : List (String × String)) : ∀ (w : World),
    NewOpsOnly (fun op => ∃ d x, op = DnsOp.add d x) w (L.foldl (staticStep env []) w) := by
  induction L with
  | nil => exact fun w => NewOpsOnly_rfl _ _
  | cons e t ih =>
      intro w op hop
      rw [List.foldl_cons] at hop
      rcases ih _ op hop with h' | h'
      · rw [staticStep_nil_eq] at h'
        dsimp only at h'
        rw [dns_add_trace] at h'
        rcases List.mem_append.mp h' with h'' | h''
        · exact Or.inl h''
        · simp only [List.mem_singleton] at h''
          exact Or.inr ⟨e.1, e.2, h''⟩
      · exact Or.inr h'

theorem statics_newOps_listFail (env : Env) (w : World) (h : env.listFails = true) :
    NewOpsOnly (fun op => ∃ d x, op = DnsOp.add d x) w (_sync_static_rewrites env w) := by
  by_cases hs : env.static_rewrites = []
  · unfold _sync_static_rewrites
    rw [if_pos hs]
    exact NewOpsOnly_rfl _ w
  · rw [statics_eq env w hs, dns_get_records_listFail env w h]
    exact staticFold_nil_newOps env env.static_rewrites w

theorem cleanup_trace_listFail (env : Env) (w : World) (h : env.listFails = true) :
    (_cleanup_removed_instances env w).trace = w.trace := by
  by_cases hr : removedNames env w.state = []
  · rw [cleanup_eq_nil env w hr]
  · rw [cleanup_eq_removed env w hr, dns_get_records_listFail env w h]
    exact (cleanupDeleteFold_nil env _ _).1

theorem afterStatic_newOps_listFail (env : Env) (w : World) (h : env.listFails = true) :
    NewOpsOnly (fun op => ∃ d x, op = DnsOp.add d x) w (afterStatic env w) := by
  unfold afterStatic
  cases hdone : !env.startup_cleanup_done
  · exact statics_newOps_listFail env w h
  · refine NewOpsOnly_trans ?_ (statics_newOps_listFail env _ h)
    exact NewOpsOnly_of_trace_eq _ _ _ (cleanup_trace_listFail env w h)

theorem applyDesiredStep_nil_eq (env : Env) (w : World) (e : String × String) :
    applyDesiredStep env [] w e =
      { (dns_add_record env w e.1 e.2).1 with
        state := _mark_record_managed (dns_add_record env w e.1 e.2).1.state e.1 e.2 } :=
  applyDesiredStep_eq_add env [] w e rfl

theorem applyDesiredFold_nil_newOps (env : Env) (L : List (String × String)) : ∀ (w : World),
    NewOpsOnly (fun op => ∃ d x, op = DnsOp.add d x) w (L.foldl (applyDesiredStep env []) w) := by
  induction L with
  | nil => exact fun w => NewOpsOnly_rfl _ _
  | cons e t ih =>
      intro w op hop
      rw [List.foldl_cons] at hop
      rcases ih _ op hop with h' | h'
      · rw [applyDesiredStep_nil_eq] at h'
        dsimp only at h'
        rw [dns_add_trace] at h'
        rcases List.mem_append.mp h' with h'' | h''
        · exact Or.inl h''
        · simp only [List.mem_singleton] at h''
          exact Or.inr ⟨e.1, e.2, h''⟩
      · exact Or.inr h'

theorem applyDesiredFold_nil_add_mem (env : Env) (L : List (String × String)) :
    ∀ (w : World) (e : String × String), e ∈ L →
      DnsOp.add e.1 e.2 ∈ ((L.foldl (applyDesiredStep env []) w)).trace := by
  induction L with
  | nil =>
      intro w e he
      exact absurd he (List.not_mem_nil e)
  | cons e0 t ih =>
      intro w e he
      rw [List.foldl_cons]
      rcases List.mem_cons.mp he with he' | he'
      · subst he'
        apply applyDesiredFold_trace_mono
        rw [applyDesiredStep_nil_eq]
        dsimp only
        rw [dns_add_trace]
        exact List.mem_append_right _ (List.mem_singleton.mpr rfl)
      · exact ih _ e he'

theorem deleteDomainFold_nil_trace (env : Env) (doms : List String) (w : World) :
    ((doms.foldl (deleteDomainStep env []) w)).trace = w.trace := by
  rw [deleteDomainFold_eq]
  exact (cleanupDeleteFold_nil env doms w).1

/-- C2: contrary to the claim, a resolver `list` failure does not
short-circuit Steps 7-9: `get_records` swallows the exception and returns
`[]`, so the cycle proceeds against an empty listing. No delete is issued
(every deletion loop ranges over the empty grouped listing), but Step 8
still issues an `add_record` call for every desired `(domain, answer)` pair. -/
theorem c2_amended (env : Env) (w : World) (h : env.listFails = true) :
    NewOpsOnly (fun op => ∃ d x, op = DnsOp.add d x) w (sync_once env w) ∧
    ∀ p ∈ desiredOf env w, DnsOp.add p.1 p.2 ∈ (sync_once env w).trace := by
  have hrbd : groupByDomain (step7Listing env w) = [] := by
    rw [step7Listing_listFail env w h]
    rfl
  have heq : sync_once env w =
      (sortStrings (pruneOut env w).2).foldl (deleteDomainStep env [])
        ((sortPairs (desiredOf env w)).foldl (applyDesiredStep env [])
          (afterDesired env w)) := by
    rw [sync_once_eq, hrbd, exclusionCleanup_nil]
  constructor
  · rw [heq]
    refine NewOpsOnly_trans (NewOpsOnly_trans ?_ (applyDesiredFold_nil_newOps env _ _))
      (NewOpsOnly_of_trace_eq _ _ _ (deleteDomainFold_nil_trace env _ _))
    refine NewOpsOnly_trans (afterStatic_newOps_listFail env w h)
      (NewOpsOnly_of_trace_eq _ _ _ ?_)
    exact afterDesired_trace env w
  · intro p hp
    rw [heq, deleteDomainFold_nil_trace]
    exact applyDesiredFold_nil_add_mem env _ (afterDesired env w) p
      ((mem_sortBy _ (desiredOf env w) p).mpr hp)

/-- C2 witness: the amended theorem applied to the concrete failing-listing
environment. -/
theorem c2_witness :
    envListFail.listFails = true ∧
    (NewOpsOnly (fun op => ∃ d x, op = DnsOp.add d x) wListFail
        (sync_once envListFail wListFail) ∧
      ∀ p ∈ desiredOf envListFail wListFail,
        DnsOp.add p.1 p.2 ∈ (sync_once envListFail wListFail).trace) :=
  ⟨rfl, c2_amended envListFail wListFail rfl⟩

theorem dictLookup_mem {α : Type} (l : List (String × α)) (k : String) (v : α)
    (h : dictLookup l k = some v) : (k, v) ∈ l := by
  induction l with
  | nil => cases h
  | cons hd tl ih =>
      obtain ⟨k0, v0⟩ := hd
      by_cases h0 : k0 = k
      · subst h0
        simp only [dictLookup, if_true, eq_self_iff_true, Option.some.injEq] at h
        subst h
        exact List.mem_cons_self _ _
      · simp only [dictLookup, if_neg h0] at h
        exact List.mem_cons_of_mem _ (ih h)

theorem dictLookup_dictErase_none {α : Type} (l : List (String × α)) (k k' : String)
    (h : dictLookup l k' = none) : dictLookup (dictErase l k) k' = none := by
  by_cases hk : k = k'
  · subst hk
    exact dictLookup_dictErase_self l k
  · rw [dictLookup_dictErase_ne l k k' hk]
    exact h

theorem exclStep_rbd_none (env : Env) (acc : World × List (String × List String))
    (e : String × List String) (k : String) (h : dictLookup acc.2 k = none) :
    dictLookup (exclStep env acc e).2 k = none := by
  unfold exclStep
  split
  · exact h
  · split
    · dsimp only
      split
      · exact dictLookup_dictErase_none acc.2 e.1 k h
      · exact h
    · exact h

theorem exclFold_rbd_none (env : Env) (L : List (String × List String)) (k : String) :
    ∀ (acc : World × List (String × List String)), dictLookup acc.2 k = none →
      dictLookup ((L.foldl (exclStep env) acc)).2 k = none := by
  induction L with
  | nil => exact fun acc h => h
  | cons e t ih =>
      intro acc h
      rw [List.foldl_cons]
      exact ih _ (exclStep_rbd_none env acc e k h)

theorem exclusionCleanup_rbd_none (env : Env) (w : World)
    (rbd : List (String × List String)) (k : String) (h : dictLookup rbd k = none) :
    dictLookup (exclusionCleanup env w rbd).2 k = none := by
  unfold exclusionCleanup
  split
  · exact h
  · exact exclFold_rbd_none env rbd k (w, rbd) h

theorem groupByDomain_lookup_none (rs : List DNSRecord) (d : String)
    (h : answersOf rs d = []) : dictLookup (groupByDomain rs) d = none := by
  rw [groupByDomain, groupByDomain_go_lookup rs [] d]
  simp [dictLookup, h]

theorem dns_add_resolver_addFails (env : Env) (w : World) (d a : String)
    (h : env.addFails d a = true) :
    (dns_add_record env w d a).1.resolver = w.resolver := by
  unfold dns_add_record
  rw [if_pos h]

theorem applyDesiredStep_notmem_da (env : Env) (rbd : List (String × List String))
    (w : World) (e : String × String) (d a : String)
    (hfail : env.addFails d a = true)
    (h : (⟨d, a⟩ : DNSRecord) ∉ w.resolver) :
    (⟨d, a⟩ : DNSRecord) ∉ (applyDesiredStep env rbd w e).resolver := by
  have hadd : ∀ (w0 : World), (⟨d, a⟩ : DNSRecord) ∉ w0.resolver →
      (⟨d, a⟩ : DNSRecord) ∉ (dns_add_record env w0 e.1 e.2).1.resolver := by
    intro w0 h0 hmem
    rcases dns_add_resolver_sub env w0 e.1 e.2 _ hmem with h' | h'
    · exact h0 h'
    · have hd : d = e.1 := congrArg DNSRecord.domain h'
      have ha : a = e.2 := congrArg DNSRecord.answer h'
      have hf : env.addFails e.1 e.2 = true := by
        rw [← hd, ← ha]
        exact hfail
      rw [dns_add_resolver_addFails env w0 e.1 e.2 hf] at hmem
      exact h0 hmem
  rcases applyDesiredStep_cases env rbd w e with heq | heq | heq | heq | ⟨heq, _⟩ <;> rw [heq]
  · exact hadd w h
  · exact h
  · intro hmem
    exact h (deleteDupFold_resolver_sub env e.1 e.2 _
      { w with state := _mark_record_managed w.state e.1 e.2 } _ hmem)
  · intro hmem
    exact h (deleteManagedFold_resolver_sub env e.1 _ _ _ hmem)
  · dsimp only
    intro hmem
    have h1 : (⟨d, a⟩ : DNSRecord) ∉
        (((dictLookup rbd e.1).getD []).foldl (deleteManagedStep env e.1) w).resolver := by
      intro hm
      exact h (deleteManagedFold_resolver_sub env e.1 _ _ _ hm)
    exact hadd _ h1 hmem

theorem applyDesiredFold_notmem_da (env : Env) (rbd : List (String × List String))
    (L : List (String × String)) (d a : String) (hfail : env.addFails d a = true) :
    ∀ (w : World), (⟨d, a⟩ : DNSRecord) ∉ w.resolver →
      (⟨d, a⟩ : DNSRecord) ∉ ((L.foldl (applyDesiredStep env rbd) w)).resolver := by
  induction L with
  | nil => exact fun w h => h
  | cons e t ih =>
      intro w h
      rw [List.foldl_cons]
      exact ih _ (applyDesiredStep_notmem_da env rbd w e d a hfail h)

theorem applyDesiredStep_managed_mem_preserve (env : Env)
    (rbd : List (String × List String)) (w : World) (e : String × String) (d a : String)
    (hnil : (dictLookup rbd d).getD [] = [])
    (h : a ∈ managedOf w.state d) :
    a ∈ managedOf (applyDesiredStep env rbd w e).state d := by
  by_cases hd : e.1 = d
  · have hnil' : (dictLookup rbd e.1).getD [] = [] := by
      rw [hd]
      exact hnil
    rw [applyDesiredStep_eq_add env rbd w e hnil']
    dsimp only
    rw [dns_add_state]
    subst hd
    exact (mem_managedOf_mark w.state e.1 e.2 a).mpr (Or.inl h)
  · rw [applyDesiredStep_managed_ne env rbd w e d hd]
    exact h

theorem applyDesiredFold_managed_mem_preserve (env : Env)
    (rbd : List (String × List String)) (L : List (String × String)) (d a : String)
    (hnil : (dictLookup rbd d).getD [] = []) :
    ∀ (w : World), a ∈ managedOf w.state d →
      a ∈ managedOf ((L.foldl (applyDesiredStep env rbd) w)).state d := by
  induction L with
  | nil => exact fun w h => h
  | cons e t ih =>
      intro w h
      rw [List.foldl_cons]
      exact ih _ (applyDesiredStep_managed_mem_preserve env rbd w e d a hnil h)

theorem applyDesiredFold_mark_mem (env : Env) (rbd : List (String × List String))
    (L : List (String × String)) (d a : String)
    (hnil : (dictLookup rbd d).getD [] = []) :
    ∀ (w : World), (d, a) ∈ L →
      a ∈ managedOf ((L.foldl (applyDesiredStep env rbd) w)).state d := by
  induction L with
  | nil =>
      intro w h
      exact absurd h (List.not_mem_nil _)
  | cons e t ih =>
      intro w h
      rw [List.foldl_cons]
      rcases List.mem_cons.mp h with he | he
      · apply applyDesiredFold_managed_mem_preserve env rbd t d a hnil
        rw [applyDesiredStep_eq_add env rbd w e (by rw [← he]; exact hnil)]
        dsimp only
        rw [dns_add_state]
        have hd : e.1 = d := by rw [← he]
        have ha : e.2 = a := by rw [← he]
        subst hd
        rw [ha]
        exact (mem_managedOf_mark w.state e.1 a a).mpr (Or.inr rfl)
      · exact ih _ he

theorem cleanupDeleteStep_managed_nil (env : Env) (rbd : List (String × List String))
    (w : World) (dom : String) (d : String)
    (hnil : (dictLookup rbd d).getD [] = []) :
    managedOf (cleanupDeleteStep env rbd w dom).state d = managedOf w.state d := by
  unfold cleanupDeleteStep
  split
  · rfl
  · dsimp only
    by_cases hdom : d = dom
    · subst hdom
      rw [hnil]
      rfl
    · exact deleteManagedIfFold_managed_ne env dom ((dictLookup rbd dom).getD []) w d hdom

theorem deleteDomainFold_managed_nil (env : Env) (rbd : List (String × List String))
    (doms : List String) (d : String) (hnil : (dictLookup rbd d).getD [] = []) :
    ∀ (w : World),
      managedOf ((doms.foldl (deleteDomainStep env rbd) w)).state d = managedOf w.state d := by
  induction doms with
  | nil => exact fun w => rfl
  | cons dm t ih =>
      intro w
      rw [List.foldl_cons, deleteDomainStep_eq, ih, cleanupDeleteStep_managed_nil env rbd w dm d hnil]

/-- C10 (confirmed): when the Step-8 `add_record` call for a desired pair
`(d, a)` fails, `sync_once` nevertheless marks `(d, a)` as managed, so the
post-cycle state lists a managed answer that is absent from the resolver.
Hypotheses: `(d, a)` is the desired pair for `d`, every add of `(d, a)`
fails, the startup cleanup already ran, `d` is not a static rewrite, and the
pre-cycle resolver holds no record for `d` (so Step 8 takes the add branch). -/
theorem c10_theorem (env : Env) (w : World) (d a : String)
    (hdes : dictLookup (desiredOf env w) d = some a)
    (hfail : env.addFails d a = true)
    (hdone : env.startup_cleanup_done = true)
    (hstat : dictLookup env.static_rewrites d = none)
    (hres : ∀ r ∈ w.resolver, r.domain ≠ d) :
    a ∈ managedOf (sync_once env w).state d ∧
    (⟨d, a⟩ : DNSRecord) ∉ (sync_once env w).resolver := by
  have hstatics : ∀ r ∈ (_sync_static_rewrites env w).resolver, r.domain ≠ d := by
    intro r hr
    rcases statics_resolver_sub_or env w r hr with h' | ⟨e, he, hre⟩
    · exact hres r h'
    · intro hEq
      exact (dictLookup_eq_none_iff env.static_rewrites d).mp hstat e he (hre ▸ hEq)
  have hafter : ∀ r ∈ (afterDesired env w).resolver, r.domain ≠ d := by
    rw [afterDesired_resolver, afterStatic_of_done env w hdone]
    exact hstatics
  have hlist : ∀ r ∈ step7Listing env w, r.domain ≠ d := by
    unfold step7Listing dns_get_records
    by_cases hLF : env.listFails = true
    · rw [if_pos hLF]
      intro r hr
      cases hr
    · rw [if_neg hLF]
      exact hafter
  have hans : answersOf (step7Listing env w) d = [] := by
    rcases h : answersOf (step7Listing env w) d with _ | ⟨a0, t0⟩
    · rfl
    · exfalso
      have ha0 : a0 ∈ answersOf (step7Listing env w) d := by
        rw [h]
        exact List.mem_cons_self _ _
      exact hlist _ ((mem_answersOf _ d a0).mp ha0) rfl
  have hlook0 : dictLookup (groupByDomain (step7Listing env w)) d = none :=
    groupByDomain_lookup_none _ d hans
  have hlook2 : dictLookup (exclusionCleanup env (afterDesired env w)
      (groupByDomain (step7Listing env w))).2 d = none :=
    exclusionCleanup_rbd_none env _ _ d hlook0
  have hnil2 : (dictLookup (exclusionCleanup env (afterDesired env w)
      (groupByDomain (step7Listing env w))).2 d).getD [] = [] := by
    rw [hlook2]
    rfl
  have hmemsort : (d, a) ∈ sortPairs (desiredOf env w) :=
    (mem_sortBy _ (desiredOf env w) (d, a)).mpr (dictLookup_mem _ d a hdes)
  constructor
  · rw [sync_once_eq, deleteDomainFold_managed_nil env _ _ d hnil2]
    exact applyDesiredFold_mark_mem env _ _ d a hnil2 _ hmemsort
  · rw [sync_once_eq]
    intro hmem
    have h1 := cleanupDeleteFold_resolver_sub env _ _ _ _
      (deleteDomainFold_eq env _ _ _ ▸ hmem)
    have hnot1 : (⟨d, a⟩ : DNSRecord) ∉ (exclusionCleanup env (afterDesired env w)
        (groupByDomain (step7Listing env w))).1.resolver := by
      intro hm
      exact hafter _ (exclusionCleanup_resolver_sub env _ _ _ hm) rfl
    exact applyDesiredFold_notmem_da env _ _ d a hfail _ hnot1 h1

/-- C10 witness: in `envAddFail` the desired pair `(new.com, 5.5.5.5)` fails
to add, yet ends the cycle marked managed and absent from the resolver. -/
theorem c10_witness :
    dictLookup (desiredOf envAddFail wAddFail) "new.com" = some "5.5.5.5" ∧
    envAddFail.addFails "new.com" "5.5.5.5" = true ∧
    ("5.5.5.5" ∈ managedOf (sync_once envAddFail wAddFail).state "new.com" ∧
      (⟨"new.com", "5.5.5.5"⟩ : DNSRecord) ∉ (sync_once envAddFail wAddFail).resolver) :=
  ⟨by decide, rfl,
    c10_theorem envAddFail wAddFail "new.com" "5.5.5.5" (by decide) rfl rfl rfl (by decide)⟩

/-! ### The cycle under all-failing polls -/

theorem afterStatic_id (env : Env) (w : World) (hdone : env.startup_cleanup_done = true)
    (hstatics : env.static_rewrites = []) : afterStatic env w = w := by
  rw [afterStatic_of_done env w hdone]
  unfold _sync_static_rewrites
  rw [if_pos hstatics]

theorem successAllFalse_dictSet (sm : List (String × Bool)) (k : String)
    (h : ∀ n, (dictLookup sm n).getD false = false) :
    ∀ n, (dictLookup (dictSet sm k false) n).getD false = false := by
  intro n
  by_cases hk : k = n
  · subst hk
    rw [dictLookup_dictSet_self]
    rfl
  · rw [dictLookup_dictSet_ne sm k n false hk]
    exact h n

theorem pollInstanceStep_fail (env : Env) (acc : World × PollResults) (i : ProxyInstance)
    (hf : (env.poll i).isOk = false) :
    (pollInstanceStep env acc i).1.state.domains = acc.1.state.domains ∧
    (∀ n, (dictLookup acc.2.success n).getD false = false →
      True) ∧
    (pollInstanceStep env acc i).2.success = dictSet acc.2.success i.name false := by
  unfold pollInstanceStep
  cases hp : env.poll i with
  | ok routes =>
      rw [hp] at hf
      cases hf
  | error e => exact ⟨rfl, fun _ _ => trivial, rfl⟩

theorem pollFold_allFail (env : Env) (L : List ProxyInstance)
    (hf : ∀ i ∈ L, (env.poll i).isOk = false) :
    ∀ (acc : World × PollResults), (∀ n, (dictLookup acc.2.success n).getD false = false) →
      ((L.foldl (pollInstanceStep env) acc)).1.state.domains = acc.1.state.domains ∧
      ∀ n, (dictLookup ((L.foldl (pollInstanceStep env) acc)).2.success n).getD false
        = false := by
  induction L with
  | nil => exact fun acc h => ⟨rfl, h⟩
  | cons i t ih =>
      intro acc h
      rw [List.foldl_cons]
      have hstep := pollInstanceStep_fail env acc i (hf i (List.mem_cons_self i t))
      have hrec := ih (fun j hj => hf j (List.mem_cons_of_mem i hj))
        (pollInstanceStep env acc i)
        (by rw [hstep.2.2]; exact successAllFalse_dictSet acc.2.success i.name h)
      exact ⟨hrec.1.trans hstep.1, hrec.2⟩

theorem pollPhase_allFail (env : Env) (w : World)
    (hf : ∀ i ∈ env.instances, (env.poll i).isOk = false) :
    (pollPhase env w).1.state.domains = w.state.domains ∧
    ∀ n, (dictLookup (pollPhase env w).2.success n).getD false = false := by
  unfold pollPhase
  exact pollFold_allFail env env.instances hf (w, ⟨[], []⟩) (fun n => rfl)

theorem pruneStep_false (pr : PollResults) (domain : String)
    (ss : List (String × SourceInfo)) (inst : ProxyInstance)
    (h : (dictLookup pr.success inst.name).getD false = false) :
    pruneStep pr domain ss inst = ss := by
  unfold pruneStep
  rw [h]
  rfl

theorem pruneSources_allFalse (env : Env) (pr : PollResults) (domain : String)
    (h : ∀ n, (dictLookup pr.success n).getD false = false) :
    ∀ (ss : List (String × SourceInfo)), pruneSources env pr domain ss = ss := by
  unfold pruneSources
  induction env.instances with
  | nil => exact fun ss => rfl
  | cons i t ih =>
      intro ss
      rw [List.foldl_cons, pruneStep_false pr domain ss i (h i.name), ih]

theorem pruneFold_allFalse (env : Env) (pr : PollResults)
    (h : ∀ n, (dictLookup pr.success n).getD false = false)
    (L : List (String × DomainState)) (hs : ∀ e ∈ L, e.2.sources ≠ []) :
    ∀ (acc : List (String × DomainState) × List String),
      L.foldl (pruneDomainStep env pr) acc = (acc.1 ++ L, acc.2) := by
  induction L with
  | nil => exact fun acc => by rw [List.foldl_nil, List.append_nil]
  | cons e t ih =>
      intro acc
      rw [List.foldl_cons]
      have hstep : pruneDomainStep env pr acc e = (acc.1 ++ [e], acc.2) := by
        unfold pruneDomainStep
        rw [pruneSources_allFalse env pr e.1 h e.2.sources]
        dsimp only
        rw [if_neg (hs e (List.mem_cons_self e t))]
      rw [hstep, ih (fun x hx => hs x (List.mem_cons_of_mem e hx))]
      rw [List.append_assoc]
      rfl

theorem prunePhase_allFalse (env : Env) (pr : PollResults) (st : PState)
    (h : ∀ n, (dictLookup pr.success n).getD false = false)
    (hs : ∀ e ∈ st.domains, e.2.sources ≠ []) :
    prunePhase env pr st = (st, []) := by
  unfold prunePhase
  rw [pruneFold_allFalse env pr h st.domains hs ([], [])]
  rfl

theorem exclStep_rbd_lookup_or (env : Env) (acc : World × List (String × List String))
    (e : String × List String) (k : String) :
    dictLookup (exclStep env acc e).2 k = dictLookup acc.2 k ∨
    dictLookup (exclStep env acc e).2 k = none := by
  unfold exclStep
  split
  · exact Or.inl rfl
  · split
    · dsimp only
      split
      · by_cases hk : e.1 = k
        · subst hk
          exact Or.inr (dictLookup_dictErase_self acc.2 e.1)
        · exact Or.inl (dictLookup_dictErase_ne acc.2 e.1 k hk)
      · exact Or.inl rfl
    · exact Or.inl rfl

theorem exclFold_rbd_lookup_or (env : Env) (L : List (String × List String)) (k : String) :
    ∀ (acc : World × List (String × List String)),
      dictLookup ((L.foldl (exclStep env) acc)).2 k = dictLookup acc.2 k ∨
      dictLookup ((L.foldl (exclStep env) acc)).2 k = none := by
  induction L with
  | nil => exact fun acc => Or.inl rfl
  | cons e t ih =>
      intro acc
      rw [List.foldl_cons]
      rcases ih (exclStep env acc e) with h' | h'
      · rcases exclStep_rbd_lookup_or env acc e k with h'' | h''
        · exact Or.inl (h'.trans h'')
        · exact Or.inr (h'.trans h'')
      · exact Or.inr h'

theorem exclusionCleanup_rbd_lookup_or (env : Env) (w : World)
    (rbd : List (String × List String)) (k : String) :
    dictLookup (exclusionCleanup env w rbd).2 k = dictLookup rbd k ∨
    dictLookup (exclusionCleanup env w rbd).2 k = none := by
  unfold exclusionCleanup
  split
  · exact Or.inl rfl
  · exact exclFold_rbd_lookup_or env rbd k (w, rbd)

theorem applyDesiredStep_no_delete (env : Env) (rbd : List (String × List String))
    (w : World) (e : String × String)
    (h : (dictLookup rbd e.1).getD [] = [] ∨ (dictLookup rbd e.1).getD [] = [e.2]) :
    NewOpsOnly (fun op => ∃ dd x, op = DnsOp.add dd x) w (applyDesiredStep env rbd w e) := by
  rcases h with h | h
  · rw [applyDesiredStep_eq_add env rbd w e h]
    intro op hop
    dsimp only at hop
    rw [dns_add_trace] at hop
    rcases List.mem_append.mp hop with h' | h'
    · exact Or.inl h'
    · simp only [List.mem_singleton] at h'
      exact Or.inr ⟨e.1, e.2, h'⟩
  · rw [applyDesiredStep_eq_adopt env rbd w e h]
    exact NewOpsOnly_rfl _ _

theorem applyDesiredFold_no_delete (env : Env) (rbd : List (String × List String))
    (L : List (String × String))
    (h : ∀ e ∈ L, (dictLookup rbd e.1).getD [] = [] ∨ (dictLookup rbd e.1).getD [] = [e.2]) :
    ∀ (w : World),
      NewOpsOnly (fun op => ∃ dd x, op = DnsOp.add dd x) w
        ((L.foldl (applyDesiredStep env rbd) w)) := by
  induction L with
  | nil => exact fun w => NewOpsOnly_rfl _ _
  | cons e t ih =>
      intro w
      rw [List.foldl_cons]
      exact NewOpsOnly_trans
        (applyDesiredStep_no_delete env rbd w e (h e (List.mem_cons_self e t)))
        (ih (fun x hx => h x (List.mem_cons_of_mem e hx)) _)

/-- C5: under the amended hypotheses — every poll fails, the startup cleanup
already ran, no static rewrites are configured, every state domain still has
sources, and each desired domain's Step-7 listing is empty or exactly the
desired answer — the cycle's new operations are only adds and
exclusion-cleanup deletes: no delete is issued for a non-excluded domain.
(Without the last hypothesis the claim is false: see `c5_counterexample`,
where a stale desired answer triggers a consolidation delete.) -/
theorem c5_amended (env : Env) (w : World)
    (hpoll : ∀ i ∈ env.instances, (env.poll i).isOk = false)
    (hdone : env.startup_cleanup_done = true)
    (hstatics : env.static_rewrites = [])
    (hsources : ∀ e ∈ w.state.domains, e.2.sources ≠ [])
    (hlisting : ∀ p ∈ desiredOf env w,
      (dictLookup (groupByDomain (step7Listing env w)) p.1).getD [] = [] ∨
      (dictLookup (groupByDomain (step7Listing env w)) p.1).getD [] = [p.2]) :
    NewOpsOnly (fun op => (∃ dd x, op = DnsOp.add dd x) ∨
      ∃ dd x, op = DnsOp.delete dd x ∧ _is_domain_excluded dd env.exclude_patterns = true)
      w (sync_once env w) := by
  have hAS : afterStatic env w = w := afterStatic_id env w hdone hstatics
  have hPoll := pollPhase_allFail env (afterStatic env w)
    (by intro i hi; exact hpoll i hi)
  have hdomains : (pollOut env w).1.state.domains = w.state.domains := by
    unfold pollOut
    rw [hPoll.1, hAS]
  have hPrune : pruneOut env w = ((pollOut env w).1.state, []) := by
    unfold pruneOut
    apply prunePhase_allFalse env _ _ hPoll.2
    rw [hdomains]
    exact hsources
  have hdels : (pruneOut env w).2 = [] := by
    rw [hPrune]
  have htraceA : (afterDesired env w).trace = w.trace := by
    rw [afterDesired_trace, hAS]
  have hlist2 : ∀ p ∈ sortPairs (desiredOf env w),
      (dictLookup (exclusionCleanup env (afterDesired env w)
        (groupByDomain (step7Listing env w))).2 p.1).getD [] = [] ∨
      (dictLookup (exclusionCleanup env (afterDesired env w)
        (groupByDomain (step7Listing env w))).2 p.1).getD [] = [p.2] := by
    intro p hp
    have hp' := (mem_sortBy _ (desiredOf env w) p).mp hp
    rcases exclusionCleanup_rbd_lookup_or env (afterDesired env w)
        (groupByDomain (step7Listing env w)) p.1 with h' | h'
    · rw [h']
      exact hlisting p hp'
    · rw [h']
      exact Or.inl rfl
  rw [sync_once_eq, hdels]
  show NewOpsOnly _ w ((sortPairs (desiredOf env w)).foldl _ _)
  refine NewOpsOnly_trans (NewOpsOnly_trans ?_
    (NewOpsOnly_mono ?_ (exclusionCleanup_newOps env (afterDesired env w)
      (groupByDomain (step7Listing env w)))))
    (NewOpsOnly_mono ?_ (applyDesiredFold_no_delete env _ _ hlist2 _))
  · exact NewOpsOnly_of_trace_eq _ _ _ htraceA
  · intro op hop
    exact Or.inr hop
  · intro op hop
    exact Or.inl hop

/-- C5 witness: the amended theorem at `envAllFail` with the clean world
`wPollFailClean` (resolver already matching the stale desired answer). -/
theorem c5_witness :
    (∀ i ∈ envAllFail.instances, (envAllFail.poll i).isOk = false) ∧
    NewOpsOnly (fun op => (∃ dd x, op = DnsOp.add dd x) ∨
      ∃ dd x, op = DnsOp.delete dd x ∧
        _is_domain_excluded dd envAllFail.exclude_patterns = true)
      wPollFailClean (sync_once envAllFail wPollFailClean) :=
  ⟨by decide,
    c5_amended envAllFail wPollFailClean (by decide) rfl rfl (by decide) (by decide)⟩

/-! ### Preservation of unmanaged records through the whole cycle -/

theorem dictLookup_of_mem_nodup {α : Type} (l : List (String × α)) (k : String) (v : α)
    (hmem : (k, v) ∈ l) (hnodup : (l.map (fun p => p.1)).Nodup) :
    dictLookup l k = some v := by
  induction l with
  | nil => cases hmem
  | cons hd tl ih =>
      obtain ⟨k0, v0⟩ := hd
      rw [List.map_cons, List.nodup_cons] at hnodup
      rcases List.mem_cons.mp hmem with he | he
      · have hk : k = k0 := congrArg Prod.fst he
        have hv : v = v0 := congrArg Prod.snd he
        subst hk
        simp [dictLookup, hv]
      · have hk0 : k0 ≠ k := by
          intro hEq
          subst hEq
          exact hnodup.1 (List.mem_map.mpr ⟨(k0, v), he, rfl⟩)
        simp [dictLookup, hk0, ih he hnodup.2]

theorem desiredFold_keys_nodup (il : List ProxyInstance)
    (doms : List (String × DomainState)) :
    ∀ (acc : List (String × String) × List String), (acc.1.map (fun p => p.1)).Nodup →
      (((doms.foldl (desiredStep il) acc)).1.map (fun p => p.1)).Nodup := by
  induction doms with
  | nil => exact fun acc h => h
  | cons e t ih =>
      intro acc h
      rw [List.foldl_cons]
      apply ih
      unfold desiredStep
      split
      · exact h
      · split
        · exact h
        · dsimp only
          exact keysNodup_dictSet acc.1 e.1 _ h

theorem computeDesired_keys_nodup (il : List ProxyInstance)
    (doms : List (String × DomainState)) :
    (((computeDesired il doms).1).map (fun p => p.1)).Nodup :=
  desiredFold_keys_nodup il doms ([], []) (by simp)

theorem afterDesired_intact (env : Env) (w : World) (d a : String)
    (h : UnmanagedIntact d a (afterStatic env w)) :
    UnmanagedIntact d a (afterDesired env w) := by
  obtain ⟨hm, hr, ht⟩ := h
  refine ⟨?_, ?_, ?_⟩
  · unfold managedOf
    rw [afterDesired_managed]
    exact hm
  · rw [afterDesired_resolver]
    exact hr
  · rw [afterDesired_trace]
    exact ht

theorem applyDesiredStep_intact2 (env : Env) (rbd : List (String × List String))
    (w : World) (e : String × String) (d a : String)
    (hda : e.1 = d → e.2 ≠ a)
    (hmem : e.1 = d →
      a ∈ (dictLookup rbd e.1).getD [] ∨ (dictLookup rbd e.1).getD [] = [])
    (h : UnmanagedIntact d a w) : UnmanagedIntact d a (applyDesiredStep env rbd w e) := by
  by_cases hnil : (dictLookup rbd e.1).getD [] = []
  · rw [applyDesiredStep_eq_add env rbd w e hnil]
    obtain ⟨hm, hr, ht⟩ := h
    refine ⟨?_, ?_, ?_⟩
    · dsimp only
      rw [dns_add_state]
      by_cases hd : e.1 = d
      · subst hd
        intro hmm
        rcases (mem_managedOf_mark w.state e.1 e.2 a).mp hmm with hmm' | hmm'
        · exact hm hmm'
        · exact hda rfl hmm'.symm
      · rw [managedOf_mark_ne _ _ _ _ hd]
        exact hm
    · exact dns_add_resolver_mem env w e.1 e.2 _ hr
    · dsimp only
      rw [dns_add_trace]
      intro hmem'
      rcases List.mem_append.mp hmem' with h' | h'
      · exact ht h'
      · simp at h'
  · refine applyDesiredStep_intact env rbd w e d a hda ?_ h
    intro hd
    rcases hmem hd with h' | h'
    · exact h'
    · exact absurd h' hnil

theorem applyDesiredFold_intact2 (env : Env) (rbd : List (String × List String))
    (L : List (String × String)) (d a : String)
    (hda : ∀ e ∈ L, e.1 = d → e.2 ≠ a)
    (hmem : ∀ e ∈ L, e.1 = d →
      a ∈ (dictLookup rbd e.1).getD [] ∨ (dictLookup rbd e.1).getD [] = []) :
    ∀ (w : World), UnmanagedIntact d a w →
      UnmanagedIntact d a ((L.foldl (applyDesiredStep env rbd) w)) := by
  induction L with
  | nil => exact fun w h => h
  | cons e t ih =>
      intro w h
      rw [List.foldl_cons]
      exact ih (fun x hx => hda x (List.mem_cons_of_mem e hx))
        (fun x hx => hmem x (List.mem_cons_of_mem e hx)) _
        (applyDesiredStep_intact2 env rbd w e d a (hda e (List.mem_cons_self e t))
          (hmem e (List.mem_cons_self e t)) h)

theorem deleteDomainFold_intact (env : Env) (rbd : List (String × List String))
    (doms : List String) (d a : String) : ∀ (w : World),
    UnmanagedIntact d a w →
      UnmanagedIntact d a ((doms.foldl (deleteDomainStep env rbd) w)) := by
  induction doms with
  | nil => exact fun w h => h
  | cons dm t ih =>
      intro w h
      rw [List.foldl_cons, deleteDomainStep_eq]
      exact ih _ (cleanupDeleteStep_intact env rbd w dm d a h)

/-! ### The poll phase under all-successful polls; excluded domains -/

theorem isOk_exists {ε α : Type} (x : Except ε α) (h : x.isOk = true) :
    ∃ v, x = Except.ok v := by
  cases x with
  | ok v => exact ⟨v, rfl⟩
  | error e => cases h

theorem pollInstanceStep_success_ok (env : Env) (acc : World × PollResults)
    (i : ProxyInstance) (routes : List ProxyRoute) (hp : env.poll i = Except.ok routes) :
    (pollInstanceStep env acc i).2.success = dictSet acc.2.success i.name true := by
  unfold pollInstanceStep
  rw [hp]

theorem pollInstanceStep_success_err (env : Env) (acc : World × PollResults)
    (i : ProxyInstance) (e : String) (hp : env.poll i = Except.error e) :
    (pollInstanceStep env acc i).2.success = dictSet acc.2.success i.name false := by
  unfold pollInstanceStep
  rw [hp]

theorem pollInstanceStep_seen_ok (env : Env) (acc : World × PollResults)
    (i : ProxyInstance) (routes : List ProxyRoute) (hp : env.poll i = Except.ok routes) :
    (pollInstanceStep env acc i).2.seen = dictSet acc.2.seen i.name
      ((routes.foldl (pollRouteStep env i.name) (acc.1.state, []))).2 := by
  unfold pollInstanceStep
  rw [hp]

theorem pollInstanceStep_seen_err (env : Env) (acc : World × PollResults)
    (i : ProxyInstance) (e : String) (hp : env.poll i = Except.error e) :
    (pollInstanceStep env acc i).2.seen = dictSet acc.2.seen i.name [] := by
  unfold pollInstanceStep
  rw [hp]

theorem dictSet_isSome_mono {α : Type} (l : List (String × α)) (k n : String) (v : α)
    (h : (dictLookup l n).isSome = true) :
    (dictLookup (dictSet l k v) n).isSome = true := by
  by_cases hk : k = n
  · subst hk
    rw [dictLookup_dictSet_self]
    rfl
  · rw [dictLookup_dictSet_ne l k n v hk]
    exact h

theorem pollFold_success_isSome_mono (env : Env) (L : List ProxyInstance) :
    ∀ (acc : World × PollResults) (n : String),
      (dictLookup acc.2.success n).isSome = true →
      (dictLookup ((L.foldl (pollInstanceStep env) acc)).2.success n).isSome = true := by
  induction L with
  | nil => exact fun acc n h => h
  | cons i t ih =>
      intro acc n h
      rw [List.foldl_cons]
      apply ih
      cases hp : env.poll i with
      | ok routes =>
          rw [pollInstanceStep_success_ok env acc i routes hp]
          exact dictSet_isSome_mono _ _ _ _ h
      | error e =>
          rw [pollInstanceStep_success_err env acc i e hp]
          exact dictSet_isSome_mono _ _ _ _ h

theorem pollFold_success_facts (env : Env) (L : List ProxyInstance)
    (hok : ∀ i ∈ L, (env.poll i).isOk = true) :
    ∀ (acc : World × PollResults),
      (∀ n b, dictLookup acc.2.success n = some b → b = true) →
      (∀ n b, dictLookup ((L.foldl (pollInstanceStep env) acc)).2.success n = some b
          → b = true) ∧
      ∀ i ∈ L, (dictLookup ((L.foldl (pollInstanceStep env) acc)).2.success i.name).isSome
          = true := by
  induction L with
  | nil =>
      intro acc h
      exact ⟨h, fun i hi => absurd hi (List.not_mem_nil i)⟩
  | cons i t ih =>
      intro acc h
      rw [List.foldl_cons]
      obtain ⟨routes, hp⟩ := isOk_exists (env.poll i) (hok i (List.mem_cons_self i t))
      have hs1 : (pollInstanceStep env acc i).2.success = dictSet acc.2.success i.name true :=
        pollInstanceStep_success_ok env acc i routes hp
      have hinv1 : ∀ n b, dictLookup (pollInstanceStep env acc i).2.success n = some b
          → b = true := by
        intro n b hb
        rw [hs1] at hb
        by_cases hk : i.name = n
        · subst hk
          rw [dictLookup_dictSet_self] at hb
          cases hb
          rfl
        · rw [dictLookup_dictSet_ne _ _ _ _ hk] at hb
          exact h n b hb
      obtain ⟨hfin, hrest⟩ := ih (fun j hj => hok j (List.mem_cons_of_mem i hj))
        (pollInstanceStep env acc i) hinv1
      refine ⟨hfin, fun j hj => ?_⟩
      rcases List.mem_cons.mp hj with h' | h'
      · rw [h']
        apply pollFold_success_isSome_mono env t (pollInstanceStep env acc i) i.name
        rw [hs1, dictLookup_dictSet_self]
        rfl
      · exact hrest j h'

theorem pollPhase_allOk_success (env : Env) (w : World)
    (hok : ∀ i ∈ env.instances, (env.poll i).isOk = true) :
    ∀ i ∈ env.instances,
      (dictLookup (pollPhase env w).2.success i.name).getD false = true := by
  intro i hi
  obtain ⟨hval, hsome⟩ := pollFold_success_facts env env.instances hok (w, ⟨[], []⟩)
    (fun n b hb => by cases hb)
  obtain ⟨b, hb⟩ := Option.isSome_iff_exists.mp (hsome i hi)
  unfold pollPhase
  rw [hb]
  exact hval i.name b hb

theorem pollRouteFold_seen_not_mem (env : Env) (instName d : String)
    (hexcl : _is_domain_excluded d env.exclude_patterns = true) (routes : List ProxyRoute) :
    ∀ (acc : PState × List String), d ∉ acc.2 →
      d ∉ ((routes.foldl (pollRouteStep env instName) acc)).2 := by
  induction routes with
  | nil => exact fun acc h => h
  | cons r t ih =>
      intro acc h
      rw [List.foldl_cons]
      apply ih
      unfold pollRouteStep
      by_cases h1 : _is_domain_excluded r.hostname env.exclude_patterns = true
      · rw [if_pos h1]
        exact h
      · rw [if_neg h1]
        by_cases h2 : r.zone = DNSZone.external
        · rw [if_pos h2]
          exact h
        · rw [if_neg h2]
          dsimp only
          split
          · exact h
          · intro hmem
            rcases List.mem_append.mp hmem with h'' | h''
            · exact h h''
            · simp only [List.mem_singleton] at h''
              subst h''
              exact h1 hexcl

theorem pollFold_seen_not_mem (env : Env) (d : String)
    (hexcl : _is_domain_excluded d env.exclude_patterns = true) (L : List ProxyInstance) :
    ∀ (acc : World × PollResults), (∀ n, d ∉ (dictLookup acc.2.seen n).getD []) →
      ∀ n, d ∉ (dictLookup ((L.foldl (pollInstanceStep env) acc)).2.seen n).getD [] := by
  induction L with
  | nil => exact fun acc h => h
  | cons i t ih =>
      intro acc h
      rw [List.foldl_cons]
      apply ih
      intro n
      cases hp : env.poll i with
      | ok routes =>
          rw [pollInstanceStep_seen_ok env acc i routes hp]
          by_cases hn : i.name = n
          · subst hn
            rw [dictLookup_dictSet_self]
            exact pollRouteFold_seen_not_mem env i.name d hexcl routes (acc.1.state, [])
              (List.not_mem_nil d)
          · rw [dictLookup_dictSet_ne _ _ _ _ hn]
            exact h n
      | error e =>
          rw [pollInstanceStep_seen_err env acc i e hp]
          by_cases hn : i.name = n
          · subst hn
            rw [dictLookup_dictSet_self]
            exact List.not_mem_nil d
          · rw [dictLookup_dictSet_ne _ _ _ _ hn]
            exact h n

theorem pollPhase_seen_not_mem (env : Env) (w : World) (d : String)
    (hexcl : _is_domain_excluded d env.exclude_patterns = true) :
    ∀ n, d ∉ (dictLookup (pollPhase env w).2.seen n).getD [] := by
  unfold pollPhase
  exact pollFold_seen_not_mem env d hexcl env.instances (w, ⟨[], []⟩)
    (fun n => List.not_mem_nil d)

theorem chooseAnswer_none (il : List ProxyInstance) :
    ∀ (ss : List (String × SourceInfo)), (∀ i ∈ il, dictLookup ss i.name = none) →
      chooseAnswer il ss = none := by
  induction il with
  | nil => exact fun ss h => rfl
  | cons inst rest ih =>
      intro ss h
      unfold chooseAnswer
      rw [h inst (List.mem_cons_self inst rest)]
      exact ih ss (fun j hj => h j (List.mem_cons_of_mem inst hj))

theorem mem_dictSet {α : Type} (l : List (String × α)) (k : String) (v : α)
    (q : String × α) (h : q ∈ dictSet l k v) : q ∈ l ∨ q = (k, v) := by
  induction l with
  | nil =>
      simp only [dictSet] at h
      rcases List.mem_singleton.mp h with h'
      exact Or.inr h'
  | cons hd tl ih =>
      obtain ⟨k0, v0⟩ := hd
      by_cases h0 : k0 = k
      · subst h0
        simp only [dictSet, if_pos rfl] at h
        rcases List.mem_cons.mp h with h' | h'
        · exact Or.inr h'
        · exact Or.inl (List.mem_cons_of_mem _ h')
      · simp only [dictSet, if_neg h0] at h
        rcases List.mem_cons.mp h with h' | h'
        · exact Or.inl (by rw [h']; exact List.mem_cons_self _ _)
        · rcases ih h' with h'' | h''
          · exact Or.inl (List.mem_cons_of_mem _ h'')
          · exact Or.inr h''

theorem desiredFold_key_ne (il : List ProxyInstance) (doms : List (String × DomainState))
    (d : String)
    (h : ∀ e ∈ doms, e.1 = d → chooseAnswer il e.2.sources = none) :
    ∀ (acc : List (String × String) × List String), (∀ q ∈ acc.1, q.1 ≠ d) →
      ∀ q ∈ ((doms.foldl (desiredStep il) acc)).1, q.1 ≠ d := by
  induction doms with
  | nil => exact fun acc hacc => hacc
  | cons e t ih =>
      intro acc hacc
      refine ih (fun x hx => h x (List.mem_cons_of_mem e hx)) _ ?_
      unfold desiredStep
      split
      · exact hacc
      · split
        · exact hacc
        · rename_i ans heq
          dsimp only
          intro q hq
          rcases mem_dictSet acc.1 e.1 ans.1 q hq with h' | h'
          · exact hacc q h'
          · rw [h']
            intro hEq
            rw [h e (List.mem_cons_self e t) hEq] at heq
            cases heq

/-! ### Exclusion cleanup clears listed managed answers -/

theorem deleteManagedIfStep_managed_self (env : Env) (dom : String) (w : World) (a : String) :
    managedOf (deleteManagedIfStep env dom w a).state dom
        = (managedOf w.state dom).erase a ∨
    (managedOf (deleteManagedIfStep env dom w a).state dom = managedOf w.state dom ∧
      a ∉ managedOf w.state dom) := by
  unfold deleteManagedIfStep
  by_cases h : _is_record_managed w.state dom a = true
  · rw [if_pos h]
    left
    dsimp only
    rw [dns_delete_state env w dom a, managedOf_unmark_self]
  · rw [if_neg h]
    right
    exact ⟨rfl, fun hmem => h ((_is_record_managed_iff w.state dom a).mpr hmem)⟩

theorem deleteManagedIfFold_clears (env : Env) (dom : String) (L : List String) :
    ∀ (w : World), (managedOf w.state dom).Nodup →
      (managedOf ((L.foldl (deleteManagedIfStep env dom) w)).state dom).Nodup ∧
      ∀ x ∈ managedOf ((L.foldl (deleteManagedIfStep env dom) w)).state dom,
        x ∈ managedOf w.state dom ∧ x ∉ L := by
  induction L with
  | nil => exact fun w h => ⟨h, fun x hx => ⟨hx, List.not_mem_nil x⟩⟩
  | cons a0 t ih =>
      intro w hnd
      rw [List.foldl_cons]
      rcases deleteManagedIfStep_managed_self env dom w a0 with hca | ⟨hca, hnm⟩
      · have hnd1 : (managedOf (deleteManagedIfStep env dom w a0).state dom).Nodup := by
          rw [hca]
          exact hnd.erase a0
        obtain ⟨hndf, hsub⟩ := ih _ hnd1
        refine ⟨hndf, fun x hx => ?_⟩
        obtain ⟨hx1, hx2⟩ := hsub x hx
        rw [hca] at hx1
        refine ⟨List.mem_of_mem_erase hx1, ?_⟩
        intro hmem
        rcases List.mem_cons.mp hmem with h' | h'
        · subst h'
          exact ((List.Nodup.mem_erase_iff hnd).mp hx1).1 rfl
        · exact hx2 h'
      · obtain ⟨hndf, hsub⟩ := ih _ (by rw [hca]; exact hnd)
        refine ⟨hndf, fun x hx => ?_⟩
        obtain ⟨hx1, hx2⟩ := hsub x hx
        rw [hca] at hx1
        refine ⟨hx1, ?_⟩
        intro hmem
        rcases List.mem_cons.mp hmem with h' | h'
        · subst h'
          exact hnm hx1
        · exact hx2 h'

theorem deleteManagedIfStep_managed_nodup (env : Env) (dom : String) (w : World)
    (a d : String) (h : (managedOf w.state d).Nodup) :
    (managedOf (deleteManagedIfStep env dom w a).state d).Nodup := by
  by_cases hdom : dom = d
  · subst hdom
    rcases deleteManagedIfStep_managed_self env dom w a with hca | ⟨hca, _⟩
    · rw [hca]
      exact h.erase a
    · rw [hca]
      exact h
  · rw [deleteManagedIfStep_managed_ne env dom w a d (fun hEq => hdom hEq.symm)]
    exact h

theorem deleteManagedIfFold_managed_nodup (env : Env) (dom : String) (L : List String)
    (d : String) : ∀ (w : World), (managedOf w.state d).Nodup →
      (managedOf ((L.foldl (deleteManagedIfStep env dom) w)).state d).Nodup := by
  induction L with
  | nil => exact fun w h => h
  | cons a0 t ih =>
      intro w h
      rw [List.foldl_cons]
      exact ih _ (deleteManagedIfStep_managed_nodup env dom w a0 d h)

theorem cleanupDeleteStep_managed_nodup (env : Env) (rbd : List (String × List String))
    (w : World) (dom d : String) (h : (managedOf w.state d).Nodup) :
    (managedOf (cleanupDeleteStep env rbd w dom).state d).Nodup := by
  unfold cleanupDeleteStep
  split
  · exact h
  · dsimp only
    exact deleteManagedIfFold_managed_nodup env dom _ d w h

theorem cleanupDeleteFold_managed_nodup (env : Env) (rbd : List (String × List String))
    (doms : List String) (d : String) : ∀ (w : World), (managedOf w.state d).Nodup →
      (managedOf ((doms.foldl (cleanupDeleteStep env rbd) w)).state d).Nodup := by
  induction doms with
  | nil => exact fun w h => h
  | cons dm t ih =>
      intro w h
      rw [List.foldl_cons]
      exact ih _ (cleanupDeleteStep_managed_nodup env rbd w dm d h)

theorem cleanup_managed_nodup (env : Env) (w : World) (d : String)
    (h : (managedOf w.state d).Nodup) :
    (managedOf (_cleanup_removed_instances env w).state d).Nodup := by
  by_cases hr : removedNames env w.state = []
  · rw [cleanup_eq_nil env w hr]
    exact h
  · rw [cleanup_eq_removed env w hr]
    exact cleanupDeleteFold_managed_nodup env _ _ d
      { w with state := { w.state with
          domains := (cleanupSources (removedNames env w.state) w.state.domains).1 } } h

theorem exclStep_managed_excl (env : Env) (acc : World × List (String × List String))
    (e : String × List String) (d : String)
    (hstatc : dictContains env.static_rewrites d = false)
    (hexcl : _is_domain_excluded d env.exclude_patterns = true)
    (hnd : (managedOf acc.1.state d).Nodup) :
    (managedOf (exclStep env acc e).1.state d).Nodup ∧
    ∀ x ∈ managedOf (exclStep env acc e).1.state d,
      x ∈ managedOf acc.1.state d ∧ (e.1 = d → x ∉ e.2) := by
  by_cases hd : e.1 = d
  · rw [exclStep_excl_eq env acc e (by rw [hd]; exact hstatc) (by rw [hd]; exact hexcl)]
    dsimp only
    subst hd
    obtain ⟨hndf, hsub⟩ := deleteManagedIfFold_clears env e.1 e.2 acc.1 hnd
    refine ⟨hndf, fun x hx => ?_⟩
    obtain ⟨h1, h2⟩ := hsub x hx
    exact ⟨h1, fun _ => h2⟩
  · rcases exclStep_world_cases env acc e with heq | ⟨heq, _⟩
    · rw [heq]
      exact ⟨hnd, fun x hx => ⟨hx, fun hEq => absurd hEq hd⟩⟩
    · rw [heq]
      dsimp only
      have hm := deleteManagedIfFold_managed_ne env e.1 e.2 acc.1 d
        (fun hEq => hd hEq.symm)
      refine ⟨?_, fun x hx => ?_⟩
      · show (managedOf ((e.2.foldl (deleteManagedIfStep env e.1) acc.1)).state d).Nodup
        rw [hm]
        exact hnd
      · have hx' : x ∈ managedOf
            ((e.2.foldl (deleteManagedIfStep env e.1) acc.1)).state d := hx
        rw [hm] at hx'
        exact ⟨hx', fun hEq => absurd hEq hd⟩

theorem exclFold_managed_excl (env : Env) (L : List (String × List String)) (d : String)
    (hstatc : dictContains env.static_rewrites d = false)
    (hexcl : _is_domain_excluded d env.exclude_patterns = true) :
    ∀ (acc : World × List (String × List String)), (managedOf acc.1.state d).Nodup →
      (managedOf ((L.foldl (exclStep env) acc)).1.state d).Nodup ∧
      ∀ x ∈ managedOf ((L.foldl (exclStep env) acc)).1.state d,
        x ∈ managedOf acc.1.state d ∧ ∀ e ∈ L, e.1 = d → x ∉ e.2 := by
  induction L with
  | nil => exact fun acc h => ⟨h, fun x hx => ⟨hx, fun e he => absurd he (List.not_mem_nil e)⟩⟩
  | cons e0 t ih =>
      intro acc hnd
      rw [List.foldl_cons]
      obtain ⟨hnd1, hsub1⟩ := exclStep_managed_excl env acc e0 d hstatc hexcl hnd
      obtain ⟨hndf, hsubf⟩ := ih (exclStep env acc e0) hnd1
      refine ⟨hndf, fun x hx => ?_⟩
      obtain ⟨hx1, hx2⟩ := hsubf x hx
      obtain ⟨hy1, hy2⟩ := hsub1 x hx1
      refine ⟨hy1, fun e he hEq => ?_⟩
      rcases List.mem_cons.mp he with h' | h'
      · rw [h'] at hEq ⊢
        exact hy2 hEq
      · exact hx2 e h' hEq

theorem exclusionCleanup_managed_excl (env : Env) (w : World)
    (rbd : List (String × List String)) (d : String)
    (hstatc : dictContains env.static_rewrites d = false)
    (hexcl : _is_domain_excluded d env.exclude_patterns = true)
    (hnd : (managedOf w.state d).Nodup) :
    ∀ x ∈ managedOf (exclusionCleanup env w rbd).1.state d,
      x ∈ managedOf w.state d ∧ ∀ e ∈ rbd, e.1 = d → x ∉ e.2 := by
  unfold exclusionCleanup
  split
  · rename_i hempty
    intro x hx
    exfalso
    have hnil : env.exclude_patterns = [] := by
      cases hl : env.exclude_patterns with
      | nil => rfl
      | cons p t =>
          rw [hl] at hempty
          cases hempty
    rw [hnil] at hexcl
    cases hexcl
  · exact (exclFold_managed_excl env rbd d hstatc hexcl (w, rbd) hnd).2

/-- C7: the claim fails for stale managed entries with no resolver record
(see `c7_counterexample`), but the enforced property is: when every poll
succeeds and the excluded domain `d` is not a static rewrite and its managed
list has no duplicates, the cycle only shrinks `managed_records[d]` and
removes from it every answer the Step-7 resolver listing reported for `d` —
so no resolver-listed record of an excluded domain stays managed. -/
theorem c7_amended (env : Env) (w : World) (d : String)
    (hexcl : _is_domain_excluded d env.exclude_patterns = true)
    (hstat : dictLookup env.static_rewrites d = none)
    (hok : ∀ i ∈ env.instances, (env.poll i).isOk = true)
    (hnodup : (managedOf w.state d).Nodup) :
    ∀ x ∈ managedOf (sync_once env w).state d,
      x ∈ managedOf w.state d ∧ (⟨d, x⟩ : DNSRecord) ∉ step7Listing env w := by
  have hstatc : dictContains env.static_rewrites d = false := by
    unfold dictContains
    rw [hstat]
    rfl
  have hsubAS : ∀ x ∈ managedOf (afterStatic env w).state d, x ∈ managedOf w.state d := by
    unfold afterStatic
    cases hdone : !env.startup_cleanup_done
    · intro x hx
      have hx' : x ∈ managedOf (_sync_static_rewrites env w).state d := hx
      rw [statics_managed_ne env w d hstat] at hx'
      exact hx'
    · intro x hx
      have hx' : x ∈ managedOf
          (_sync_static_rewrites env (_cleanup_removed_instances env w)).state d := hx
      rw [statics_managed_ne env _ d hstat] at hx'
      exact cleanup_managed_sub env w d x hx'
  have hndAS : (managedOf (afterStatic env w).state d).Nodup := by
    unfold afterStatic
    cases hdone : !env.startup_cleanup_done
    · show (managedOf (_sync_static_rewrites env w).state d).Nodup
      rw [statics_managed_ne env w d hstat]
      exact hnodup
    · show (managedOf
          (_sync_static_rewrites env (_cleanup_removed_instances env w)).state d).Nodup
      rw [statics_managed_ne env _ d hstat]
      exact cleanup_managed_nodup env w d hnodup
  have hmAD : managedOf (afterDesired env w).state d
      = managedOf (afterStatic env w).state d := by
    unfold managedOf
    rw [afterDesired_managed]
  have hkeys : ∀ q ∈ desiredOf env w, q.1 ≠ d := by
    have hch : ∀ e ∈ (pruneOut env w).1.domains, e.1 = d →
        chooseAnswer env.instances e.2.sources = none := by
      intro e he hEq
      have he2 : e ∈ ((pollOut env w).1.state.domains).map
          (fun e0 => (e0.1, (⟨pruneSources env (pollOut env w).2 e0.1 e0.2.sources⟩ :
            DomainState))) := by
        have he' : e ∈ (prunePhase env (pollOut env w).2 (pollOut env w).1.state).1.domains :=
          he
        rw [prunePhase_domains] at he'
        exact he'
      obtain ⟨orig, horig, heqo⟩ := List.mem_map.mp he2
      have hsrc : e.2.sources = pruneSources env (pollOut env w).2 orig.1 orig.2.sources := by
        rw [← heqo]
      have hEq' : orig.1 = d := by
        rw [← heqo] at hEq
        exact hEq
      rw [hsrc, hEq']
      apply chooseAnswer_none
      intro i hi
      apply pruneSources_erases env (pollOut env w).2 d i.name orig.2.sources
      · exact pollPhase_allOk_success env (afterStatic env w) hok i hi
      · exact pollPhase_seen_not_mem env (afterStatic env w) d hexcl i.name
      · exact ⟨i, hi, rfl⟩
    intro q hq
    exact desiredFold_key_ne env.instances (pruneOut env w).1.domains d hch ([], [])
      (fun q0 hq0 => absurd hq0 (List.not_mem_nil q0)) q hq
  have hexclM := exclusionCleanup_managed_excl env (afterDesired env w)
    (groupByDomain (step7Listing env w)) d hstatc hexcl (by rw [hmAD]; exact hndAS)
  have hkeys2 : ∀ e ∈ sortPairs (desiredOf env w), e.1 ≠ d := by
    intro e he
    exact hkeys e ((mem_sortBy _ (desiredOf env w) e).mp he)
  intro x hx
  rw [sync_once_eq, deleteDomainFold_eq] at hx
  have hx8 := cleanupDeleteFold_managed_sub env _ _ _ d x hx
  rw [applyDesiredFold_managed_ne env _ _ d hkeys2 _] at hx8
  obtain ⟨hx9, hx10⟩ := hexclM x hx8
  rw [hmAD] at hx9
  refine ⟨hsubAS x hx9, ?_⟩
  intro hmem
  have hansmem : x ∈ answersOf (step7Listing env w) d := (mem_answersOf _ d x).mpr hmem
  rw [← groupByDomain_lookup] at hansmem
  cases hl : dictLookup (groupByDomain (step7Listing env w)) d with
  | none =>
      rw [hl] at hansmem
      exact absurd hansmem (List.not_mem_nil x)
  | some ans =>
      rw [hl] at hansmem
      exact hx10 (d, ans) (dictLookup_mem _ d ans hl) rfl hansmem

/-- C7 witness: the amended theorem at `envExclStale` — the stale managed
entry for `x.com` survives (matching the counterexample), and indeed no
answer listed by the resolver for `x.com` remains managed. -/
theorem c7_witness :
    _is_domain_excluded "x.com" envExclStale.exclude_patterns = true ∧
    ∀ x ∈ managedOf (sync_once envExclStale wExclStale).state "x.com",
      x ∈ managedOf wExclStale.state "x.com" ∧
      (⟨"x.com", x⟩ : DNSRecord) ∉ step7Listing envExclStale wExclStale :=
  ⟨by decide,
    c7_amended envExclStale wExclStale "x.com" (by decide) rfl (by decide) (by decide)⟩

/-! ### First-instance priority: poll, prune, desired characterization -/

theorem pollInstanceStep_single (env : Env) (acc : World × PollResults) (i : ProxyInstance)
    (r : ProxyRoute) (hp : env.poll i = Except.ok [r])
    (hex : _is_domain_excluded r.hostname env.exclude_patterns = false)
    (hz : r.zone ≠ DNSZone.external) :
    (pollInstanceStep env acc i).1.state.domains
        = dictSet acc.1.state.domains r.hostname
            ⟨dictSet ((dictLookup acc.1.state.domains r.hostname).getD ⟨[]⟩).sources
              i.name ⟨r.target_ip, env.now⟩⟩ ∧
    (pollInstanceStep env acc i).2.success = dictSet acc.2.success i.name true ∧
    (pollInstanceStep env acc i).2.seen = dictSet acc.2.seen i.name [r.hostname] := by
  unfold pollInstanceStep
  rw [hp]
  dsimp only
  rw [List.foldl_cons]
  unfold pollRouteStep
  rw [if_neg (by rw [hex]; simp)]
  rw [if_neg hz]
  exact ⟨rfl, rfl, rfl⟩

theorem pruneStep_keep (pr : PollResults) (dom : String) (ss : List (String × SourceInfo))
    (inst : ProxyInstance)
    (hs : (dictLookup pr.success inst.name).getD false = true)
    (hseen : dom ∈ (dictLookup pr.seen inst.name).getD []) :
    pruneStep pr dom ss inst = ss := by
  unfold pruneStep
  rw [hs]
  simp only [Bool.not_true, Bool.false_eq_true, if_false]
  by_cases hc : dictContains ss inst.name
  · simp only [hc, Bool.not_true, Bool.false_eq_true, if_false]
    rw [if_pos hseen]
  · simp only [hc, Bool.not_false, if_true]

theorem desiredStep_lookup_ne (il : List ProxyInstance)
    (acc : List (String × String) × List String) (e : String × DomainState)
    (h : String) (hne : e.1 ≠ h) :
    dictLookup ((desiredStep il acc e)).1 h = dictLookup acc.1 h := by
  unfold desiredStep
  split
  · rfl
  · split
    · rfl
    · dsimp only
      exact dictLookup_dictSet_ne _ _ _ _ hne

theorem desiredFold_lookup_ne (il : List ProxyInstance)
    (doms : List (String × DomainState)) (h : String) (hk : ∀ e ∈ doms, e.1 ≠ h) :
    ∀ (acc : List (String × String) × List String),
      dictLookup ((doms.foldl (desiredStep il) acc)).1 h = dictLookup acc.1 h := by
  induction doms with
  | nil => exact fun acc => rfl
  | cons e t ih =>
      intro acc
      rw [List.foldl_cons, ih (fun x hx => hk x (List.mem_cons_of_mem e hx)),
        desiredStep_lookup_ne il acc e h (hk e (List.mem_cons_self e t))]

theorem desiredFold_lookup (il : List ProxyInstance) (doms : List (String × DomainState))
    (h : String) (hnd : (doms.map (fun p => p.1)).Nodup) (ds : DomainState)
    (hds : dictLookup doms h = some ds) (hne : ds.sources ≠ [])
    (ans : String × String) (hch : chooseAnswer il ds.sources = some ans) :
    ∀ (acc : List (String × String) × List String),
      dictLookup ((doms.foldl (desiredStep il) acc)).1 h = some ans.1 := by
  induction doms with
  | nil => cases hds
  | cons e t ih =>
      intro acc
      obtain ⟨k0, ds0⟩ := e
      rw [List.map_cons, List.nodup_cons] at hnd
      by_cases h0 : k0 = h
      · subst h0
        simp only [dictLookup, if_true, eq_self_iff_true, Option.some.injEq] at hds
        subst hds
        rw [List.foldl_cons]
        have hk : ∀ e ∈ t, e.1 ≠ k0 := by
          intro e he hEq
          exact hnd.1 (List.mem_map.mpr ⟨e, he, hEq⟩)
        rw [desiredFold_lookup_ne il t k0 hk]
        unfold desiredStep
        rw [if_neg hne]
        rw [hch]
        dsimp only
        exact dictLookup_dictSet_self _ _ _
      · simp only [dictLookup, if_neg h0] at hds
        rw [List.foldl_cons]
        exact ih hnd.2 hds _

theorem desiredStep_warns_mono (il : List ProxyInstance)
    (acc : List (String × String) × List String) (e : String × DomainState)
    (x : String) (h : x ∈ acc.2) : x ∈ (desiredStep il acc e).2 := by
  unfold desiredStep
  split
  · exact h
  · split
    · exact h
    · dsimp only
      split
      · exact List.mem_append_left _ h
      · exact h

theorem desiredFold_warns_mono (il : List ProxyInstance)
    (doms : List (String × DomainState)) :
    ∀ (acc : List (String × String) × List String) (x : String), x ∈ acc.2 →
      x ∈ ((doms.foldl (desiredStep il) acc)).2 := by
  induction doms with
  | nil => exact fun acc x h => h
  | cons e t ih =>
      intro acc x h
      rw [List.foldl_cons]
      exact ih _ x (desiredStep_warns_mono il acc e x h)

theorem desiredFold_warns_mem (il : List ProxyInstance)
    (doms : List (String × DomainState)) (h : String) (ds : DomainState)
    (hmem : (h, ds) ∈ doms) (hne : ds.sources ≠ [])
    (ans : String × String) (hch : chooseAnswer il ds.sources = some ans)
    (hdist : (distinctAnswers ds.sources).length > 1) :
    ∀ (acc : List (String × String) × List String),
      h ∈ ((doms.foldl (desiredStep il) acc)).2 := by
  induction doms with
  | nil => cases hmem
  | cons e t ih =>
      intro acc
      rw [List.foldl_cons]
      rcases List.mem_cons.mp hmem with he | he
      · apply desiredFold_warns_mono il t
        rw [← he]
        unfold desiredStep
        rw [if_neg hne, hch]
        dsimp only
        rw [if_pos hdist]
        exact List.mem_append_right _ (List.mem_singleton.mpr rfl)
      · exact ih he _

theorem pollRouteFold_keysNodup (env : Env) (instName : String) (routes : List ProxyRoute) :
    ∀ (acc : PState × List String), ((acc.1.domains.map (fun p => p.1)).Nodup) →
      ((((routes.foldl (pollRouteStep env instName) acc)).1.domains.map
        (fun p => p.1)).Nodup) := by
  induction routes with
  | nil => exact fun acc h => h
  | cons r t ih =>
      intro acc h
      rw [List.foldl_cons]
      apply ih
      unfold pollRouteStep
      split
      · exact h
      · split
        · exact h
        · dsimp only
          exact keysNodup_dictSet _ _ _ h

theorem pollInstanceStep_keysNodup (env : Env) (acc : World × PollResults)
    (i : ProxyInstance) (h : ((acc.1.state.domains.map (fun p => p.1)).Nodup)) :
    (((pollInstanceStep env acc i).1.state.domains.map (fun p => p.1)).Nodup) := by
  unfold pollInstanceStep
  cases hp : env.poll i with
  | ok routes =>
      dsimp only
      exact pollRouteFold_keysNodup env i.name routes (acc.1.state, []) h
  | error e => exact h

theorem pollFold_keysNodup (env : Env) (L : List ProxyInstance) :
    ∀ (acc : World × PollResults), ((acc.1.state.domains.map (fun p => p.1)).Nodup) →
      ((((L.foldl (pollInstanceStep env) acc)).1.state.domains.map
        (fun p => p.1)).Nodup) := by
  induction L with
  | nil => exact fun acc h => h
  | cons i t ih =>
      intro acc h
      rw [List.foldl_cons]
      exact ih _ (pollInstanceStep_keysNodup env acc i h)

theorem dns_add_resolver_mem_self (env : Env) (w : World) (d a : String)
    (h : env.addFails d a = false) :
    (⟨d, a⟩ : DNSRecord) ∈ (dns_add_record env w d a).1.resolver := by
  unfold dns_add_record
  rw [if_neg (by rw [h]; simp)]
  exact List.mem_append_right _ (List.mem_singleton.mpr rfl)

theorem deleteManagedIfStep_resolver_mem_ne (env : Env) (dom : String) (w : World)
    (ans : String) (r : DNSRecord) (hr : r ∈ w.resolver) (hne : r ≠ ⟨dom, ans⟩) :
    r ∈ (deleteManagedIfStep env dom w ans).resolver := by
  unfold deleteManagedIfStep
  split
  · dsimp only
    exact dns_delete_resolver_mem_ne env w dom ans r hr hne
  · exact hr

theorem deleteManagedIfFold_resolver_mem_ne (env : Env) (dom : String) (L : List String)
    (r : DNSRecord) (hne : ∀ x ∈ L, r ≠ ⟨dom, x⟩) :
    ∀ (w : World), r ∈ w.resolver →
      r ∈ ((L.foldl (deleteManagedIfStep env dom) w)).resolver := by
  induction L with
  | nil => exact fun w h => h
  | cons x t ih =>
      intro w h
      rw [List.foldl_cons]
      exact ih (fun y hy => hne y (List.mem_cons_of_mem x hy)) _
        (deleteManagedIfStep_resolver_mem_ne env dom w x r h
          (hne x (List.mem_cons_self x t)))

theorem cleanupDeleteStep_resolver_mem (env : Env) (rbd : List (String × List String))
    (w : World) (dom : String) (r : DNSRecord) (hr : r ∈ w.resolver)
    (hne : ∀ x ∈ (dictLookup rbd dom).getD [], r ≠ ⟨dom, x⟩) :
    r ∈ (cleanupDeleteStep env rbd w dom).resolver := by
  unfold cleanupDeleteStep
  split
  · exact hr
  · dsimp only
    exact deleteManagedIfFold_resolver_mem_ne env dom _ r hne w hr

theorem cleanupDeleteFold_resolver_mem (env : Env) (rbd : List (String × List String))
    (doms : List String) (r : DNSRecord)
    (hne : ∀ dom ∈ doms, ∀ x ∈ (dictLookup rbd dom).getD [], r ≠ ⟨dom, x⟩) :
    ∀ (w : World), r ∈ w.resolver →
      r ∈ ((doms.foldl (cleanupDeleteStep env rbd) w)).resolver := by
  induction doms with
  | nil => exact fun w h => h
  | cons dm t ih =>
      intro w h
      rw [List.foldl_cons]
      exact ih (fun dom hd => hne dom (List.mem_cons_of_mem dm hd)) _
        (cleanupDeleteStep_resolver_mem env rbd w dm r h
          (hne dm (List.mem_cons_self dm t)))

theorem applyDesiredStep_resolver_sub_pair (env : Env) (rbd : List (String × List String))
    (w : World) (e : String × String) (r : DNSRecord)
    (h : r ∈ (applyDesiredStep env rbd w e).resolver) :
    r ∈ w.resolver ∨ r = ⟨e.1, e.2⟩ := by
  rcases applyDesiredStep_cases env rbd w e with heq | heq | heq | heq | ⟨heq, _⟩ <;>
    rw [heq] at h
  · exact dns_add_resolver_sub env w e.1 e.2 r h
  · exact Or.inl h
  · exact Or.inl (deleteDupFold_resolver_sub env e.1 e.2 _
      { w with state := _mark_record_managed w.state e.1 e.2 } r h)
  · exact Or.inl (deleteManagedFold_resolver_sub env e.1 _ _ r h)
  · dsimp only at h
    rcases dns_add_resolver_sub env _ e.1 e.2 r h with h' | h'
    · exact Or.inl (deleteManagedFold_resolver_sub env e.1 _ _ r h')
    · exact Or.inr h'

theorem applyDesiredFold_resolver_sub_pair (env : Env) (rbd : List (String × List String))
    (L : List (String × String)) : ∀ (w : World) (r : DNSRecord),
    r ∈ ((L.foldl (applyDesiredStep env rbd) w)).resolver →
    r ∈ w.resolver ∨ ∃ e ∈ L, r = (⟨e.1, e.2⟩ : DNSRecord) := by
  induction L with
  | nil => exact fun w r h => Or.inl h
  | cons e t ih =>
      intro w r h
      rw [List.foldl_cons] at h
      rcases ih _ r h with h' | ⟨e', he', hx⟩
      · rcases applyDesiredStep_resolver_sub_pair env rbd w e r h' with h'' | h''
        · exact Or.inl h''
        · exact Or.inr ⟨e, List.mem_cons_self e t, h''⟩
      · exact Or.inr ⟨e', List.mem_cons_of_mem e he', hx⟩

theorem applyDesiredFold_da_mem_preserve (env : Env) (rbd : List (String × List String))
    (L : List (String × String)) (h a1 : String)
    (hnil : (dictLookup rbd h).getD [] = [])
    (huniq : ∀ e ∈ L, e.1 = h → e = (h, a1)) :
    ∀ (w : World), (⟨h, a1⟩ : DNSRecord) ∈ w.resolver →
      (⟨h, a1⟩ : DNSRecord) ∈ ((L.foldl (applyDesiredStep env rbd) w)).resolver := by
  induction L with
  | nil => exact fun w hm => hm
  | cons e t ih =>
      intro w hm
      rw [List.foldl_cons]
      refine ih (fun x hx => huniq x (List.mem_cons_of_mem e hx)) _ ?_
      by_cases hd : e.1 = h
      · have he : e = (h, a1) := huniq e (List.mem_cons_self e t) hd
        have hnil' : (dictLookup rbd e.1).getD [] = [] := by
          rw [hd]
          exact hnil
        rw [applyDesiredStep_eq_add env rbd w e hnil']
        exact dns_add_resolver_mem env w e.1 e.2 _ hm
      · exact applyDesiredStep_resolver_mem env rbd w e _ hm (fun hEq => hd hEq.symm)

theorem applyDesiredFold_da_mem (env : Env) (rbd : List (String × List String))
    (L : List (String × String)) (h a1 : String)
    (hnil : (dictLookup rbd h).getD [] = [])
    (haf : env.addFails h a1 = false)
    (huniq : ∀ e ∈ L, e.1 = h → e = (h, a1)) :
    ∀ (w : World), (h, a1) ∈ L →
      (⟨h, a1⟩ : DNSRecord) ∈ ((L.foldl (applyDesiredStep env rbd) w)).resolver := by
  induction L with
  | nil =>
      intro w hm
      exact absurd hm (List.not_mem_nil _)
  | cons e t ih =>
      intro w hm
      rw [List.foldl_cons]
      rcases List.mem_cons.mp hm with he | he
      · apply applyDesiredFold_da_mem_preserve env rbd t h a1 hnil
          (fun x hx => huniq x (List.mem_cons_of_mem e hx))
        rw [applyDesiredStep_eq_add env rbd w e (by rw [← he]; exact hnil)]
        dsimp only
        have hd : e.1 = h := by rw [← he]
        have ha : e.2 = a1 := by rw [← he]
        rw [hd, ha]
        exact dns_add_resolver_mem_self env w h a1 haf
      · exact ih (fun x hx => huniq x (List.mem_cons_of_mem e hx)) _ he

theorem step7_no_domain_records (env : Env) (w : World) (d : String)
    (hdone : env.startup_cleanup_done = true)
    (hstat : dictLookup env.static_rewrites d = none)
    (hres : ∀ r ∈ w.resolver, r.domain ≠ d) :
    dictLookup (groupByDomain (step7Listing env w)) d = none ∧
    ∀ r ∈ (afterDesired env w).resolver, r.domain ≠ d := by
  have hstatics : ∀ r ∈ (_sync_static_rewrites env w).resolver, r.domain ≠ d := by
    intro r hr
    rcases statics_resolver_sub_or env w r hr with h' | ⟨e, he, hre⟩
    · exact hres r h'
    · intro hEq
      exact (dictLookup_eq_none_iff env.static_rewrites d).mp hstat e he (hre ▸ hEq)
  have hafter : ∀ r ∈ (afterDesired env w).resolver, r.domain ≠ d := by
    rw [afterDesired_resolver, afterStatic_of_done env w hdone]
    exact hstatics
  have hlist : ∀ r ∈ step7Listing env w, r.domain ≠ d := by
    unfold step7Listing dns_get_records
    by_cases hLF : env.listFails = true
    · rw [if_pos hLF]
      intro r hr
      cases hr
    · rw [if_neg hLF]
      exact hafter
  have hans : answersOf (step7Listing env w) d = [] := by
    rcases h : answersOf (step7Listing env w) d with _ | ⟨a0, t0⟩
    · rfl
    · exfalso
      have ha0 : a0 ∈ answersOf (step7Listing env w) d := by
        rw [h]
        exact List.mem_cons_self _ _
      exact hlist _ ((mem_answersOf _ d a0).mp ha0) rfl
  exact ⟨groupByDomain_lookup_none _ d hans, hafter⟩

/-- C4: first-instance priority holds for the chosen answer and, under extra
hypotheses, for the end state. Scenario: exactly two configured instances
`i1` before `i2`, each successfully reporting a single internal route for
hostname `h` with truthy targets `a1 ≠ a2`; `h` is not excluded, has no
pre-cycle state entry or resolver record, is not a static rewrite; state
domain keys are duplicate-free, the startup cleanup already ran, and the add
of `(h, a1)` succeeds. Then the desired answer is `a1` (the first
instance's), the cycle ends with `(h, a1)` in the resolver and no other
record for `h`, and a conflict warning for `h` is logged. (Without the
no-pre-existing-record hypothesis the end-state sentence is false: see
`c4_counterexample`.) -/
theorem c4_amended (env : Env) (w : World) (i1 i2 : ProxyInstance) (r1 r2 : ProxyRoute)
    (h a1 a2 : String)
    (hinst : env.instances = [i1, i2])
    (hname : i1.name ≠ i2.name)
    (hp1 : env.poll i1 = Except.ok [r1]) (hh1 : r1.hostname = h)
    (hz1 : r1.zone ≠ DNSZone.external) (ht1 : r1.target_ip = a1) (ha1 : a1 ≠ "")
    (hp2 : env.poll i2 = Except.ok [r2]) (hh2 : r2.hostname = h)
    (hz2 : r2.zone ≠ DNSZone.external) (ht2 : r2.target_ip = a2) (ha2 : a2 ≠ "")
    (ha12 : a1 ≠ a2)
    (hexcl : _is_domain_excluded h env.exclude_patterns = false)
    (hnoh : dictLookup w.state.domains h = none)
    (hnd : ((w.state.domains.map (fun p => p.1)).Nodup))
    (hdone : env.startup_cleanup_done = true)
    (hstat : dictLookup env.static_rewrites h = none)
    (haf : env.addFails h a1 = false)
    (hres : ∀ r ∈ w.resolver, r.domain ≠ h) :
    dictLookup (desiredOf env w) h = some a1 ∧
    (⟨h, a1⟩ : DNSRecord) ∈ (sync_once env w).resolver ∧
    (∀ x, x ≠ a1 → (⟨h, x⟩ : DNSRecord) ∉ (sync_once env w).resolver) ∧
    h ∈ (sync_once env w).warnings := by
  have hASdom : (afterStatic env w).state.domains = w.state.domains := by
    rw [afterStatic_of_done env w hdone, statics_domains]
  have hPP : pollOut env w
      = pollInstanceStep env (pollInstanceStep env ((afterStatic env w), ⟨[], []⟩) i1) i2 := by
    unfold pollOut pollPhase
    rw [hinst, List.foldl_cons, List.foldl_cons, List.foldl_nil]
  have hstep1 := pollInstanceStep_single env ((afterStatic env w), ⟨[], []⟩) i1 r1 hp1
    (by rw [hh1]; exact hexcl) hz1
  have hs1dom : (pollInstanceStep env ((afterStatic env w), ⟨[], []⟩) i1).1.state.domains
      = dictSet w.state.domains h ⟨[(i1.name, ⟨a1, env.now⟩)]⟩ := by
    rw [hstep1.1]
    dsimp only
    rw [hASdom, hh1, ht1, hnoh]
    rfl
  have hs1succ : (pollInstanceStep env ((afterStatic env w), ⟨[], []⟩) i1).2.success
      = dictSet [] i1.name true := hstep1.2.1
  have hs1seen : (pollInstanceStep env ((afterStatic env w), ⟨[], []⟩) i1).2.seen
      = dictSet [] i1.name [h] := by
    rw [hstep1.2.2, hh1]
  have hstep2 := pollInstanceStep_single env
    (pollInstanceStep env ((afterStatic env w), ⟨[], []⟩) i1) i2 r2 hp2
    (by rw [hh2]; exact hexcl) hz2
  have hsrcs : dictSet [(i1.name, (⟨a1, env.now⟩ : SourceInfo))] i2.name ⟨a2, env.now⟩
      = [(i1.name, ⟨a1, env.now⟩), (i2.name, ⟨a2, env.now⟩)] := by
    simp [dictSet, hname]
  have hs2dom : (pollOut env w).1.state.domains
      = dictSet w.state.domains h
          ⟨[(i1.name, ⟨a1, env.now⟩), (i2.name, ⟨a2, env.now⟩)]⟩ := by
    rw [hPP, hstep2.1, hh2, ht2, hs1dom, dictLookup_dictSet_self]
    simp only [Option.getD_some, hsrcs, dictSet_dictSet]
  have hsucc_eq : (pollOut env w).2.success
      = dictSet (dictSet [] i1.name true) i2.name true := by
    rw [hPP, hstep2.2.1, hs1succ]
  have hseen_eq : (pollOut env w).2.seen
      = dictSet (dictSet [] i1.name [h]) i2.name [h] := by
    rw [hPP, hstep2.2.2, hh2, hs1seen]
  have hsucc1 : (dictLookup (pollOut env w).2.success i1.name).getD false = true := by
    rw [hsucc_eq, dictLookup_dictSet_ne _ _ _ _ (fun hEq => hname hEq.symm),
      dictLookup_dictSet_self]
    rfl
  have hsucc2 : (dictLookup (pollOut env w).2.success i2.name).getD false = true := by
    rw [hsucc_eq, dictLookup_dictSet_self]
    rfl
  have hseen1 : h ∈ (dictLookup (pollOut env w).2.seen i1.name).getD [] := by
    rw [hseen_eq, dictLookup_dictSet_ne _ _ _ _ (fun hEq => hname hEq.symm),
      dictLookup_dictSet_self]
    exact List.mem_singleton.mpr rfl
  have hseen2 : h ∈ (dictLookup (pollOut env w).2.seen i2.name).getD [] := by
    rw [hseen_eq, dictLookup_dictSet_self]
    exact List.mem_singleton.mpr rfl
  have hps : pruneSources env (pollOut env w).2 h
      [(i1.name, (⟨a1, env.now⟩ : SourceInfo)), (i2.name, ⟨a2, env.now⟩)]
      = [(i1.name, ⟨a1, env.now⟩), (i2.name, ⟨a2, env.now⟩)] := by
    unfold pruneSources
    rw [hinst]
    rw [List.foldl_cons, pruneStep_keep _ h _ i1 hsucc1 hseen1,
      List.foldl_cons, pruneStep_keep _ h _ i2 hsucc2 hseen2, List.foldl_nil]
  have hplook : dictLookup (pruneOut env w).1.domains h
      = some ⟨[(i1.name, ⟨a1, env.now⟩), (i2.name, ⟨a2, env.now⟩)]⟩ := by
    show dictLookup (prunePhase env (pollOut env w).2 (pollOut env w).1.state).1.domains h = _
    rw [prunePhase_lookup, hs2dom, dictLookup_dictSet_self]
    show some (⟨pruneSources env (pollOut env w).2 h
      [(i1.name, (⟨a1, env.now⟩ : SourceInfo)), (i2.name, ⟨a2, env.now⟩)]⟩ : DomainState) = _
    rw [hps]
  have hndpoll : (((pollOut env w).1.state.domains.map (fun p => p.1)).Nodup) := by
    rw [hs2dom]
    exact keysNodup_dictSet _ _ _ hnd
  have hkeysprune : (pruneOut env w).1.domains.map (fun p => p.1)
      = (pollOut env w).1.state.domains.map (fun p => p.1) := by
    show (prunePhase env (pollOut env w).2 (pollOut env w).1.state).1.domains.map _ = _
    rw [prunePhase_domains, List.map_map]
    rfl
  have hndprune : (((pruneOut env w).1.domains.map (fun p => p.1)).Nodup) := by
    rw [hkeysprune]
    exact hndpoll
  have hch : chooseAnswer env.instances
      [(i1.name, (⟨a1, env.now⟩ : SourceInfo)), (i2.name, ⟨a2, env.now⟩)]
      = some (a1, i1.name) := by
    rw [hinst]
    unfold chooseAnswer
    simp only [dictLookup, if_true, eq_self_iff_true]
    rw [if_pos ha1]
  have hdes1 : dictLookup (desiredOf env w) h = some a1 := by
    show dictLookup ((computeDesired env.instances (pruneOut env w).1.domains)).1 h = some a1
    exact desiredFold_lookup env.instances (pruneOut env w).1.domains h hndprune
      ⟨[(i1.name, ⟨a1, env.now⟩), (i2.name, ⟨a2, env.now⟩)]⟩ hplook (by simp)
      (a1, i1.name) hch ([], [])
  have hdist : (distinctAnswers
      [(i1.name, (⟨a1, env.now⟩ : SourceInfo)), (i2.name, ⟨a2, env.now⟩)]).length > 1 := by
    simp [distinctAnswers, List.eraseDups, List.eraseDups.loop, ha1, ha2,
      decide_eq_false (Ne.symm ha12)]
  have hwarn : h ∈ ((computeDesired env.instances (pruneOut env w).1.domains)).2 :=
    desiredFold_warns_mem env.instances (pruneOut env w).1.domains h
      ⟨[(i1.name, ⟨a1, env.now⟩), (i2.name, ⟨a2, env.now⟩)]⟩
      (dictLookup_mem _ h _ hplook) (by simp) (a1, i1.name) hch hdist ([], [])
  have hwfinal : h ∈ (sync_once env w).warnings := by
    have hweq : (sync_once env w).warnings = (afterDesired env w).warnings := by
      rw [sync_once_eq, deleteDomainFold_eq, cleanupDeleteFold_warnings,
        applyDesiredFold_warnings, exclusionCleanup_warnings]
    rw [hweq]
    show h ∈ (pollOut env w).1.warnings
      ++ ((computeDesired env.instances (pruneOut env w).1.domains)).2
    exact List.mem_append_right _ hwarn
  obtain ⟨hrbd0, hafterR⟩ := step7_no_domain_records env w h hdone hstat hres
  have hrbd2 : dictLookup (exclusionCleanup env (afterDesired env w)
      (groupByDomain (step7Listing env w))).2 h = none :=
    exclusionCleanup_rbd_none env _ _ h hrbd0
  have hnil2 : (dictLookup (exclusionCleanup env (afterDesired env w)
      (groupByDomain (step7Listing env w))).2 h).getD [] = [] := by
    rw [hrbd2]
    rfl
  have hmemsort : (h, a1) ∈ sortPairs (desiredOf env w) :=
    (mem_sortBy _ (desiredOf env w) (h, a1)).mpr (dictLookup_mem _ h a1 hdes1)
  have huniq : ∀ e ∈ sortPairs (desiredOf env w), e.1 = h → e = (h, a1) := by
    intro e he hEq
    have hl : dictLookup (desiredOf env w) e.1 = some e.2 :=
      dictLookup_of_mem_nodup (desiredOf env w) e.1 e.2
        ((mem_sortBy _ (desiredOf env w) e).mp he)
        (computeDesired_keys_nodup env.instances (pruneOut env w).1.domains)
    rw [hEq, hdes1] at hl
    obtain ⟨e1, e2⟩ := e
    injection hl with hl2
    exact Prod.ext hEq hl2.symm
  have hmemfinal : (⟨h, a1⟩ : DNSRecord) ∈ (sync_once env w).resolver := by
    rw [sync_once_eq, deleteDomainFold_eq]
    refine cleanupDeleteFold_resolver_mem env _ _ _ ?_ _
      (applyDesiredFold_da_mem env _ _ h a1 hnil2 haf huniq _ hmemsort)
    intro dom hdom x hx hEq
    have hd : h = dom := congrArg DNSRecord.domain hEq
    rw [← hd] at hx
    rw [hnil2] at hx
    exact absurd hx (List.not_mem_nil x)
  have hnone : ∀ x, x ≠ a1 → (⟨h, x⟩ : DNSRecord) ∉ (sync_once env w).resolver := by
    intro x hx hmem
    rw [sync_once_eq, deleteDomainFold_eq] at hmem
    have hm8 := cleanupDeleteFold_resolver_sub env _ _ _ _ hmem
    rcases applyDesiredFold_resolver_sub_pair env _ _ _ _ hm8 with hin | ⟨e, he, hEq⟩
    · exact hafterR _ (exclusionCleanup_resolver_sub env _ _ _ hin) rfl
    · have hd : h = e.1 := congrArg DNSRecord.domain hEq
      have hxa : x = e.2 := congrArg DNSRecord.answer hEq
      rw [huniq e he hd.symm] at hxa
      exact hx hxa
  exact ⟨hdes1, hmemfinal, hnone, hwfinal⟩

/-- C4 witness: the amended theorem on `envTwoInstances` with a fresh world:
`core` (10.0.0.1) precedes `edge` (10.0.0.2), the chosen answer is
`10.0.0.1`, the cycle ends with exactly `(app.com, 10.0.0.1)` and logs the
conflict warning. -/
theorem c4_witness :
    envTwoInstances.instances
        = [⟨"core", "http://t1:8080", "10.0.0.1"⟩, ⟨"edge", "http://t2:8080", "10.0.0.2"⟩] ∧
    (dictLookup (desiredOf envTwoInstances wTwoClean) "app.com" = some "10.0.0.1" ∧
      (⟨"app.com", "10.0.0.1"⟩ : DNSRecord) ∈ (sync_once envTwoInstances wTwoClean).resolver ∧
      (∀ x, x ≠ "10.0.0.1" →
        (⟨"app.com", x⟩ : DNSRecord) ∉ (sync_once envTwoInstances wTwoClean).resolver) ∧
      "app.com" ∈ (sync_once envTwoInstances wTwoClean).warnings) :=
  ⟨rfl,
    c4_amended envTwoInstances wTwoClean
      ⟨"core", "http://t1:8080", "10.0.0.1"⟩ ⟨"edge", "http://t2:8080", "10.0.0.2"⟩
      ⟨"app.com", "core", "10.0.0.1", DNSZone.internal, "app@docker"⟩
      ⟨"app.com", "edge", "10.0.0.2", DNSZone.internal, "app@docker"⟩
      "app.com" "10.0.0.1" "10.0.0.2"
      rfl (by decide) rfl rfl (by decide) rfl (by decide)
      rfl rfl (by decide) rfl (by decide) (by decide) (by decide)
      rfl (by decide) rfl rfl rfl (by decide)⟩

/-! ### Quiescence: a converged world is a fixed point issuing no operations -/

theorem exclusionCleanup_empty (env : Env) (w : World)
    (rbd : List (String × List String)) (h : env.exclude_patterns = []) :
    exclusionCleanup env w rbd = (w, rbd) := by
  unfold exclusionCleanup
  rw [h]
  rfl

theorem applyDesiredStep_adopt_trace (env : Env) (rbd : List (String × List String))
    (w : World) (e : String × String)
    (h : (dictLookup rbd e.1).getD [] = [e.2]) :
    (applyDesiredStep env rbd w e).trace = w.trace := by
  rw [applyDesiredStep_eq_adopt env rbd w e h]

theorem applyDesiredFold_adopt_trace (env : Env) (rbd : List (String × List String))
    (L : List (String × String))
    (h : ∀ e ∈ L, (dictLookup rbd e.1).getD [] = [e.2]) :
    ∀ (w : World), ((L.foldl (applyDesiredStep env rbd) w)).trace = w.trace := by
  induction L with
  | nil => exact fun w => rfl
  | cons e t ih =>
      intro w
      rw [List.foldl_cons, ih (fun x hx => h x (List.mem_cons_of_mem e hx)),
        applyDesiredStep_adopt_trace env rbd w e (h e (List.mem_cons_self e t))]

theorem sync_once_quiescent (env : Env) (w : World)
    (hdone : env.startup_cleanup_done = true)
    (hstatics : env.static_rewrites = [])
    (hexclE : env.exclude_patterns = [])
    (hdels : (pruneOut env w).2 = [])
    (hlist : ∀ p ∈ desiredOf env w,
      (dictLookup (groupByDomain (step7Listing env w)) p.1).getD [] = [p.2]) :
    (sync_once env w).trace = w.trace := by
  have hexcl_eq : exclusionCleanup env (afterDesired env w)
      (groupByDomain (step7Listing env w))
      = (afterDesired env w, groupByDomain (step7Listing env w)) :=
    exclusionCleanup_empty env _ _ hexclE
  rw [sync_once_eq, hdels, hexcl_eq]
  show ((sortPairs (desiredOf env w)).foldl
    (applyDesiredStep env (groupByDomain (step7Listing env w)))
    (afterDesired env w)).trace = w.trace
  rw [applyDesiredFold_adopt_trace env (groupByDomain (step7Listing env w))
    (sortPairs (desiredOf env w))
    (fun e he => hlist e ((mem_sortBy _ (desiredOf env w) e).mp he)) (afterDesired env w)]
  rw [afterDesired_trace, afterStatic_id env w hdone hstatics]

/-- C3: idempotence is false in general (see `c3_counterexample`: a static
rewrite conflicting with a proxy-reported answer makes consecutive runs
oscillate forever), but the engine is quiescent on converged states: with no
static rewrites and no exclusion patterns, if the state the first run leaves
behind schedules no state-domain deletions and every desired domain's Step-7
listing is exactly its desired answer, then the second run issues zero
resolver mutations. -/
theorem c3_amended (env : Env) (w0 : World)
    (hstatics : env.static_rewrites = [])
    (hexclE : env.exclude_patterns = [])
    (hdels : (pruneOut { env with startup_cleanup_done := true } (sync_once env w0)).2 = [])
    (hlist : ∀ p ∈ desiredOf { env with startup_cleanup_done := true } (sync_once env w0),
      (dictLookup (groupByDomain (step7Listing { env with startup_cleanup_done := true }
        (sync_once env w0))) p.1).getD [] = [p.2]) :
    (sync_twice env w0).trace = (sync_once env w0).trace := by
  show (sync_once { env with startup_cleanup_done := true } (sync_once env w0)).trace = _
  exact sync_once_quiescent _ _ rfl hstatics hexclE hdels hlist

/-- C3 witness: with a single healthy instance and a fresh world the second
run issues no further operations. -/
theorem c3_witness :
    envClean.static_rewrites = [] ∧
    (sync_twice envClean wClean).trace = (sync_once envClean wClean).trace :=
  ⟨rfl, c3_amended envClean wClean rfl rfl (by decide) (by decide)⟩

/-! ### Duplicate-free domain keys through the cycle; the adopt path -/

theorem keys_dictErase_sub {α : Type} (l : List (String × α)) (k : String) (x : String)
    (h : x ∈ ((dictErase l k).map (fun p => p.1))) : x ∈ l.map (fun p => p.1) := by
  induction l with
  | nil => exact h
  | cons hd tl ih =>
      obtain ⟨k0, v0⟩ := hd
      by_cases h0 : k0 = k
      · simp only [dictErase, if_pos h0] at h
        exact List.mem_cons_of_mem _ (ih h)
      · simp only [dictErase, if_neg h0, List.map_cons] at h
        rcases List.mem_cons.mp h with h' | h'
        · exact h' ▸ List.mem_cons_self _ _
        · exact List.mem_cons_of_mem _ (ih h')

theorem keysNodup_dictErase {α : Type} (l : List (String × α)) (k : String)
    (h : ((l.map (fun p => p.1)).Nodup)) : (((dictErase l k).map (fun p => p.1)).Nodup) := by
  induction l with
  | nil => exact h
  | cons hd tl ih =>
      obtain ⟨k0, v0⟩ := hd
      rw [List.map_cons, List.nodup_cons] at h
      by_cases h0 : k0 = k
      · simp only [dictErase, if_pos h0]
        exact ih h.2
      · simp only [dictErase, if_neg h0, List.map_cons, List.nodup_cons]
        exact ⟨fun hmem => h.1 (keys_dictErase_sub tl k k0 hmem), ih h.2⟩

theorem cleanupSourceFold_keys (removed : List String) (doms : List (String × DomainState)) :
    ∀ (acc : List (String × DomainState) × List String),
      ((doms.foldl (cleanupSourceStep removed) acc)).1.map (fun p => p.1)
        = acc.1.map (fun p => p.1) ++ doms.map (fun p => p.1) := by
  induction doms with
  | nil =>
      intro acc
      rw [List.foldl_nil, List.map_nil, List.append_nil]
  | cons e t ih =>
      intro acc
      rw [List.foldl_cons]
      have hstep : ((cleanupSourceStep removed acc e)).1.map (fun p => p.1)
          = acc.1.map (fun p => p.1) ++ [e.1] := by
        unfold cleanupSourceStep
        split
        · rw [List.map_append]
          rfl
        · dsimp only
          split
          · rw [List.map_append]
            rfl
          · rw [List.map_append]
            rfl
      rw [ih, hstep, List.append_assoc]
      rfl

theorem cleanupSources_keys (removed : List String) (doms : List (String × DomainState)) :
    (cleanupSources removed doms).1.map (fun p => p.1) = doms.map (fun p => p.1) := by
  unfold cleanupSources
  rw [cleanupSourceFold_keys]
  rfl

theorem cleanupDeleteStep_keysNodup (env : Env) (rbd : List (String × List String))
    (w : World) (dom : String)
    (h : ((w.state.domains.map (fun p => p.1)).Nodup)) :
    (((cleanupDeleteStep env rbd w dom).state.domains.map (fun p => p.1)).Nodup) := by
  unfold cleanupDeleteStep
  split
  · exact h
  · dsimp only
    rw [(deleteManagedIfFold_frame env dom ((dictLookup rbd dom).getD []) w).2.1]
    exact keysNodup_dictErase w.state.domains dom h

theorem cleanupDeleteFold_keysNodup (env : Env) (rbd : List (String × List String))
    (doms : List String) : ∀ (w : World),
    ((w.state.domains.map (fun p => p.1)).Nodup) →
    ((((doms.foldl (cleanupDeleteStep env rbd) w)).state.domains.map
      (fun p => p.1)).Nodup) := by
  induction doms with
  | nil => exact fun w h => h
  | cons dm t ih =>
      intro w h
      rw [List.foldl_cons]
      exact ih _ (cleanupDeleteStep_keysNodup env rbd w dm h)

theorem cleanup_keysNodup (env : Env) (w : World)
    (h : ((w.state.domains.map (fun p => p.1)).Nodup)) :
    (((_cleanup_removed_instances env w).state.domains.map (fun p => p.1)).Nodup) := by
  by_cases hr : removedNames env w.state = []
  · rw [cleanup_eq_nil env w hr]
    exact h
  · rw [cleanup_eq_removed env w hr]
    apply cleanupDeleteFold_keysNodup env _ _
      { w with state := { w.state with
          domains := (cleanupSources (removedNames env w.state) w.state.domains).1 } }
    show (((cleanupSources (removedNames env w.state) w.state.domains).1.map
      (fun p => p.1)).Nodup)
    rw [cleanupSources_keys]
    exact h

theorem afterStatic_keysNodup (env : Env) (w : World)
    (h : ((w.state.domains.map (fun p => p.1)).Nodup)) :
    (((afterStatic env w).state.domains.map (fun p => p.1)).Nodup) := by
  unfold afterStatic
  cases hdone : !env.startup_cleanup_done
  · show (((_sync_static_rewrites env w).state.domains.map (fun p => p.1)).Nodup)
    rw [statics_domains]
    exact h
  · show (((_sync_static_rewrites env
        (_cleanup_removed_instances env w)).state.domains.map (fun p => p.1)).Nodup)
    rw [statics_domains]
    exact cleanup_keysNodup env w h

theorem prunePhase_keys (env : Env) (pr : PollResults) (st : PState) :
    (prunePhase env pr st).1.domains.map (fun p => p.1)
      = st.domains.map (fun p => p.1) := by
  rw [prunePhase_domains, List.map_map]
  rfl

theorem desiredFold_key_mem (il : List ProxyInstance) (doms : List (String × DomainState))
    (d a : String) :
    ∀ (acc : List (String × String) × List String),
      dictLookup ((doms.foldl (desiredStep il) acc)).1 d = some a →
      dictLookup acc.1 d = some a ∨ ∃ e ∈ doms, e.1 = d ∧ e.2.sources ≠ [] := by
  induction doms with
  | nil => exact fun acc h => Or.inl h
  | cons e t ih =>
      intro acc h
      rw [List.foldl_cons] at h
      rcases ih _ h with h' | ⟨e', he', h1, h2⟩
      · unfold desiredStep at h'
        split at h'
        · exact Or.inl h'
        · rename_i hsrc
          split at h'
          · exact Or.inl h'
          · dsimp only at h'
            by_cases hed : e.1 = d
            · exact Or.inr ⟨e, List.mem_cons_self e t, hed, hsrc⟩
            · rw [dictLookup_dictSet_ne _ _ _ _ hed] at h'
              exact Or.inl h'
      · exact Or.inr ⟨e', List.mem_cons_of_mem e he', h1, h2⟩

theorem computeDesired_key_mem (il : List ProxyInstance)
    (doms : List (String × DomainState)) (d a : String)
    (h : dictLookup ((computeDesired il doms)).1 d = some a) :
    ∃ e ∈ doms, e.1 = d ∧ e.2.sources ≠ [] := by
  rcases desiredFold_key_mem il doms d a ([], []) h with h' | h'
  · cases h'
  · exact h'

theorem cleanupDeleteFold_newOps_mem (env : Env) (rbd : List (String × List String))
    (doms : List String) : ∀ (w : World),
    NewOpsOnly (fun op => ∃ dom ∈ doms, ∃ x, op = DnsOp.delete dom x) w
      ((doms.foldl (cleanupDeleteStep env rbd) w)) := by
  induction doms with
  | nil => exact fun w => NewOpsOnly_rfl _ _
  | cons dm t ih =>
      intro w op hop
      rw [List.foldl_cons] at hop
      rcases ih _ op hop with h | ⟨dom, hdom, x, hx⟩
      · rcases cleanupDeleteStep_newOps env rbd w dm op h with h' | ⟨x, hx⟩
        · exact Or.inl h'
        · exact Or.inr ⟨dm, List.mem_cons_self dm t, x, hx⟩
      · exact Or.inr ⟨dom, List.mem_cons_of_mem dm hdom, x, hx⟩

theorem applyDesiredStep_self_safe (env : Env) (rbd : List (String × List String))
    (w : World) (d a : String)
    (hlist : a ∈ (dictLookup rbd d).getD [] ∨ (dictLookup rbd d).getD [] = [])
    (hunman : a ∉ managedOf w.state d)
    (hres : (⟨d, a⟩ : DNSRecord) ∈ w.resolver) :
    (⟨d, a⟩ : DNSRecord) ∈ (applyDesiredStep env rbd w (d, a)).resolver ∧
    NewOpsOnly (fun op => op ≠ DnsOp.delete d a) w (applyDesiredStep env rbd w (d, a)) := by
  by_cases h0 : (dictLookup rbd d).getD [] = []
  · rw [applyDesiredStep_eq_add env rbd w (d, a) h0]
    constructor
    · exact dns_add_resolver_mem env w _ _ _ hres
    · intro op hop
      dsimp only at hop
      rw [dns_add_trace] at hop
      rcases List.mem_append.mp hop with h' | h'
      · exact Or.inl h'
      · right
        simp only [List.mem_singleton] at h'
        rw [h']
        intro hEq
        exact DnsOp.noConfusion hEq
  · have ha_in : a ∈ (dictLookup rbd d).getD [] := hlist.resolve_right h0
    by_cases h1 : (dictLookup rbd d).getD [] = [a]
    · rw [applyDesiredStep_eq_adopt env rbd w (d, a) h1]
      exact ⟨hres, NewOpsOnly_rfl _ _⟩
    · have hin_unman : a ∈ ((dictLookup rbd d).getD []).filter
          (fun x => !(_is_record_managed w.state d x)) := by
        apply List.mem_filter.mpr
        refine ⟨ha_in, ?_⟩
        cases hb : _is_record_managed w.state d a with
        | false => simp
        | true => exact absurd ((_is_record_managed_iff w.state d a).mp hb) hunman
      rw [applyDesiredStep_eq_adopt2 env rbd w (d, a) h0 h1 hin_unman]
      have hmem_key : ∀ (L : List String) (w0 : World),
          (⟨d, a⟩ : DNSRecord) ∈ w0.resolver →
          (⟨d, a⟩ : DNSRecord) ∈ ((L.foldl (deleteDupStep env d a) w0)).resolver := by
        intro L
        induction L with
        | nil => exact fun w0 h => h
        | cons x t ih =>
            intro w0 hw0
            rw [List.foldl_cons]
            apply ih
            unfold deleteDupStep
            split
            · rename_i hxa
              refine deleteManagedStep_resolver_mem_ne env d w0 x _ hw0 ?_
              intro hEq
              exact hxa (congrArg DNSRecord.answer hEq).symm
            · exact hw0
      have hops_key : ∀ (L : List String) (w0 : World),
          NewOpsOnly (fun op => op ≠ DnsOp.delete d a) w0
            ((L.foldl (deleteDupStep env d a) w0)) := by
        intro L
        induction L with
        | nil => exact fun w0 => NewOpsOnly_rfl _ _
        | cons x t ih =>
            intro w0 op hop
            rw [List.foldl_cons] at hop
            rcases ih _ op hop with h' | h'
            · unfold deleteDupStep at h'
              split at h'
              · rename_i hxa
                rw [deleteManagedStep_trace] at h'
                rcases List.mem_append.mp h' with h'' | h''
                · exact Or.inl h''
                · right
                  simp only [List.mem_singleton] at h''
                  rw [h'']
                  intro hEq
                  injection hEq with hEq1 hEq2
                  exact hxa hEq2
              · exact Or.inl h'
            · exact Or.inr h'
      constructor
      · exact hmem_key _ { w with state := _mark_record_managed w.state d a } hres
      · refine NewOpsOnly_trans (NewOpsOnly_of_trace_eq _ _
          { w with state := _mark_record_managed w.state d a } rfl) (hops_key _ _)

theorem applyDesiredFold_after_self (env : Env) (rbd : List (String × List String))
    (L : List (String × String)) (d a : String) (hk : ∀ e ∈ L, e.1 ≠ d) :
    ∀ (w : World), (⟨d, a⟩ : DNSRecord) ∈ w.resolver →
      (⟨d, a⟩ : DNSRecord) ∈ ((L.foldl (applyDesiredStep env rbd) w)).resolver ∧
      NewOpsOnly (fun op => op ≠ DnsOp.delete d a) w
        ((L.foldl (applyDesiredStep env rbd) w)) := by
  induction L with
  | nil => exact fun w h => ⟨h, NewOpsOnly_rfl _ _⟩
  | cons e t ih =>
      intro w h
      rw [List.foldl_cons]
      have hstep_mem : (⟨d, a⟩ : DNSRecord) ∈ (applyDesiredStep env rbd w e).resolver :=
        applyDesiredStep_resolver_mem env rbd w e _ h
          (fun hEq => hk e (List.mem_cons_self e t) hEq.symm)
      have hrec := ih (fun x hx => hk x (List.mem_cons_of_mem e hx)) _ hstep_mem
      refine ⟨hrec.1, NewOpsOnly_trans ?_ hrec.2⟩
      intro op hop
      rcases applyDesiredStep_newOps env rbd w e op hop with h' | h' | h'
      · exact Or.inl h'
      · obtain ⟨x, hx⟩ := h'
        right
        rw [hx]
        intro hEq
        exact DnsOp.noConfusion hEq
      · obtain ⟨x, hx⟩ := h'
        right
        rw [hx]
        intro hEq
        injection hEq with hEq1 hEq2
        exact hk e (List.mem_cons_self e t) hEq1

theorem applyDesiredFold_self_safe (env : Env) (rbd : List (String × List String))
    (L : List (String × String)) (d a : String)
    (hlist : a ∈ (dictLookup rbd d).getD [] ∨ (dictLookup rbd d).getD [] = [])
    (hmemL : (d, a) ∈ L)
    (hndk : ((L.map (fun p => p.1)).Nodup)) :
    ∀ (w : World), a ∉ managedOf w.state d → (⟨d, a⟩ : DNSRecord) ∈ w.resolver →
      (⟨d, a⟩ : DNSRecord) ∈ ((L.foldl (applyDesiredStep env rbd) w)).resolver ∧
      NewOpsOnly (fun op => op ≠ DnsOp.delete d a) w
        ((L.foldl (applyDesiredStep env rbd) w)) := by
  induction L with
  | nil => exact fun w _ _ => absurd hmemL (List.not_mem_nil _)
  | cons e t ih =>
      intro w hm hr
      rw [List.map_cons, List.nodup_cons] at hndk
      rw [List.foldl_cons]
      by_cases hed : e.1 = d
      · have he : e = (d, a) := by
          rcases List.mem_cons.mp hmemL with h' | h'
          · exact h'.symm
          · exfalso
            apply hndk.1
            rw [hed]
            exact List.mem_map.mpr ⟨(d, a), h', rfl⟩
        subst he
        have hself := applyDesiredStep_self_safe env rbd w d a hlist hm hr
        have hkt : ∀ x ∈ t, x.1 ≠ d := by
          intro x hx hEq
          apply hndk.1
          rw [hed]
          exact List.mem_map.mpr ⟨x, hx, hEq⟩
        have hrec := applyDesiredFold_after_self env rbd t d a hkt _ hself.1
        exact ⟨hrec.1, NewOpsOnly_trans hself.2 hrec.2⟩
      · have hmt : (d, a) ∈ t := by
          rcases List.mem_cons.mp hmemL with h' | h'
          · exfalso
            apply hed
            rw [← h']
          · exact h'
        have hstep_mem : (⟨d, a⟩ : DNSRecord) ∈ (applyDesiredStep env rbd w e).resolver :=
          applyDesiredStep_resolver_mem env rbd w e _ hr (fun hEq => hed hEq.symm)
        have hstep_man : a ∉ managedOf (applyDesiredStep env rbd w e).state d := by
          rw [applyDesiredStep_managed_ne env rbd w e d hed]
          exact hm
        have hrec := ih hmt hndk.2 _ hstep_man hstep_mem
        refine ⟨hrec.1, NewOpsOnly_trans ?_ hrec.2⟩
        intro op hop
        rcases applyDesiredStep_newOps env rbd w e op hop with h' | h' | h'
        · exact Or.inl h'
        · obtain ⟨x, hx⟩ := h'
          right
          rw [hx]
          intro hEq
          exact DnsOp.noConfusion hEq
        · obtain ⟨x, hx⟩ := h'
          right
          rw [hx]
          intro hEq
          injection hEq with hEq1 hEq2
          exact hed hEq1

/-- C1: the claim is recoverable with one forced proviso. If `(d, a)` is in
the resolver, `a` is not in `managed_records[d]`, no `delete (d, a)` has
been traced yet, `d` matches no exclusion pattern, `d` is not a
static-rewrite key, and the state's domain keys are duplicate-free (as for
every real Python dict), then the cycle keeps `(d, a)` in the resolver and
never issues `delete_record(d, a)`: when `d`'s desired answer differs from
`a` every delete site stays managed-guarded away from the record, and when
it equals `a` Step 8 lands in an adopt branch that marks the record without
deleting it (and `d`, being a desired key, is not in
`domains_to_delete_from_state`). The static proviso is forced: a static
rewrite for `d` first adopts the record and then deletes it in the same
cycle — see `c1_counterexample`. -/
theorem c1_amended (env : Env) (w : World) (d a : String)
    (hmem : (⟨d, a⟩ : DNSRecord) ∈ w.resolver)
    (hunman : a ∉ managedOf w.state d)
    (htrace : DnsOp.delete d a ∉ w.trace)
    (hexcl : _is_domain_excluded d env.exclude_patterns = false)
    (hstat : dictLookup env.static_rewrites d = none)
    (hnd : ((w.state.domains.map (fun p => p.1)).Nodup)) :
    (⟨d, a⟩ : DNSRecord) ∈ (sync_once env w).resolver ∧
    DnsOp.delete d a ∉ (sync_once env w).trace := by
  have h0 : UnmanagedIntact d a w := ⟨hunman, hmem, htrace⟩
  have h1 : UnmanagedIntact d a (afterStatic env w) := by
    unfold afterStatic
    cases hdone : !env.startup_cleanup_done
    · exact statics_intact env w d a hstat h0
    · exact statics_intact env _ d a hstat (cleanup_intact env w d a h0)
  have h2 : UnmanagedIntact d a (afterDesired env w) := afterDesired_intact env w d a h1
  have h3 : UnmanagedIntact d a (exclusionCleanup env (afterDesired env w)
      (groupByDomain (step7Listing env w))).1 :=
    exclusionCleanup_intact env (afterDesired env w) _ d a h2
  have hnodup : ((desiredOf env w).map (fun p => p.1)).Nodup :=
    computeDesired_keys_nodup env.instances (pruneOut env w).1.domains
  have hlist2 : a ∈ (dictLookup (exclusionCleanup env (afterDesired env w)
        (groupByDomain (step7Listing env w))).2 d).getD [] ∨
      (dictLookup (exclusionCleanup env (afterDesired env w)
        (groupByDomain (step7Listing env w))).2 d).getD [] = [] := by
    rcases exclusionCleanup_rbd_lookup_or env (afterDesired env w)
        (groupByDomain (step7Listing env w)) d with h' | h'
    · rw [h', groupByDomain_lookup]
      by_cases hLF : env.listFails = true
      · rw [step7Listing_listFail env w hLF]
        exact Or.inr rfl
      · left
        rw [mem_answersOf]
        unfold step7Listing dns_get_records
        rw [if_neg hLF]
        exact h2.2.1
    · rw [h']
      exact Or.inr rfl
  by_cases hdd : dictLookup (desiredOf env w) d = some a
  · -- d's desired answer IS a: Step 8 adopts the record without deleting it
    have hndAS : (((afterStatic env w).state.domains.map (fun p => p.1)).Nodup) :=
      afterStatic_keysNodup env w hnd
    have hndpolled : (((pollOut env w).1.state.domains.map (fun p => p.1)).Nodup) := by
      show ((((pollPhase env (afterStatic env w))).1.state.domains.map
        (fun p => p.1)).Nodup)
      unfold pollPhase
      exact pollFold_keysNodup env env.instances ((afterStatic env w), ⟨[], []⟩) hndAS
    have hdnot : d ∉ (pruneOut env w).2 := by
      intro hdm
      have hdm' : d ∈ ((pollOut env w).1.state.domains.filter
          (fun e => decide (pruneSources env (pollOut env w).2 e.1 e.2.sources = []))).map
          (fun e => e.1) := by
        have hx : d ∈ (prunePhase env (pollOut env w).2 (pollOut env w).1.state).2 := hdm
        rw [prunePhase_dels] at hx
        exact hx
      obtain ⟨e', he', heq'⟩ := List.mem_map.mp hdm'
      obtain ⟨hemem, hecond⟩ := List.mem_filter.mp he'
      obtain ⟨e, he, he1, hesrc⟩ := computeDesired_key_mem env.instances
        (pruneOut env w).1.domains d a hdd
      have he2 : e ∈ ((pollOut env w).1.state.domains).map
          (fun e0 => (e0.1, (⟨pruneSources env (pollOut env w).2 e0.1 e0.2.sources⟩ :
            DomainState))) := by
        have hx : e ∈ (prunePhase env (pollOut env w).2 (pollOut env w).1.state).1.domains :=
          he
        rw [prunePhase_domains] at hx
        exact hx
      obtain ⟨orig, horig, horigeq⟩ := List.mem_map.mp he2
      have horig1 : orig.1 = d := by
        rw [← horigeq] at he1
        exact he1
      have hsrcO : pruneSources env (pollOut env w).2 orig.1 orig.2.sources ≠ [] := by
        rw [← horigeq] at hesrc
        exact hesrc
      have hcondE : pruneSources env (pollOut env w).2 e'.1 e'.2.sources = [] :=
        of_decide_eq_true hecond
      have hmemO : (d, orig.2) ∈ (pollOut env w).1.state.domains := by
        rw [← horig1]
        exact horig
      have hmemE : (d, e'.2) ∈ (pollOut env w).1.state.domains := by
        rw [← heq']
        exact hemem
      have hlk1 := dictLookup_of_mem_nodup _ d orig.2 hmemO hndpolled
      have hlk2 := dictLookup_of_mem_nodup _ d e'.2 hmemE hndpolled
      rw [hlk1] at hlk2
      injection hlk2 with hval
      apply hsrcO
      rw [horig1, hval]
      rw [heq'] at hcondE
      exact hcondE
    have hmemsort : (d, a) ∈ sortPairs (desiredOf env w) :=
      (mem_sortBy _ (desiredOf env w) (d, a)).mpr (dictLookup_mem _ d a hdd)
    have hndkeys : (((sortPairs (desiredOf env w)).map (fun p => p.1)).Nodup) := by
      have hperm : (sortPairs (desiredOf env w)).Perm (desiredOf env w) :=
        sortBy_perm _ _
      exact ((hperm.map (fun p => p.1)).nodup_iff).mpr hnodup
    have h8 := applyDesiredFold_self_safe env
      (exclusionCleanup env (afterDesired env w) (groupByDomain (step7Listing env w))).2
      (sortPairs (desiredOf env w)) d a hlist2 hmemsort hndkeys
      (exclusionCleanup env (afterDesired env w) (groupByDomain (step7Listing env w))).1
      h3.1 h3.2.1
    constructor
    · rw [sync_once_eq, deleteDomainFold_eq]
      refine cleanupDeleteFold_resolver_mem env _ _ _ ?_ _ h8.1
      intro dom hdom x hx hEq
      have hd : d = dom := congrArg DNSRecord.domain hEq
      apply hdnot
      rw [hd]
      exact (mem_sortBy _ (pruneOut env w).2 dom).mp hdom
    · rw [sync_once_eq, deleteDomainFold_eq]
      intro hdel
      rcases cleanupDeleteFold_newOps_mem env
          (exclusionCleanup env (afterDesired env w) (groupByDomain (step7Listing env w))).2
          (sortStrings (pruneOut env w).2) _ (DnsOp.delete d a) hdel with h9 | hP9
      · rcases h8.2 (DnsOp.delete d a) h9 with h8t | hne
        · exact h3.2.2 h8t
        · exact hne rfl
      · obtain ⟨dom, hdom, x, hx⟩ := hP9
        injection hx with hd1 hd2
        apply hdnot
        rw [hd1]
        exact (mem_sortBy _ (pruneOut env w).2 dom).mp hdom
  · -- d's desired answer is not a: the record stays unmanaged throughout
    have hda : ∀ e ∈ sortPairs (desiredOf env w), e.1 = d → e.2 ≠ a := by
      intro e he hd heq
      have hl : dictLookup (desiredOf env w) e.1 = some e.2 :=
        dictLookup_of_mem_nodup (desiredOf env w) e.1 e.2
          ((mem_sortBy _ (desiredOf env w) e).mp he) hnodup
      rw [hd, heq] at hl
      exact hdd hl
    have hmem2 : ∀ e ∈ sortPairs (desiredOf env w), e.1 = d →
        a ∈ (dictLookup (exclusionCleanup env (afterDesired env w)
            (groupByDomain (step7Listing env w))).2 e.1).getD [] ∨
        (dictLookup (exclusionCleanup env (afterDesired env w)
            (groupByDomain (step7Listing env w))).2 e.1).getD [] = [] := by
      intro e he hd
      rw [hd]
      exact hlist2
    have h4 : UnmanagedIntact d a (sync_once env w) := by
      rw [sync_once_eq]
      exact deleteDomainFold_intact env _ _ d a _
        (applyDesiredFold_intact2 env _ _ d a hda hmem2 _ h3)
    exact ⟨h4.2.1, h4.2.2⟩

/-- C1 witness: in `envClean` with the unmanaged pre-existing
`(app.com, 1.2.3.4)` — which IS the cycle's desired pair — the record
survives the cycle and no delete is issued for it (the adopt path). -/
theorem c1_witness :
    (⟨"app.com", "1.2.3.4"⟩ : DNSRecord) ∈ wUnmanagedAdopt.resolver ∧
    ("1.2.3.4" ∉ managedOf wUnmanagedAdopt.state "app.com") ∧
    dictLookup (desiredOf envClean wUnmanagedAdopt) "app.com" = some "1.2.3.4" ∧
    ((⟨"app.com", "1.2.3.4"⟩ : DNSRecord) ∈
        (sync_once envClean wUnmanagedAdopt).resolver ∧
      DnsOp.delete "app.com" "1.2.3.4" ∉
        (sync_once envClean wUnmanagedAdopt).trace) :=
  ⟨by decide, by decide, by decide,
    c1_amended envClean wUnmanagedAdopt "app.com" "1.2.3.4"
      (by decide) (by decide) (by decide) (by decide) rfl (by decide)⟩
